import Mathlib

/-!
Trainer.cpp of thundergbm: a verification development

A shallow embedding of `src/Trainer.cpp` (the GBDT trainer) and theorems about it.

Conventions of the embedding
* `double` values are exact numbers: the feature values of the index live in any linearly
  ordered type `V`, the gradients, gains and weights in `ℚ`.
* `int` values are `Int` (or `Nat` where the code only counts upwards from zero); no
  instance count or depth of this development gets near `2^31`.
* `std::vector` is `List`; in the embedding of `Trainer.cpp` a read `v[i]` outside
  `0 ≤ i < v.size()` is an error of the model (`none` / `Outcome.fault`), never a silently
  invented value.
* `std::sort` is a parameter `srt` of the embedding, constrained only by the contract of the
  C++ standard library (`StdSort`): no stability or tie order is assumed.
-/

namespace Trainer

/-! ## Feature index: `CmpValue` and `SortFeaValue` (Trainer.cpp 27-93) -/

/-- The pair type `key_value`: an `id` (a feature id inside an instance, an instance id
inside a feature column) and a `featureValue`. -/
structure key_value (V : Type) where
  id : Int
  featureValue : V
deriving DecidableEq, Repr

/-- The comparator `CmpValue(a, b)`: `a.featureValue > b.featureValue` (Trainer.cpp 30-33). -/
def CmpValue {V : Type} [LinearOrder V] (a b : key_value V) : Bool :=
  decide (a.featureValue > b.featureValue)

/-- The requirement `std::sort` puts on its comparator: a strict weak ordering. -/
def StrictWeakOrdering {α : Type} (cmp : α → α → Bool) : Prop :=
  (∀ a, cmp a a = false) ∧
  (∀ a b c, cmp a b = true → cmp b c = true → cmp a c = true) ∧
  (∀ a b c, cmp a b = false → cmp b a = false → cmp b c = false → cmp c b = false →
    cmp a c = false ∧ cmp c a = false)

/-- The contract of `std::sort(first, last, comp)`: for a strict weak ordering `comp` the
result is a rearrangement of the input in which no later element is `comp`-before an
earlier one. Nothing is promised about the order of equivalent elements. -/
def StdSort {α : Type} (srt : (α → α → Bool) → List α → List α) : Prop :=
  ∀ cmp l, StrictWeakOrdering cmp →
    (srt cmp l).Perm l ∧ (srt cmp l).Pairwise (fun a b => cmp b a = false)

/-- One sorting routine that meets `StdSort`: insertion sort. It is used to run the
embedding on concrete inputs. -/
def insertionStdSort {α : Type} (cmp : α → α → Bool) (l : List α) : List α :=
  l.insertionSort (fun a b => cmp b a = false)

/-- Body of the inner loop of `SortFeaValue` (Trainer.cpp 74-86) for feature `j` and the
instance `i`; the state is `(featurePair, vCurParsePos)`. -/
def scanInstance {V : Type} (m_vvInsSparse : List (List (key_value V))) (j : Int)
    (st : List (key_value V) × List Nat) (i : Nat) :
    Option (List (key_value V) × List Nat) :=
  match m_vvInsSparse[i]?, st.2[i]? with
  | some inst, some curTop =>
    if inst.length = curTop then some st
    else
      match inst[curTop]? with
      | none => none
      | some e =>
        if e.id = j then
          some (st.1 ++ [⟨(i : Int), e.featureValue⟩], st.2.set i (curTop + 1))
        else some st
  | _, _ => none

/-- Body of the outer loop of `SortFeaValue` (Trainer.cpp 71-91) for feature `j`; the state
is `(splitter.m_vvFeaInxPair, vCurParsePos)`. -/
def scanFeature {V : Type} [LinearOrder V]
    (srt : (key_value V → key_value V → Bool) → List (key_value V) → List (key_value V))
    (m_vvInsSparse : List (List (key_value V)))
    (st : List (List (key_value V)) × List Nat) (j : Nat) :
    Option (List (List (key_value V)) × List Nat) :=
  match (List.range m_vvInsSparse.length).foldlM (scanInstance m_vvInsSparse (j : Int))
      (([] : List (key_value V)), st.2) with
  | none => none
  | some (featurePair, vCurParsePos) => some (st.1 ++ [srt CmpValue featurePair], vCurParsePos)

/-- The method `Trainer::SortFeaValue(nNumofDim)` (Trainer.cpp 59-93): from the instances
`m_vvInsSparse` and the index `m_vvFeaInxPair` held by the splitter before the call, the
index after the call. `none` is an out-of-range read. -/
def SortFeaValue {V : Type} [LinearOrder V]
    (srt : (key_value V → key_value V → Bool) → List (key_value V) → List (key_value V))
    (m_vvInsSparse : List (List (key_value V))) (nNumofDim : Int)
    (m_vvFeaInxPair : List (List (key_value V))) : Option (List (List (key_value V))) :=
  let nNumofIns := m_vvInsSparse.length
  let vCurParsePos := List.replicate nNumofIns 0
  ((List.range nNumofDim.toNat).foldlM (scanFeature srt m_vvInsSparse)
    (m_vvFeaInxPair, vCurParsePos)).map Prod.fst

/-! ### Analysis of the cursor merge -/

/-- The cursor of one instance after feature `j` was scanned, from cursor `c` before. -/
def advance {V : Type} (inst : List (key_value V)) (j : Int) (c : Nat) : Nat :=
  match inst[c]? with
  | some e => if e.id = j then c + 1 else c
  | none => c

/-- The value an instance contributes to column `j` when its cursor is `c`. -/
def emitted {V : Type} (inst : List (key_value V)) (j : Int) (c : Nat) : Option V :=
  match inst[c]? with
  | some e => if e.id = j then some e.featureValue else none
  | none => none

/-- The cursor of one instance when the scan of feature `j` starts. -/
def cursorAt {V : Type} (inst : List (key_value V)) : Nat → Nat
  | 0 => 0
  | j + 1 => advance inst (j : Int) (cursorAt inst j)

/-- The entry instance `i` contributes to column `j`, if any. -/
def contribution {V : Type} (ins : List (List (key_value V))) (j : Nat) (i : Nat) :
    Option (key_value V) :=
  match ins[i]? with
  | some inst => (emitted inst (j : Int) (cursorAt inst j)).map (fun v => ⟨(i : Int), v⟩)
  | none => none

/-- The entries collected for feature `j`, in instance order, before sorting. -/
def collected {V : Type} (ins : List (List (key_value V))) (j : Nat) : List (key_value V) :=
  (List.range ins.length).filterMap (contribution ins j)

/-- The cursor vector while feature `j` is scanned, when instances `0..k-1` are done. -/
def cursorsDuring {V : Type} (ins : List (List (key_value V))) (j k : Nat) : List Nat :=
  (List.range ins.length).map
    (fun i => cursorAt (ins.getD i []) (if i < k then j + 1 else j))


/-! ## Data of the trainer

`Trainer.cpp` includes `Trainer.h`, `Predictor.h`, `TreeNode.h` and `PrintTree.h`, none of
which is part of the sources at hand. The record types below carry the members that
`Trainer.cpp` names; members known from the specification only are marked as such. -/

/-- The pair `gdpair`: first and second order gradient of one instance (`grad`, `hess`:
Trainer.cpp 229-230). -/
structure gdpair where
  grad : ℚ
  hess : ℚ
deriving DecidableEq, Repr

/-- Modelled from the spec: the default-constructed `gdpair` that `InitTrainer` pushes
(Trainer.cpp 49-50); the constructor is declared in a header outside src, the spec only says
that every pair is recomputed each round. Both members start at zero here. -/
def gdpair.init : gdpair := ⟨0, 0⟩

/-- Modelled from the spec: `nodeStat`, the (sum of gradients, sum of hessians) of the
instances of an open node (spec §3, NodeStat); declared in a header outside src. -/
structure nodeStat where
  sum_gd : ℚ
  sum_hess : ℚ
deriving DecidableEq, Repr

/-- The value-initialised `nodeStat` that `resize` fills in. -/
def nodeStat.init : nodeStat := ⟨0, 0⟩

/-- Modelled from the spec: `SplitPoint`, the best candidate of one node (spec §3: feature
id, threshold, gain, left and right NodeStat). `Trainer.cpp` names `m_fGain` only; the type
is declared in a header outside src. -/
structure SplitPoint where
  m_fGain : ℚ
  featureId : Int
  threshold : ℚ
  leftStat : nodeStat
  rightStat : nodeStat
deriving DecidableEq, Repr

/-- The value-initialised `SplitPoint` that `resize` fills in: no feature, gain zero. -/
def SplitPoint.init : SplitPoint := ⟨0, -1, 0, nodeStat.init, nodeStat.init⟩

/-- The node type `TreeNode`. `nodeId`, `level`, `startId`, `endId` and `predValue` are the
members `Trainer.cpp` names (198-205, 353); split feature, threshold and child ids are the
members of spec §3 (the type is declared in `TreeNode.h`, outside src). -/
structure TreeNode where
  nodeId : Int
  level : Int
  startId : Int
  endId : Int
  predValue : ℚ
  featureId : Int
  threshold : ℚ
  leftChildId : Int
  rightChildId : Int
deriving DecidableEq, Repr

/-- The node `new TreeNode[1]` yields before any member is assigned: no split, no child. -/
def TreeNode.init : TreeNode := ⟨0, 0, 0, 0, 0, -1, 0, -1, -1⟩

/-- A regression tree `RegTree`: `nodes` is a `vector<TreeNode*>`. A pointer is the address
of a node in the heap of the trainer state, i.e. a position of `TrainerState.heap`. -/
structure RegTree where
  nodes : List Nat
deriving DecidableEq, Repr

/-- Ghost history: the calls `TrainGBDT` and `GrowTree2` make to their collaborators and the
`push_back` onto the ensemble, in the order they happen, with the arguments that matter.
The history is written only; no decision of the embedding reads it. -/
inductive Call where
  | PredictSparseIns (vTree : List RegTree) (heap : List TreeNode) (v_fPredValue : List ℚ)
  | ComputeGDSparse (v_fPredValue : List ℚ)
  | FeaFinderAllNode
  | ComputeWeightSparseData (bufferPos : Int)
  | SplitNodeSparseData (node : Nat) (best : SplitPoint)
  | MarkProcessed (nodeId : Int)
  | UpdateNodeStat (newSplittableNode : List Nat)
  | push_back (tree : RegTree)
deriving DecidableEq, Repr

/-- The member object `splitter`. The members `Trainer.cpp` reads or writes by name are
fields; `rest : X` stands for everything else the class holds (its declaration is outside
src), among it the container `mapNodeIdToBufferPos`. -/
structure Splitter (X : Type) where
  m_labda : ℚ
  m_gamma : ℚ
  m_vGDPair_fixedPos : List gdpair
  m_vvFeaInxPair : List (List (key_value ℚ))
  m_nodeIds : List Int
  rest : X
deriving DecidableEq, Repr

/-- What `SplitNodeSparseData` hands back: the splitter, the heap and the four arguments it
takes by reference. -/
structure SplitOut (X : Type) where
  splitter : Splitter X
  heap : List TreeNode
  newSplittableNode : List Nat
  tree : RegTree
  newNodeStat : List nodeStat
  m_nNumofNode : Int

/-- The functions of this repository that `TrainGBDT` and `GrowTree2` call and whose bodies
are outside src: the methods of `Splitter`, reads of its container `mapNodeIdToBufferPos`
(`none`: no such element), and `Predictor::PredictSparseIns`. They are parameters of the
embedding. `FeaFinderAllNode` receives the four freshly resized vectors and returns `vBest`,
the only one read afterwards; `UpdateNodeStat` and `PredictSparseIns` read the nodes and the
vectors they are given, the predictor also returns its scratch buffer. -/
structure Collaborators (X : Type) where
  mapNodeIdToBufferPos_size : Splitter X → Nat
  mapNodeIdToBufferPos_at : Splitter X → Int → Option Int
  ComputeGDSparse : Splitter X → List ℚ → List ℚ → Splitter X
  FeaFinderAllNode : Splitter X → List SplitPoint → List nodeStat → List nodeStat → List ℚ →
    Splitter X × List SplitPoint
  ComputeWeightSparseData : Splitter X → Int → ℚ × Splitter X
  SplitNodeSparseData : Splitter X → List TreeNode → Nat → List Nat → SplitPoint → RegTree →
    List nodeStat → Int → SplitOut X
  MarkProcessed : Splitter X → Int → Splitter X
  UpdateNodeStat : Splitter X → List TreeNode → List Nat → List nodeStat → Splitter X
  PredictSparseIns : List TreeNode → List (List (key_value ℚ)) → List RegTree → List ℚ →
    List ℚ × List ℚ

/-- The state of a `Trainer`: the members `Trainer.cpp` uses on the sparse path, the heap
all `TreeNode` objects live in, and the ghost history `calls`. The two timing accumulators
are left out. -/
structure TrainerState (X : Type) where
  m_nMaxNumofTree : Int
  m_nMaxDepth : Int
  m_nNumofNode : Int
  m_vvInsSparse : List (List (key_value ℚ))
  m_vTrueValue_fixedPos : List ℚ
  m_vPredBuffer_fixedPos : List ℚ
  splitter : Splitter X
  heap : List TreeNode
  calls : List Call
deriving DecidableEq, Repr

/-- How a run of a loop that may not end is reported: `done` with the result, `fault` for a
read outside a vector or through a pointer to no node, `outOfFuel` when the allowed number
of level iterations did not suffice. -/
inductive Outcome (α : Type) where
  | done (a : α)
  | fault
  | outOfFuel
deriving DecidableEq, Repr

/-- Element `v[i]` of a vector for an `int` index. -/
def vecAt {α : Type} (v : List α) (i : Int) : Option α :=
  if 0 ≤ i then v[i.toNat]? else none

/-! ## `InitTrainer`, `InitTree`, `ComputeGD` (Trainer.cpp 38-54, 196-232) -/

/-- The method `Trainer::InitTrainer` (Trainer.cpp 38-54). -/
def InitTrainer {X : Type}
    (srt : (key_value ℚ → key_value ℚ → Bool) → List (key_value ℚ) → List (key_value ℚ))
    (st : TrainerState X) (nNumofTree nMaxDepth : Int) (fLabda fGamma : ℚ) (nNumofFea : Int) :
    Option (TrainerState X) :=
  let n := st.m_vvInsSparse.length
  let sp : Splitter X :=
    { st.splitter with
      m_labda := fLabda
      m_gamma := fGamma
      m_vGDPair_fixedPos := st.splitter.m_vGDPair_fixedPos ++ List.replicate n gdpair.init }
  match SortFeaValue srt st.m_vvInsSparse nNumofFea sp.m_vvFeaInxPair with
  | none => none
  | some idx =>
    some { st with
      m_nMaxNumofTree := nNumofTree
      m_nMaxDepth := nMaxDepth
      m_vPredBuffer_fixedPos := st.m_vPredBuffer_fixedPos ++ List.replicate n 0
      splitter := { sp with m_vvFeaInxPair := idx } }

/-- The method `Trainer::InitTree(tree)` (Trainer.cpp 196-218): allocates the root, appends its address
to `tree.nodes`, resets the node counter and assigns every instance to node 0. -/
def InitTree {X : Type} (st : TrainerState X) (tree : RegTree) : TrainerState X × RegTree :=
  let root : TreeNode :=
    { TreeNode.init with
      nodeId := 0
      level := 0
      startId := 0
      endId := (st.m_vvInsSparse.length : Int) - 1 }
  ({ st with
      m_nNumofNode := 1
      heap := st.heap ++ [root]
      splitter := { st.splitter with m_nodeIds := List.replicate st.m_vvInsSparse.length 0 } },
    { nodes := tree.nodes ++ [st.heap.length] })

/-- Body of the loop of `ComputeGD` (Trainer.cpp 229-230) for instance `i`. -/
def computeGDStep (v_fPredValue m_vTrueValue : List ℚ) (m_vGDPair : List gdpair) (i : Nat) :
    Option (List gdpair) :=
  match v_fPredValue[i]?, m_vTrueValue[i]?, m_vGDPair[i]? with
  | some p, some t, some gd => some (m_vGDPair.set i { gd with grad := p - t, hess := 1 })
  | _, _, _ => none

/-- The method `Trainer::ComputeGD(v_fPredValue)` (Trainer.cpp 223-232) on the members `m_vTrueValue`
and `m_vGDPair`; the result is `m_vGDPair` after the call, `none` an out-of-range access. -/
def ComputeGD (m_vTrueValue : List ℚ) (m_vGDPair : List gdpair) (v_fPredValue : List ℚ) :
    Option (List gdpair) :=
  (List.range m_vTrueValue.length).foldlM (computeGDStep v_fPredValue m_vTrueValue) m_vGDPair

/-! ## `GrowTree2` (Trainer.cpp 309-376) -/

/-- What the loop over the frontier of one level carries along. -/
structure LevelState (X : Type) where
  st : TrainerState X
  tree : RegTree
  newSplittableNode : List Nat
  newNodeStat : List nodeStat
deriving DecidableEq, Repr

/-- The leaf branch (Trainer.cpp 353): the weight of `bufferPos` is computed and stored in
the node's `predValue`. -/
def resolveAsLeaf {X : Type} (c : Collaborators X) (ls : LevelState X) (node : Nat)
    (nd : TreeNode) (bufferPos : Int) : LevelState X :=
  let r := c.ComputeWeightSparseData ls.st.splitter bufferPos
  { ls with
    st := { ls.st with
      splitter := r.2
      heap := ls.st.heap.set node { nd with predValue := r.1 }
      calls := ls.st.calls ++ [Call.ComputeWeightSparseData bufferPos] } }

/-- The split branch (Trainer.cpp 359): the split routine is called on the node with its
best split point. -/
def resolveBySplit {X : Type} (c : Collaborators X) (ls : LevelState X) (node : Nat)
    (best : SplitPoint) : LevelState X :=
  let o := c.SplitNodeSparseData ls.st.splitter ls.st.heap node ls.newSplittableNode best
    ls.tree ls.newNodeStat ls.st.m_nNumofNode
  { st := { ls.st with
      splitter := o.splitter
      heap := o.heap
      m_nNumofNode := o.m_nNumofNode
      calls := ls.st.calls ++ [Call.SplitNodeSparseData node best] }
    tree := o.tree
    newSplittableNode := o.newSplittableNode
    newNodeStat := o.newNodeStat }

/-- The call `splitter.MarkProcessed(splittableNode[n]->nodeId)` (Trainer.cpp 364). -/
def markProcessed {X : Type} (c : Collaborators X) (ls : LevelState X) (node : Nat) :
    Option (LevelState X) :=
  match ls.st.heap[node]? with
  | none => none
  | some nd =>
    some { ls with
      st := { ls.st with
        splitter := c.MarkProcessed ls.st.splitter nd.nodeId
        calls := ls.st.calls ++ [Call.MarkProcessed nd.nodeId] } }

/-- Body of the loop over the frontier (Trainer.cpp 347-364) for the frontier node at
address `node`, in the level whose counter is `nCurDepth`. -/
def resolveNode {X : Type} (c : Collaborators X) (vBest : List SplitPoint) (nCurDepth : Int)
    (ls : LevelState X) (node : Nat) : Option (LevelState X) :=
  match ls.st.heap[node]? with
  | none => none
  | some nd =>
    match c.mapNodeIdToBufferPos_at ls.st.splitter nd.nodeId with
    | none => none
    | some bufferPos =>
      match vecAt vBest bufferPos with
      | none => none
      | some best =>
        if best.m_fGain ≤ 0 ∨ ls.st.m_nMaxDepth = nCurDepth then
          markProcessed c (resolveAsLeaf c ls node nd bufferPos) node
        else
          markProcessed c (resolveBySplit c ls node best) node

/-- The call of the Split Finder at the head of a level (Trainer.cpp 325-337): the state
after it and `vBest`. -/
def findSplits {X : Type} (c : Collaborators X) (st : TrainerState X) :
    TrainerState X × List SplitPoint :=
  let bufferSize := c.mapNodeIdToBufferPos_size st.splitter
  let r := c.FeaFinderAllNode st.splitter (List.replicate bufferSize SplitPoint.init)
    (List.replicate bufferSize nodeStat.init) (List.replicate bufferSize nodeStat.init)
    (List.replicate bufferSize 0)
  ({ st with splitter := r.1, calls := st.calls ++ [Call.FeaFinderAllNode] }, r.2)

/-- One pass of the body of the `while` loop (Trainer.cpp 325-374) with level counter
`nCurDepth`; `newSplittableNode` of the result is the next `splittableNode`. -/
def growLevel {X : Type} (c : Collaborators X) (nCurDepth : Int) (st : TrainerState X)
    (tree : RegTree) (splittableNode : List Nat) : Option (LevelState X) :=
  let f := findSplits c st
  match splittableNode.foldlM (resolveNode c f.2 nCurDepth)
      { st := f.1, tree := tree, newSplittableNode := [], newNodeStat := [] } with
  | none => none
  | some ls =>
    some { ls with
      st := { ls.st with
        splitter := c.UpdateNodeStat ls.st.splitter ls.st.heap ls.newSplittableNode
          ls.newNodeStat
        calls := ls.st.calls ++ [Call.UpdateNodeStat ls.newSplittableNode] } }

/-- What `GrowTree2` leaves behind: the trainer state, the tree, and the final value of the
level counter `nCurDepth`, which is the number of passes of the `while` loop. -/
structure Grown (X : Type) where
  st : TrainerState X
  tree : RegTree
  nCurDepth : Int
deriving DecidableEq, Repr

/-- The `while` loop of `GrowTree2` (Trainer.cpp 322-375); `nNumofSplittableNode` is the
size of `splittableNode` throughout. `fuel` bounds the number of passes. -/
def growLoop {X : Type} (c : Collaborators X) :
    Nat → Int → TrainerState X → RegTree → List Nat → Outcome (Grown X)
  | _, nCurDepth, st, tree, [] => Outcome.done ⟨st, tree, nCurDepth⟩
  | 0, _, _, _, _ :: _ => Outcome.outOfFuel
  | fuel + 1, nCurDepth, st, tree, n :: ns =>
    match growLevel c nCurDepth st tree (n :: ns) with
    | none => Outcome.fault
    | some ls => growLoop c fuel (nCurDepth + 1) ls.st ls.tree ls.newSplittableNode

/-- The method `Trainer::GrowTree2(tree)` (Trainer.cpp 309-376): the frontier starts as the nodes of
the tree, the level counter at 0. -/
def GrowTree2 {X : Type} (c : Collaborators X) (fuel : Nat) (st : TrainerState X)
    (tree : RegTree) : Outcome (Grown X) :=
  growLoop c fuel 0 st tree tree.nodes

/-! ## `TrainGBDT` (Trainer.cpp 98-149) -/

/-- The trainer state together with the ensemble `vTree` that `TrainGBDT` works on. -/
structure Training (X : Type) where
  st : TrainerState X
  vTree : List RegTree
deriving DecidableEq, Repr

/-- Body of the round loop of `TrainGBDT` (Trainer.cpp 107-144), timing and printing left
out: a fresh tree is initialised, the ensemble so far predicts, the gradients are computed
from the predictions, the tree is grown and then appended. -/
def trainRound {X : Type} (c : Collaborators X) (fuel : Nat) (t : Training X) :
    Outcome (Training X) :=
  let i := InitTree t.st { nodes := [] }
  let p := c.PredictSparseIns i.1.heap i.1.m_vvInsSparse t.vTree i.1.m_vPredBuffer_fixedPos
  let st1 : TrainerState X :=
    { i.1 with
      m_vPredBuffer_fixedPos := p.2
      calls := i.1.calls ++ [Call.PredictSparseIns t.vTree i.1.heap p.1] }
  let st2 : TrainerState X :=
    { st1 with
      splitter := c.ComputeGDSparse st1.splitter p.1 st1.m_vTrueValue_fixedPos
      calls := st1.calls ++ [Call.ComputeGDSparse p.1] }
  match GrowTree2 c fuel st2 i.2 with
  | Outcome.done g =>
    Outcome.done
      { st := { g.st with calls := g.st.calls ++ [Call.push_back g.tree] }
        vTree := t.vTree ++ [g.tree] }
  | Outcome.fault => Outcome.fault
  | Outcome.outOfFuel => Outcome.outOfFuel

/-- The first `rounds` rounds of `TrainGBDT`. -/
def trainRounds {X : Type} (c : Collaborators X) (fuel : Nat) :
    Nat → Training X → Outcome (Training X)
  | 0, t => Outcome.done t
  | rounds + 1, t =>
    match trainRounds c fuel rounds t with
    | Outcome.done t1 => trainRound c fuel t1
    | Outcome.fault => Outcome.fault
    | Outcome.outOfFuel => Outcome.outOfFuel

/-- The method `Trainer::TrainGBDT(vTree)` (Trainer.cpp 98-149): rounds `i = 0 .. m_nMaxNumofTree - 1`.
`fuel` bounds the number of levels of each single tree. -/
def TrainGBDT {X : Type} (c : Collaborators X) (fuel : Nat) (st : TrainerState X)
    (vTree : List RegTree) : Outcome (Training X) :=
  trainRounds c fuel st.m_nMaxNumofTree.toNat { st := st, vTree := vTree }


/-! ## The collaborators as the specification describes them

The bodies of the Splitter methods and of the Predictor are outside src. The definitions of
this section follow the specification (§3, §4.2-§4.7); they are used to run the trainer on
concrete data. -/

/-- Modelled from the spec: the split gain of §4.3 (the Split Finder is outside src),
`0.5 · (GL²/(HL+λ) + GR²/(HR+λ) − G²/(H+λ)) − γ`. -/
def splitGain (lambda gamma : ℚ) (l r parent : nodeStat) : ℚ :=
  (1 / 2) * (l.sum_gd ^ 2 / (l.sum_hess + lambda) + r.sum_gd ^ 2 / (r.sum_hess + lambda)
    - parent.sum_gd ^ 2 / (parent.sum_hess + lambda)) - gamma

/-- Modelled from the spec: the leaf weight of §4.3 (`ComputeWeightSparseData` is outside
src), `w = −G / (H + λ)`. -/
def leafWeight (lambda : ℚ) (s : nodeStat) : ℚ :=
  -s.sum_gd / (s.sum_hess + lambda)

/-- Modelled from the spec: what the Splitter holds beyond the members `Trainer.cpp` names
(its declaration is outside src): the NodeStat of every open node by buffer position, and
the mapping from node id to buffer position (spec §3, NodeStat; §9). -/
structure SpecRest where
  m_nodeStat : List nodeStat
  mapNodeIdToBufferPos : List (Int × Int)
deriving DecidableEq, Repr

/-- Modelled from the spec: a read of the node-id-to-buffer-position mapping. -/
def specBufferPos (sp : Splitter SpecRest) (nodeId : Int) : Option Int :=
  (sp.rest.mapNodeIdToBufferPos.find? (fun e => e.1 = nodeId)).map Prod.snd

/-- Modelled from the spec: `ComputeGDSparse` (outside src) after §4.2, for every instance
gradient = prediction − label and hessian = 1; the root opens with the sums over all
instances as its NodeStat (§3) at buffer position 0. -/
def specComputeGDSparse (sp : Splitter SpecRest) (v_fPredValue m_vTrueValue : List ℚ) :
    Splitter SpecRest :=
  let gd := List.zipWith (fun p y => (⟨p - y, 1⟩ : gdpair)) v_fPredValue m_vTrueValue
  { sp with
    m_vGDPair_fixedPos := gd
    rest := { m_nodeStat := [⟨(gd.map gdpair.grad).sum, (gd.map gdpair.hess).sum⟩]
              mapNodeIdToBufferPos := [(0, 0)] } }

/-- The running data of one open node while a column is walked: the accumulated prefix and
the value of the entry seen last, if any. -/
structure Running where
  acc : nodeStat
  last : Option ℚ
deriving DecidableEq, Repr

/-- Modelled from the spec: one entry `(instance, value)` of the column of feature `f` in
the walk of §4.4 (the Split Finder is outside src). The entry belongs to the node that owns
its instance; when the value differs from the value seen last for that node, the gain of §4.3
is evaluated with the accumulated prefix as one side and node total minus prefix as the
other, and replaces the best of the node when strictly greater (first maximum wins); the
threshold is the midpoint of the two values. Then the entry joins the prefix. -/
def specScanEntry (sp : Splitter SpecRest) (f : Int)
    (s : List SplitPoint × List Running) (e : key_value ℚ) : List SplitPoint × List Running :=
  match vecAt sp.m_nodeIds e.id, vecAt sp.m_vGDPair_fixedPos e.id with
  | some nodeId, some gd =>
    match specBufferPos sp nodeId with
    | none => s
    | some pos =>
      match vecAt s.1 pos, vecAt s.2 pos, vecAt sp.rest.m_nodeStat pos with
      | some best, some pre, some total =>
        let l := pre.acc
        let r : nodeStat := ⟨total.sum_gd - l.sum_gd, total.sum_hess - l.sum_hess⟩
        let g := splitGain sp.m_labda sp.m_gamma l r total
        let best1 : SplitPoint :=
          match pre.last with
          | none => best
          | some lv =>
            if lv ≠ e.featureValue ∧ best.m_fGain < g then
              ⟨g, f, (lv + e.featureValue) / 2, l, r⟩
            else best
        (s.1.set pos.toNat best1,
          s.2.set pos.toNat ⟨⟨l.sum_gd + gd.grad, l.sum_hess + gd.hess⟩, some e.featureValue⟩)
      | _, _, _ => s
  | _, _ => s

/-- Modelled from the spec: `FeaFinderAllNode` (outside src) after §4.4: every feature
column is walked once, in feature order, with fresh prefixes; the result holds one
SplitPoint per buffer position. -/
def specFeaFinderAllNode (sp : Splitter SpecRest) (vBest : List SplitPoint)
    (_tempStat _lchildStat : List nodeStat) (_vLastValue : List ℚ) :
    Splitter SpecRest × List SplitPoint :=
  let fresh : List Running := List.replicate vBest.length ⟨nodeStat.init, none⟩
  (sp, (List.range sp.m_vvFeaInxPair.length).foldl
    (fun best f =>
      ((sp.m_vvFeaInxPair.getD f []).foldl (specScanEntry sp (f : Int)) (best, fresh)).1)
    vBest)

/-- Modelled from the spec: `ComputeWeightSparseData(bufferPos)` (outside src): the leaf
weight of §4.3 for the NodeStat at the buffer position. -/
def specComputeWeight (sp : Splitter SpecRest) (bufferPos : Int) : ℚ × Splitter SpecRest :=
  (match vecAt sp.rest.m_nodeStat bufferPos with
    | some s => leafWeight sp.m_labda s
    | none => 0, sp)

/-- The value of instance `i` on feature `f`, read from the feature index. -/
def valueOn (idx : List (List (key_value ℚ))) (f : Int) (i : Nat) : Option ℚ :=
  match vecAt idx f with
  | some col => (col.find? (fun e => e.id = (i : Int))).map key_value.featureValue
  | none => none

/-- Modelled from the spec: `SplitNodeSparseData` (outside src) after §4.5: two children
with freshly issued ids; the parent records split feature, threshold and child ids; each
of the parent's instances goes to the left child when its value on the split feature exceeds
the threshold (the side of the accumulated prefix) and to the right child otherwise (one
without the feature goes right: the spec leaves this policy open); the children
get the child NodeStats of the SplitPoint and join the tree and the next frontier. -/
def specSplitNode (sp : Splitter SpecRest) (heap : List TreeNode) (node : Nat)
    (newSplittableNode : List Nat) (best : SplitPoint) (tree : RegTree)
    (newNodeStat : List nodeStat) (m_nNumofNode : Int) : SplitOut SpecRest :=
  match heap[node]? with
  | none => ⟨sp, heap, newSplittableNode, tree, newNodeStat, m_nNumofNode⟩
  | some nd =>
    let l := m_nNumofNode
    let r := m_nNumofNode + 1
    let child (id : Int) : TreeNode :=
      { TreeNode.init with
        nodeId := id, level := nd.level + 1, startId := nd.startId, endId := nd.endId }
    let parent : TreeNode :=
      { nd with
        featureId := best.featureId, threshold := best.threshold
        leftChildId := l, rightChildId := r }
    let ids := (List.range sp.m_nodeIds.length).map (fun i =>
      let cur := sp.m_nodeIds.getD i 0
      if cur = nd.nodeId then
        match valueOn sp.m_vvFeaInxPair best.featureId i with
        | some v => if best.threshold < v then l else r
        | none => r
      else cur)
    { splitter := { sp with m_nodeIds := ids }
      heap := heap.set node parent ++ [child l, child r]
      newSplittableNode := newSplittableNode ++ [heap.length, heap.length + 1]
      tree := { nodes := tree.nodes ++ [heap.length, heap.length + 1] }
      newNodeStat := newNodeStat ++ [best.leftStat, best.rightStat]
      m_nNumofNode := m_nNumofNode + 2 }

/-- Modelled from the spec: `MarkProcessed(nodeId)` (outside src): the resolved node leaves
the mapping of open nodes (§3: NodeStat is discarded once the node is resolved). -/
def specMarkProcessed (sp : Splitter SpecRest) (nodeId : Int) : Splitter SpecRest :=
  { sp with
    rest := { sp.rest with
      mapNodeIdToBufferPos := sp.rest.mapNodeIdToBufferPos.filter (fun e => e.1 ≠ nodeId) } }

/-- Modelled from the spec: `UpdateNodeStat` (outside src) after §4.6 (a): the children
collected in this level are the open nodes of the next one, with buffer positions in
collection order and the NodeStats created for them. -/
def specUpdateNodeStat (sp : Splitter SpecRest) (heap : List TreeNode)
    (newSplittableNode : List Nat) (newNodeStat : List nodeStat) : Splitter SpecRest :=
  { sp with
    rest := { m_nodeStat := newNodeStat
              mapNodeIdToBufferPos :=
                (List.range newSplittableNode.length).filterMap (fun k =>
                  match newSplittableNode[k]? with
                  | some p => (heap[p]?).map (fun nd => (nd.nodeId, (k : Int)))
                  | none => none) } }

/-- Modelled from the spec: the leaf weight one tree contributes for one instance (the
Predictor is outside src): from the root, an internal node sends the instance to its left
child when the instance's value on the split feature exceeds the threshold, else to the
right child; a node without children is a leaf and contributes its `predValue`. The
descent takes at most `fuel` steps. -/
def leafWeightOf (heap : List TreeNode) (tree : RegTree) (x : List (key_value ℚ)) :
    Nat → Int → ℚ
  | 0, _ => 0
  | fuel + 1, nodeId =>
    match (vecAt tree.nodes nodeId).bind (fun p => heap[p]?) with
    | none => 0
    | some nd =>
      if nd.leftChildId = -1 then nd.predValue
      else
        match (x.find? (fun e => e.id = nd.featureId)).map key_value.featureValue with
        | some v =>
          if nd.threshold < v then leafWeightOf heap tree x fuel nd.leftChildId
          else leafWeightOf heap tree x fuel nd.rightChildId
        | none => leafWeightOf heap tree x fuel nd.rightChildId

/-- Modelled from the spec: the Predictor collaborator of §4.7 and §6 (outside src): for
every instance, in instance order, the sum over the trees of the ensemble of the leaf weight
the tree contributes (`contrib`); an empty ensemble yields zero. The scratch buffer is
handed back as it came. -/
def additivePredict (contrib : List TreeNode → RegTree → List (key_value ℚ) → ℚ)
    (heap : List TreeNode) (m_vvInsSparse : List (List (key_value ℚ))) (vTree : List RegTree)
    (buffer : List ℚ) : List ℚ × List ℚ :=
  (m_vvInsSparse.map (fun x => (vTree.map (fun t => contrib heap t x)).sum), buffer)

/-- The collaborators as the specification describes them. -/
def specCollaborators : Collaborators SpecRest where
  mapNodeIdToBufferPos_size := fun sp => sp.rest.mapNodeIdToBufferPos.length
  mapNodeIdToBufferPos_at := specBufferPos
  ComputeGDSparse := specComputeGDSparse
  FeaFinderAllNode := specFeaFinderAllNode
  ComputeWeightSparseData := specComputeWeight
  SplitNodeSparseData := specSplitNode
  MarkProcessed := specMarkProcessed
  UpdateNodeStat := specUpdateNodeStat
  PredictSparseIns :=
    additivePredict (fun heap t x => leafWeightOf heap t x t.nodes.length 0)

/-- A trainer that holds the given instances and labels and nothing else yet. -/
def newTrainer (m_vvInsSparse : List (List (key_value ℚ))) (m_vTrueValue : List ℚ) :
    TrainerState SpecRest :=
  { m_nMaxNumofTree := 0
    m_nMaxDepth := 0
    m_nNumofNode := 0
    m_vvInsSparse := m_vvInsSparse
    m_vTrueValue_fixedPos := m_vTrueValue
    m_vPredBuffer_fixedPos := []
    splitter := { m_labda := 0, m_gamma := 0, m_vGDPair_fixedPos := [], m_vvFeaInxPair := []
                  m_nodeIds := [], rest := { m_nodeStat := [], mapNodeIdToBufferPos := [] } }
    heap := []
    calls := [] }

/-- The end-to-end example of the specification (§8): four instances with one feature
valued 1, 2, 3, 4. -/
def e2eInstances : List (List (key_value ℚ)) :=
  [[⟨0, 1⟩], [⟨0, 2⟩], [⟨0, 3⟩], [⟨0, 4⟩]]

/-- The labels of the end-to-end example. -/
def e2eLabels : List ℚ := [0, 0, 1, 1]

/-- The whole run of the end-to-end example: `InitTrainer` with `numTrees`, `maxDepth = 1`,
`λ = 1`, `γ = 0`, one feature, then `TrainGBDT` on an empty ensemble. -/
def e2eRun (numTrees : Int) (fuel : Nat) : Outcome (Training SpecRest) :=
  match InitTrainer insertionStdSort (newTrainer e2eInstances e2eLabels) numTrees 1 1 0 1 with
  | none => Outcome.fault
  | some st => TrainGBDT specCollaborators fuel st []

/-! ## Hypotheses and data used by the theorems -/

/-- The feature ids of an instance are strictly ascending and none is negative. -/
def AscendingIds {V : Type} (inst : List (key_value V)) : Prop :=
  inst.Pairwise (fun a b => a.id < b.id) ∧ ∀ e ∈ inst, 0 ≤ e.id

instance {V : Type} (inst : List (key_value V)) : Decidable (AscendingIds inst) := by
  unfold AscendingIds; infer_instance

/-- A small dataset: two instances over three features. -/
def demoInstances : List (List (key_value Int)) :=
  [[⟨0, 5⟩, ⟨2, 7⟩], [⟨1, 3⟩, ⟨2, 9⟩]]

/-- A dataset whose only instance carries feature id 1, beyond a dimensionality of 1. -/
def overflowInstances : List (List (key_value Int)) := [[⟨1, 5⟩]]

/-- The state of the end-to-end example when `GrowTree2` starts in round 1 (`λ = 1`, `γ = 0`,
`maxDepth = 1`): gradients `prediction − label` for zero predictions, the root open at
buffer position 0. -/
def e2eRootLevel : LevelState SpecRest :=
  { st :=
      { m_nMaxNumofTree := 1
        m_nMaxDepth := 1
        m_nNumofNode := 1
        m_vvInsSparse := e2eInstances
        m_vTrueValue_fixedPos := e2eLabels
        m_vPredBuffer_fixedPos := [0, 0, 0, 0]
        splitter :=
          { m_labda := 1
            m_gamma := 0
            m_vGDPair_fixedPos := [⟨0, 1⟩, ⟨0, 1⟩, ⟨-1, 1⟩, ⟨-1, 1⟩]
            m_vvFeaInxPair := [[⟨3, 4⟩, ⟨2, 3⟩, ⟨1, 2⟩, ⟨0, 1⟩]]
            m_nodeIds := [0, 0, 0, 0]
            rest := { m_nodeStat := [⟨-2, 4⟩], mapNodeIdToBufferPos := [(0, 0)] } }
        heap := [{ TreeNode.init with endId := 3 }]
        calls := [] }
    tree := { nodes := [0] }
    newSplittableNode := []
    newNodeStat := [] }

/-- The best split of the root in the end-to-end example: gain 4/15 at threshold 5/2. -/
def e2eRootBest : SplitPoint := ⟨4 / 15, 0, 5 / 2, ⟨-2, 2⟩, ⟨0, 2⟩⟩

/-- The node of the gain example of the specification (§8): `G = 10`, `H = 4`, `λ = 1`,
`γ = 0`, open at buffer position 0 of a trainer with `maxDepth = 5`. -/
def gainExampleLevel : LevelState SpecRest :=
  { st :=
      { m_nMaxNumofTree := 1
        m_nMaxDepth := 5
        m_nNumofNode := 1
        m_vvInsSparse := []
        m_vTrueValue_fixedPos := []
        m_vPredBuffer_fixedPos := []
        splitter :=
          { m_labda := 1
            m_gamma := 0
            m_vGDPair_fixedPos := []
            m_vvFeaInxPair := []
            m_nodeIds := []
            rest := { m_nodeStat := [⟨10, 4⟩], mapNodeIdToBufferPos := [(0, 0)] } }
        heap := [TreeNode.init]
        calls := [] }
    tree := { nodes := [0] }
    newSplittableNode := []
    newNodeStat := [] }

/-- The best candidate of the gain example: `GL = 6`, `HL = 2` against `GR = 4`, `HR = 2`. -/
def gainExampleBest : SplitPoint :=
  ⟨splitGain 1 0 ⟨6, 2⟩ ⟨4, 2⟩ ⟨10, 4⟩, 0, 0, ⟨6, 2⟩, ⟨4, 2⟩⟩

/-- The calls made from inside `GrowTree2`. -/
def Call.isGrow : Call → Bool
  | Call.FeaFinderAllNode => true
  | Call.ComputeWeightSparseData _ => true
  | Call.SplitNodeSparseData _ _ => true
  | Call.MarkProcessed _ => true
  | Call.UpdateNodeStat _ => true
  | _ => false

/-- The trainer of the end-to-end example after `InitTrainer(numTrees, 1, 1, 0, 1)`. -/
def e2eTrainer (numTrees : Int) : TrainerState SpecRest :=
  { m_nMaxNumofTree := numTrees
    m_nMaxDepth := 1
    m_nNumofNode := 0
    m_vvInsSparse := e2eInstances
    m_vTrueValue_fixedPos := e2eLabels
    m_vPredBuffer_fixedPos := [0, 0, 0, 0]
    splitter :=
      { m_labda := 1
        m_gamma := 0
        m_vGDPair_fixedPos := [gdpair.init, gdpair.init, gdpair.init, gdpair.init]
        m_vvFeaInxPair := [[⟨3, 4⟩, ⟨2, 3⟩, ⟨1, 2⟩, ⟨0, 1⟩]]
        m_nodeIds := []
        rest := { m_nodeStat := [], mapNodeIdToBufferPos := [] } }
    heap := []
    calls := [] }

/-- The trainer state `s1` arises from `s` by steps of `GrowTree2`: configuration, data set,
labels and prediction buffer are those of `s`, and the history of `s1` continues that of `s`
with calls made from inside `GrowTree2` only. -/
def GrowsFrom {X : Type} (s s1 : TrainerState X) : Prop :=
  s1.m_nMaxDepth = s.m_nMaxDepth ∧ s1.m_nMaxNumofTree = s.m_nMaxNumofTree ∧
  s1.m_vvInsSparse = s.m_vvInsSparse ∧
  s1.m_vTrueValue_fixedPos = s.m_vTrueValue_fixedPos ∧
  s1.m_vPredBuffer_fixedPos = s.m_vPredBuffer_fixedPos ∧
  ∃ ev, s1.calls = s.calls ++ ev ∧ ∀ e ∈ ev, Call.isGrow e = true

/-- The heap at the moment the predictor is called in the round that starts from `t`
(Trainer.cpp 123): the heap of `t` with the root of the round's tree allocated. -/
def roundHeap {X : Type} (t : Training X) : List TreeNode :=
  (InitTree t.st { nodes := [] }).1.heap

/-- The predictions `v_fPredValue_fixed` of the round that starts from `t`
(Trainer.cpp 121-123). -/
def roundPredictions {X : Type} (c : Collaborators X) (t : Training X) : List ℚ :=
  (c.PredictSparseIns (roundHeap t) t.st.m_vvInsSparse t.vTree t.st.m_vPredBuffer_fixedPos).1

/-- The state in which `GrowTree2` is called in the round that starts from `t`
(Trainer.cpp 134). -/
def roundGrowStart {X : Type} (c : Collaborators X) (t : Training X) : TrainerState X :=
  let i := InitTree t.st { nodes := [] }
  let p := c.PredictSparseIns i.1.heap i.1.m_vvInsSparse t.vTree i.1.m_vPredBuffer_fixedPos
  { i.1 with
    m_vPredBuffer_fixedPos := p.2
    splitter := c.ComputeGDSparse i.1.splitter p.1 i.1.m_vTrueValue_fixedPos
    calls := i.1.calls ++ [Call.PredictSparseIns t.vTree i.1.heap p.1] ++
      [Call.ComputeGDSparse p.1] }

/-- What the end-to-end example returns for `numTrees` trees, started on the ensemble `E`,
when four levels per tree are allowed (the start when the run does not return). -/
def e2eResult (numTrees : Int) (E : List RegTree) : Training SpecRest :=
  match TrainGBDT specCollaborators 4 (e2eTrainer numTrees) E with
  | Outcome.done t => t
  | _ => { st := e2eTrainer numTrees, vTree := E }

/-- The calls of the split routine. -/
def Call.isSplit : Call → Bool
  | Call.SplitNodeSparseData _ _ => true
  | _ => false

/-- The weight of the node of the first tree that instance `i` is assigned to when training
is over: the leaf weight on the side of instance `i`. -/
def assignedLeafWeight {X : Type} (t : Training X) (i : Nat) : Option ℚ :=
  match t.vTree[0]?, t.st.splitter.m_nodeIds[i]? with
  | some tree, some nodeId =>
    match (vecAt tree.nodes nodeId).bind (fun p => t.st.heap[p]?) with
    | some nd => some nd.predValue
    | none => none
  | _, _ => none

/-- A dataset whose only instance lists feature id 0 twice (ids 0, 0, 1). -/
def repeatedIdInstances : List (List (key_value Int)) := [[⟨0, 5⟩, ⟨0, 6⟩, ⟨1, 7⟩]]

/-- A dataset whose only instance lists its ids out of ascending order (ids 1, 0). -/
def descendingIdInstances : List (List (key_value Int)) := [[⟨1, 7⟩, ⟨0, 5⟩]]

/-- A dataset over three features in which no instance has feature 1 and the first instance
lists its ids out of order. -/
def gapInstances : List (List (key_value Int)) := [[⟨2, 7⟩, ⟨0, 5⟩], [⟨2, 9⟩]]

/-- Where the entry `x` of column `j` comes from: the instance `x.id` and the position of
that instance's cursor when feature `j` is scanned. -/
def sourcePosition {V : Type} (ins : List (List (key_value V))) (j : Nat) (x : key_value V) :
    Nat × Nat :=
  (x.id.toNat, cursorAt (ins.getD x.id.toNat []) j)

/-! ## `SaveModel` (Trainer.cpp 163-175) -/

/-- The method `Trainer::SaveModel(fileName, v_Tree)` (Trainer.cpp 163-175): the text written
to the stream `printer.m_writeOut`, which starts empty. `PrintTree` stands for the method of
`TreePrinter` (its body is outside src): the text it writes to the stream for one tree, given
the nodes the tree points to. `none` is a read outside `v_Tree`. -/
def SaveModel (PrintTree : List TreeNode → RegTree → String) (heap : List TreeNode)
    (v_Tree : List RegTree) : Option String :=
  (List.range v_Tree.length).foldlM
    (fun m_writeOut i =>
      match v_Tree[i]? with
      | some tree =>
        some (m_writeOut ++ ("booster[" ++ toString i ++ "]:\n") ++ PrintTree heap tree)
      | none => none)
    ""

/-- A printer for running `SaveModel` on concrete ensembles: one line per node address. -/
def demoPrintTree (_heap : List TreeNode) (tree : RegTree) : String :=
  String.join (tree.nodes.map (fun p => "node " ++ toString p ++ "\n"))

/-! ## Descriptions of a level of `GrowTree2` -/

/-- The split routine leaves the vector of new frontier nodes it is given in place and
appends to it (the children it creates). -/
def SplitAppends {X : Type} (c : Collaborators X) : Prop :=
  ∀ sp heap node newSplittableNode best tree newNodeStat m_nNumofNode,
    ∃ children, (c.SplitNodeSparseData sp heap node newSplittableNode best tree newNodeStat
      m_nNumofNode).newSplittableNode = newSplittableNode ++ children

/-- The state after the first level of the end-to-end example (the root level when the level
faults). -/
def e2eLevelOne : LevelState SpecRest :=
  match growLevel specCollaborators 0 e2eRootLevel.st e2eRootLevel.tree [0] with
  | some ls => ls
  | none => e2eRootLevel

/-! ## Collaborators that always split -/

/-- Collaborators under which every node has a positive best gain and every split creates
one child: the Split Finder sets every gain to 1, the split routine allocates one node and
appends it to the tree and to the vector of new frontier nodes. -/
def everSplitting : Collaborators Unit where
  mapNodeIdToBufferPos_size := fun _ => 1
  mapNodeIdToBufferPos_at := fun _ _ => some 0
  ComputeGDSparse := fun sp _ _ => sp
  FeaFinderAllNode := fun sp vBest _ _ _ =>
    (sp, vBest.map (fun best => { best with m_fGain := 1 }))
  ComputeWeightSparseData := fun sp _ => (0, sp)
  SplitNodeSparseData := fun sp heap _ newSplittableNode _ tree newNodeStat m_nNumofNode =>
    { splitter := sp
      heap := heap ++ [{ TreeNode.init with nodeId := m_nNumofNode }]
      newSplittableNode := newSplittableNode ++ [heap.length]
      tree := { nodes := tree.nodes ++ [heap.length] }
      newNodeStat := newNodeStat ++ [nodeStat.init]
      m_nNumofNode := m_nNumofNode + 1 }
  MarkProcessed := fun sp _ => sp
  UpdateNodeStat := fun sp _ _ _ => sp
  PredictSparseIns := fun _ m_vvInsSparse _ buffer => (m_vvInsSparse.map (fun _ => 0), buffer)

/-- A trainer with `maxDepth = -1` that holds one allocated root and no data. -/
def unboundedStart : TrainerState Unit :=
  { m_nMaxNumofTree := 1
    m_nMaxDepth := -1
    m_nNumofNode := 1
    m_vvInsSparse := []
    m_vTrueValue_fixedPos := []
    m_vPredBuffer_fixedPos := []
    splitter := { m_labda := 1, m_gamma := 0, m_vGDPair_fixedPos := [], m_vvFeaInxPair := []
                  m_nodeIds := [], rest := () }
    heap := [TreeNode.init]
    calls := [] }

/-! ## Which nodes a split may touch -/

/-- Modelled from the spec: the frame of `SplitNodeSparseData`, whose body is outside src,
after §4.5 and §3 (the Node Resolver allocates the children as new TreeNode entries, records
the split in the parent and lets the children join the tree and the next frontier; a tree in
the Ensemble is never modified). Of the nodes allocated before the call the routine writes at
most the node it is called on; it frees nothing; the addresses it appends to the vector of new
frontier nodes are addresses it allocated; and a tree whose nodes were all allocated still
has only allocated nodes afterwards. -/
def SplitKeepsOldNodes {X : Type} (c : Collaborators X) : Prop :=
  ∀ sp heap node newSplittableNode best tree newNodeStat m_nNumofNode,
    (∀ p, p < heap.length → p ≠ node →
      (c.SplitNodeSparseData sp heap node newSplittableNode best tree newNodeStat
        m_nNumofNode).heap[p]? = heap[p]?) ∧
    heap.length ≤ (c.SplitNodeSparseData sp heap node newSplittableNode best tree newNodeStat
      m_nNumofNode).heap.length ∧
    (∃ children, (c.SplitNodeSparseData sp heap node newSplittableNode best tree newNodeStat
        m_nNumofNode).newSplittableNode = newSplittableNode ++ children ∧
      ∀ q ∈ children, heap.length ≤ q) ∧
    ((∀ q ∈ tree.nodes, q < heap.length) →
      ∀ q ∈ (c.SplitNodeSparseData sp heap node newSplittableNode best tree newNodeStat
        m_nNumofNode).tree.nodes,
        q < (c.SplitNodeSparseData sp heap node newSplittableNode best tree newNodeStat
          m_nNumofNode).heap.length)

/-- The nodes allocated in the heap `base` are still what they were, the frontier nodes
collected so far were allocated after `base`, and the tree points to allocated nodes. -/
def KeepsBase {X : Type} (base : List TreeNode) (ls : LevelState X) : Prop :=
  (∀ p, p < base.length → ls.st.heap[p]? = base[p]?) ∧
  base.length ≤ ls.st.heap.length ∧
  (∀ q ∈ ls.newSplittableNode, base.length ≤ q) ∧
  (∀ q ∈ ls.tree.nodes, q < ls.st.heap.length)

/-- Every tree of the ensemble points to allocated nodes only. -/
def EnsembleAllocated {X : Type} (t : Training X) : Prop :=
  ∀ tree ∈ t.vTree, ∀ q ∈ tree.nodes, q < t.st.heap.length

end Trainer

namespace Trainer

/-! ## Lemmas on the cursor merge -/

theorem set_same_of_getElem? {α : Type} (l : List α) (k : Nat) (a : α)
    (h : l[k]? = some a) : l.set k a = l := by
  apply List.ext_getElem?
  intro i
  rw [List.getElem?_set]
  by_cases hik : k = i
  · subst hik
    have hlt : k < l.length := (List.getElem?_eq_some.1 h).1
    simp [hlt, h]
  · simp [hik]

theorem advance_le {V : Type} (inst : List (key_value V)) (j : Int) (c : Nat)
    (h : c ≤ inst.length) : advance inst j c ≤ inst.length := by
  unfold advance
  cases hc : inst[c]? with
  | none => simpa using h
  | some e =>
    have hlt : c < inst.length := (List.getElem?_eq_some.1 hc).1
    by_cases he : e.id = j <;> simp [he] <;> omega

theorem cursorAt_le {V : Type} (inst : List (key_value V)) (j : Nat) :
    cursorAt inst j ≤ inst.length := by
  induction j with
  | zero => simp [cursorAt]
  | succ j ih => exact advance_le inst _ _ ih

theorem cursorsDuring_length {V : Type} (ins : List (List (key_value V))) (j k : Nat) :
    (cursorsDuring ins j k).length = ins.length := by
  simp [cursorsDuring]

theorem cursorsDuring_getElem? {V : Type} (ins : List (List (key_value V))) (j k i : Nat)
    (inst : List (key_value V)) (hi : ins[i]? = some inst) :
    (cursorsDuring ins j k)[i]? = some (cursorAt inst (if i < k then j + 1 else j)) := by
  have hlt : i < ins.length := (List.getElem?_eq_some.1 hi).1
  simp [cursorsDuring, List.getElem?_map, List.getElem?_range hlt, hi]

theorem cursorsDuring_set {V : Type} (ins : List (List (key_value V))) (j k : Nat)
    (inst : List (key_value V)) (hk : ins[k]? = some inst) :
    (cursorsDuring ins j k).set k (cursorAt inst (j + 1)) = cursorsDuring ins j (k + 1) := by
  have hlt : k < ins.length := (List.getElem?_eq_some.1 hk).1
  apply List.ext_getElem?
  intro i
  rw [List.getElem?_set]
  by_cases hik : k = i
  · subst hik
    rw [cursorsDuring_getElem? ins j (k + 1) k inst hk]
    simp [cursorsDuring_length, hlt]
  · simp only [hik, if_false]
    by_cases hi : i < ins.length
    · obtain ⟨inst', hinst'⟩ : ∃ x, ins[i]? = some x := ⟨ins[i], List.getElem?_eq_getElem hi⟩
      rw [cursorsDuring_getElem? ins j k i inst' hinst',
        cursorsDuring_getElem? ins j (k + 1) i inst' hinst']
      have : (i < k) ↔ (i < k + 1) := by omega
      simp [this]
    · have h1 : (cursorsDuring ins j k)[i]? = none := by
        apply List.getElem?_eq_none; rw [cursorsDuring_length]; omega
      have h2 : (cursorsDuring ins j (k + 1))[i]? = none := by
        apply List.getElem?_eq_none; rw [cursorsDuring_length]; omega
      rw [h1, h2]

theorem cursorsDuring_full {V : Type} (ins : List (List (key_value V))) (j : Nat) :
    cursorsDuring ins j ins.length = cursorsDuring ins (j + 1) 0 := by
  unfold cursorsDuring
  apply List.map_congr_left
  intro i hi
  have : i < ins.length := List.mem_range.1 hi
  simp [this]

theorem cursorsDuring_zero {V : Type} (ins : List (List (key_value V))) :
    cursorsDuring ins 0 0 = List.replicate ins.length 0 := by
  apply List.ext_getElem?
  intro i
  by_cases hi : i < ins.length
  · obtain ⟨inst', hinst'⟩ : ∃ x, ins[i]? = some x := ⟨ins[i], List.getElem?_eq_getElem hi⟩
    rw [cursorsDuring_getElem? ins 0 0 i inst' hinst']
    simp [cursorAt, List.getElem?_replicate, hi]
  · rw [List.getElem?_eq_none, List.getElem?_eq_none]
    · simp; omega
    · rw [cursorsDuring_length]; omega

/-- One step of the inner loop, in closed form. -/
theorem scanInstance_eq {V : Type} (ins : List (List (key_value V))) (j k : Nat)
    (out : List (key_value V)) (hk : k < ins.length) :
    scanInstance ins (j : Int) (out, cursorsDuring ins j k) k =
      some (out ++ (contribution ins j k).toList, cursorsDuring ins j (k + 1)) := by
  obtain ⟨inst, hinst⟩ : ∃ x, ins[k]? = some x := ⟨ins[k], List.getElem?_eq_getElem hk⟩
  have hpos := cursorsDuring_getElem? ins j k k inst hinst
  simp only [lt_irrefl, if_false] at hpos
  have hset := cursorsDuring_set ins j k inst hinst
  have hle := cursorAt_le inst j
  simp only [scanInstance, hinst, hpos, contribution, emitted]
  simp only [cursorAt, advance] at hset
  by_cases hend : inst.length = cursorAt inst j
  · have hnone : inst[cursorAt inst j]? = none := List.getElem?_eq_none (by omega)
    rw [hnone] at hset
    simp only [hend, if_true, hnone]
    rw [← hset, set_same_of_getElem? _ _ _ hpos]
    simp
  · simp only [hend, if_false]
    have hlt : cursorAt inst j < inst.length := by omega
    have hsome : inst[cursorAt inst j]? = some inst[cursorAt inst j] :=
      List.getElem?_eq_getElem hlt
    rw [hsome] at hset
    simp only [hsome]
    by_cases he : (inst[cursorAt inst j]).id = (j : Int)
    · simp only [he, if_true] at hset ⊢
      rw [hset]; simp
    · simp only [he, if_false] at hset ⊢
      rw [← hset, set_same_of_getElem? _ _ _ hpos]
      simp

end Trainer

namespace Trainer

/-- The inner loop over the first `k` instances, in closed form. -/
theorem scanInstances_upto {V : Type} (ins : List (List (key_value V))) (j : Nat)
    (out : List (key_value V)) (k : Nat) (hk : k ≤ ins.length) :
    (List.range k).foldlM (scanInstance ins (j : Int)) (out, cursorsDuring ins j 0) =
      some (out ++ (List.range k).filterMap (contribution ins j), cursorsDuring ins j k) := by
  induction k with
  | zero => simp
  | succ k ih =>
    have hlt : k < ins.length := by omega
    rw [List.range_succ, List.foldlM_append, ih (by omega)]
    simp only [Option.bind_eq_bind, Option.some_bind, List.foldlM_cons, List.foldlM_nil]
    rw [scanInstance_eq ins j k _ hlt]
    simp only [Option.some_bind, Option.pure_def, List.filterMap_append, List.append_assoc]
    cases hc : contribution ins j k <;> simp [List.filterMap_cons, hc]

/-- The whole inner loop for feature `j`, in closed form. -/
theorem scanInstances_all {V : Type} (ins : List (List (key_value V))) (j : Nat) :
    (List.range ins.length).foldlM (scanInstance ins (j : Int))
        (([] : List (key_value V)), cursorsDuring ins j 0) =
      some (collected ins j, cursorsDuring ins (j + 1) 0) := by
  rw [scanInstances_upto ins j [] ins.length le_rfl, cursorsDuring_full]
  simp [collected]

theorem scanFeature_eq {V : Type} [LinearOrder V]
    (srt : (key_value V → key_value V → Bool) → List (key_value V) → List (key_value V))
    (ins : List (List (key_value V))) (idx : List (List (key_value V))) (j : Nat) :
    scanFeature srt ins (idx, cursorsDuring ins j 0) j =
      some (idx ++ [srt CmpValue (collected ins j)], cursorsDuring ins (j + 1) 0) := by
  simp only [scanFeature]
  rw [scanInstances_all]

theorem scanFeatures_upto {V : Type} [LinearOrder V]
    (srt : (key_value V → key_value V → Bool) → List (key_value V) → List (key_value V))
    (ins : List (List (key_value V))) (idx : List (List (key_value V))) (m : Nat) :
    (List.range m).foldlM (scanFeature srt ins) (idx, cursorsDuring ins 0 0) =
      some (idx ++ (List.range m).map (fun j => srt CmpValue (collected ins j)),
        cursorsDuring ins m 0) := by
  induction m with
  | zero => simp
  | succ m ih =>
    rw [List.range_succ, List.foldlM_append, ih]
    simp only [Option.bind_eq_bind, Option.some_bind, List.foldlM_cons, List.foldlM_nil]
    rw [scanFeature_eq]
    simp

/-- Closed form of `SortFeaValue`: it never reads out of range, keeps the columns that were
there and appends, for `j = 0 .. nNumofDim - 1`, the sorted entries collected for `j`. -/
theorem SortFeaValue_eq {V : Type} [LinearOrder V]
    (srt : (key_value V → key_value V → Bool) → List (key_value V) → List (key_value V))
    (ins : List (List (key_value V))) (nNumofDim : Int) (idx : List (List (key_value V))) :
    SortFeaValue srt ins nNumofDim idx =
      some (idx ++ (List.range nNumofDim.toNat).map
        (fun j => srt CmpValue (collected ins j))) := by
  simp only [SortFeaValue]
  rw [← cursorsDuring_zero, scanFeatures_upto]
  rfl

end Trainer

namespace Trainer

/-! ## The comparator and the sorting contract -/

theorem CmpValue_strictWeak {V : Type} [LinearOrder V] :
    StrictWeakOrdering (CmpValue : key_value V → key_value V → Bool) := by
  refine ⟨?_, ?_, ?_⟩
  · intro a; simp [CmpValue]
  · intro a b c hab hbc
    simp only [CmpValue, gt_iff_lt, decide_eq_true_eq] at *
    exact lt_trans hbc hab
  · intro a b c h1 h2 h3 h4
    simp only [CmpValue, gt_iff_lt, decide_eq_false_iff_not, not_lt] at *
    exact ⟨le_trans h1 h3, le_trans h4 h2⟩

theorem insertionStdSort_stdSort {α : Type} :
    StdSort (insertionStdSort : (α → α → Bool) → List α → List α) := by
  intro cmp l hswo
  obtain ⟨hirr, htr, hinc⟩ := hswo
  have hasym : ∀ a b, cmp a b = true → cmp b a = false := by
    intro a b hab
    cases hba : cmp b a with
    | false => rfl
    | true => have := htr a b a hab hba; rw [hirr a] at this; exact absurd this (by simp)
  haveI : IsTotal α (fun a b => cmp b a = false) := ⟨by
    intro a b
    cases hba : cmp b a with
    | false => exact Or.inl rfl
    | true => exact Or.inr (hasym b a hba)⟩
  haveI : IsTrans α (fun a b => cmp b a = false) := ⟨by
    intro a b c hba hcb
    show cmp c a = false
    cases hca : cmp c a with
    | false => rfl
    | true =>
      have hbc : cmp b c = false := by
        cases h : cmp b c with
        | false => rfl
        | true => have := htr b c a h hca; rw [hba] at this; exact absurd this (by simp)
      have hab : cmp a b = false := by
        cases h : cmp a b with
        | false => rfl
        | true => have := htr c a b hca h; rw [hcb] at this; exact absurd this (by simp)
      have := (hinc c b a hcb hbc hba hab).1
      rw [hca] at this; exact absurd this (by simp)⟩
  exact ⟨List.perm_insertionSort _ l, List.sorted_insertionSort _ l⟩

/-! ## What a column holds -/

theorem contribution_eq_some {V : Type} (ins : List (List (key_value V))) (j i : Nat)
    (x : key_value V) :
    contribution ins j i = some x ↔
      ∃ inst, ins[i]? = some inst ∧ x.id = (i : Int) ∧
        emitted inst (j : Int) (cursorAt inst j) = some x.featureValue := by
  unfold contribution
  cases hi : ins[i]? with
  | none => simp
  | some inst =>
    simp only [Option.map_eq_some', Option.some.injEq, exists_eq_left']
    constructor
    · rintro ⟨v, hv, rfl⟩
      exact ⟨rfl, hv⟩
    · rintro ⟨hid, hv⟩
      refine ⟨x.featureValue, hv, ?_⟩
      cases x
      simp_all

theorem collected_nodup {V : Type} (ins : List (List (key_value V))) (j : Nat) :
    (collected ins j).Nodup := by
  unfold collected
  apply List.Nodup.filterMap _ (List.nodup_range _)
  intro a a' b hb hb'
  obtain ⟨_, _, h1, _⟩ := (contribution_eq_some ins j a b).1 hb
  obtain ⟨_, _, h2, _⟩ := (contribution_eq_some ins j a' b).1 hb'
  have : (a : Int) = (a' : Int) := by rw [← h1, ← h2]
  exact_mod_cast this

theorem mem_collected {V : Type} (ins : List (List (key_value V))) (j : Nat)
    (x : key_value V) :
    x ∈ collected ins j ↔
      ∃ (i : Nat) (inst : List (key_value V)), ins[i]? = some inst ∧ x.id = (i : Int) ∧
        emitted inst (j : Int) (cursorAt inst j) = some x.featureValue := by
  unfold collected
  rw [List.mem_filterMap]
  constructor
  · rintro ⟨i, _, hi⟩
    obtain ⟨inst, h1, h2, h3⟩ := (contribution_eq_some ins j i x).1 hi
    exact ⟨i, inst, h1, h2, h3⟩
  · rintro ⟨i, inst, h1, h2, h3⟩
    refine ⟨i, ?_, (contribution_eq_some ins j i x).2 ⟨inst, h1, h2, h3⟩⟩
    exact List.mem_range.2 (List.getElem?_eq_some.1 h1).1

/-! ## The cursor of an instance with strictly ascending, non-negative feature ids -/


theorem cursorAt_splits {V : Type} (inst : List (key_value V)) (h : AscendingIds inst)
    (j : Nat) :
    (∀ p (hp : p < inst.length), p < cursorAt inst j → inst[p].id < (j : Int)) ∧
    (∀ p (hp : p < inst.length), cursorAt inst j ≤ p → (j : Int) ≤ inst[p].id) := by
  obtain ⟨hasc, hnn⟩ := h
  rw [List.pairwise_iff_getElem] at hasc
  induction j with
  | zero =>
    refine ⟨fun p hp hlt => by simp [cursorAt] at hlt, fun p hp _ => ?_⟩
    simpa using hnn _ (List.getElem_mem hp)
  | succ j ih =>
    obtain ⟨ih1, ih2⟩ := ih
    simp only [cursorAt, advance]
    cases hc : inst[cursorAt inst j]? with
    | none =>
      have hge : inst.length ≤ cursorAt inst j := by
        by_contra hlt
        rw [List.getElem?_eq_getElem (by omega)] at hc
        exact absurd hc (by simp)
      refine ⟨fun p hp _ => ?_, fun p hp hle => ?_⟩
      · have := ih1 p hp (by omega); push_cast; omega
      · simp only at hle; omega
    | some e =>
      obtain ⟨hlt, he⟩ := List.getElem?_eq_some.1 hc
      have hej : (j : Int) ≤ e.id := by rw [← he]; exact ih2 _ hlt le_rfl
      by_cases hid : e.id = (j : Int)
      · simp only [hid, if_true]
        refine ⟨fun p hp hpc => ?_, fun p hp hle => ?_⟩
        · by_cases hpc' : p < cursorAt inst j
          · have := ih1 p hp hpc'; push_cast; omega
          · have hpe : p = cursorAt inst j := by omega
            subst hpe
            rw [he, hid]; push_cast; omega
        · have := hasc (cursorAt inst j) p hlt hp (by omega)
          rw [he, hid] at this; push_cast; omega
      · simp only [hid, if_false]
        refine ⟨fun p hp hpc => ?_, fun p hp hle => ?_⟩
        · have := ih1 p hp hpc; push_cast; omega
        · by_cases hpe : p = cursorAt inst j
          · subst hpe; rw [he]; push_cast; omega
          · have := hasc (cursorAt inst j) p hlt hp (by omega)
            rw [he] at this; push_cast; omega

/-- With strictly ascending non-negative ids, an instance contributes `v` to column `j`
exactly when it holds the pair `(j, v)`. -/
theorem emitted_iff_mem {V : Type} (inst : List (key_value V)) (h : AscendingIds inst)
    (j : Nat) (v : V) :
    emitted inst (j : Int) (cursorAt inst j) = some v ↔ (⟨(j : Int), v⟩ : key_value V) ∈ inst := by
  obtain ⟨h1, h2⟩ := cursorAt_splits inst h j
  have hasc := h.1
  rw [List.pairwise_iff_getElem] at hasc
  unfold emitted
  constructor
  · intro hem
    cases hc : inst[cursorAt inst j]? with
    | none => rw [hc] at hem; exact absurd hem (by simp)
    | some e =>
      rw [hc] at hem
      obtain ⟨hlt, he⟩ := List.getElem?_eq_some.1 hc
      by_cases hid : e.id = (j : Int)
      · simp only [hid, if_true, Option.some.injEq] at hem
        have : e = ⟨(j : Int), v⟩ := by cases e; simp_all
        rw [← this, ← he]
        exact List.getElem_mem hlt
      · simp [hid] at hem
  · intro hmem
    obtain ⟨p, hp, hpe⟩ := List.mem_iff_getElem.1 hmem
    have hpid : inst[p].id = (j : Int) := by rw [hpe]
    have hcp : cursorAt inst j ≤ p := by
      by_contra hlt
      have := h1 p hp (by omega)
      omega
    have hclt : cursorAt inst j < inst.length := by omega
    have hpc : p = cursorAt inst j := by
      by_contra hne
      have hlt := hasc (cursorAt inst j) p hclt hp (by omega)
      have hge := h2 (cursorAt inst j) hclt le_rfl
      omega
    subst hpc
    rw [List.getElem?_eq_getElem hp, hpe]
    simp

end Trainer

namespace Trainer

theorem mem_of_emitted {V : Type} (inst : List (key_value V)) (j : Int) (c : Nat) (v : V)
    (h : emitted inst j c = some v) : (⟨j, v⟩ : key_value V) ∈ inst := by
  unfold emitted at h
  cases hc : inst[c]? with
  | none => rw [hc] at h; exact absurd h (by simp)
  | some e =>
    rw [hc] at h
    obtain ⟨hlt, he⟩ := List.getElem?_eq_some.1 hc
    by_cases hid : e.id = j
    · simp only [hid, if_true, Option.some.injEq] at h
      have : e = ⟨j, v⟩ := by cases e; simp_all
      rw [← this, ← he]
      exact List.getElem_mem hlt
    · simp [hid] at h

theorem SortFeaValue_getElem? {V : Type} [LinearOrder V]
    (srt : (key_value V → key_value V → Bool) → List (key_value V) → List (key_value V))
    (ins : List (List (key_value V))) (nNumofDim : Int) (idx0 idx : List (List (key_value V)))
    (h : SortFeaValue srt ins nNumofDim idx0 = some idx) :
    idx.length = idx0.length + nNumofDim.toNat ∧
    (∀ j, j < idx0.length → idx[j]? = idx0[j]?) ∧
    (∀ j, j < nNumofDim.toNat →
      idx[idx0.length + j]? = some (srt CmpValue (collected ins j))) ∧
    (∀ j, nNumofDim.toNat ≤ j → idx[idx0.length + j]? = none) := by
  rw [SortFeaValue_eq] at h
  simp only [Option.some.injEq] at h
  subst h
  refine ⟨by simp, ?_, ?_, ?_⟩
  · intro j hj
    rw [List.getElem?_append_left hj]
  · intro j hj
    rw [List.getElem?_append_right (by omega)]
    simp [List.getElem?_map, List.getElem?_range hj]
  · intro j hj
    apply List.getElem?_eq_none
    simp; omega


/-- C1: when every instance lists its pairs in strictly ascending order of non-negative
feature ids, `SortFeaValue(numFeatures)` run on an empty index returns an index whose column
`j`, for every `0 ≤ j < numFeatures`, has no repeated entry and holds `(i, v)` exactly
when instance `i` has the pair `(j, v)`. -/
theorem SortFeaValue_column_exact {V : Type} [LinearOrder V]
    (srt : (key_value V → key_value V → Bool) → List (key_value V) → List (key_value V))
    (hsrt : StdSort srt) (ins : List (List (key_value V)))
    (hasc : ∀ inst ∈ ins, AscendingIds inst) (nNumofDim : Int) :
    ∃ idx, SortFeaValue srt ins nNumofDim [] = some idx ∧
      ∀ j : Nat, (j : Int) < nNumofDim →
        ∃ col, idx[j]? = some col ∧ col.Nodup ∧
          ∀ x : key_value V, x ∈ col ↔
            ∃ (i : Nat) (inst : List (key_value V)), ins[i]? = some inst ∧ x.id = (i : Int) ∧
              (⟨(j : Int), x.featureValue⟩ : key_value V) ∈ inst := by
  refine ⟨_, SortFeaValue_eq srt ins nNumofDim [], ?_⟩
  intro j hj
  obtain ⟨_, _, hcol, _⟩ := SortFeaValue_getElem? srt ins nNumofDim [] _
    (SortFeaValue_eq srt ins nNumofDim [])
  have hjn : j < nNumofDim.toNat := by omega
  have hperm := (hsrt CmpValue (collected ins j) CmpValue_strictWeak).1
  refine ⟨_, by simpa using hcol j hjn, (hperm.nodup_iff).2 (collected_nodup ins j), ?_⟩
  intro x
  rw [hperm.mem_iff, mem_collected]
  constructor
  · rintro ⟨i, inst, h1, h2, h3⟩
    exact ⟨i, inst, h1, h2, mem_of_emitted _ _ _ _ h3⟩
  · rintro ⟨i, inst, h1, h2, h3⟩
    have hmem : inst ∈ ins := by
      obtain ⟨hlt, he⟩ := List.getElem?_eq_some.1 h1
      rw [← he]; exact List.getElem_mem hlt
    exact ⟨i, inst, h1, h2, (emitted_iff_mem inst (hasc inst hmem) j _).2 h3⟩

theorem SortFeaValue_column_exact_witness :
    (StdSort (insertionStdSort :
        (key_value Int → key_value Int → Bool) → List (key_value Int) → List (key_value Int)) ∧
      ∀ inst ∈ demoInstances, AscendingIds inst) ∧
    ∃ idx, SortFeaValue insertionStdSort demoInstances 3 [] = some idx ∧
      ∀ j : Nat, (j : Int) < 3 →
        ∃ col, idx[j]? = some col ∧ col.Nodup ∧
          ∀ x : key_value Int, x ∈ col ↔
            ∃ (i : Nat) (inst : List (key_value Int)),
              demoInstances[i]? = some inst ∧ x.id = (i : Int) ∧
              (⟨(j : Int), x.featureValue⟩ : key_value Int) ∈ inst :=
  ⟨⟨insertionStdSort_stdSort, by decide⟩,
    SortFeaValue_column_exact insertionStdSort insertionStdSort_stdSort demoInstances
      (by decide) 3⟩

end Trainer

namespace Trainer

theorem SortFeaValue_demo :
    SortFeaValue insertionStdSort demoInstances 3 [] =
      some [[⟨0, 5⟩], [⟨1, 3⟩], [⟨1, 9⟩, ⟨0, 7⟩]] := by decide

/-- C2: every column `SortFeaValue` produces is in descending order of value (an earlier
entry never has a smaller value than a later one) and is a rearrangement of the entries
collected for that feature, i.e. of the column the same run hands to `std::sort`. -/
theorem SortFeaValue_column_sorted {V : Type} [LinearOrder V]
    (srt : (key_value V → key_value V → Bool) → List (key_value V) → List (key_value V))
    (hsrt : StdSort srt) (ins : List (List (key_value V))) (nNumofDim : Int)
    (idx0 : List (List (key_value V))) :
    ∃ idx raw, SortFeaValue srt ins nNumofDim idx0 = some idx ∧
      SortFeaValue (fun _ l => l) ins nNumofDim idx0 = some raw ∧
      idx.length = idx0.length + nNumofDim.toNat ∧
      ∀ j, j < nNumofDim.toNat →
        ∃ col featurePair, idx[idx0.length + j]? = some col ∧
          raw[idx0.length + j]? = some featurePair ∧
          col.Perm featurePair ∧
          col.Pairwise (fun a b => a.featureValue ≥ b.featureValue) := by
  refine ⟨_, _, SortFeaValue_eq srt ins nNumofDim idx0,
    SortFeaValue_eq (fun _ l => l) ins nNumofDim idx0, ?_, ?_⟩
  · simp
  · intro j hj
    obtain ⟨_, _, hcol, _⟩ := SortFeaValue_getElem? srt ins nNumofDim idx0 _
      (SortFeaValue_eq srt ins nNumofDim idx0)
    obtain ⟨_, _, hraw, _⟩ := SortFeaValue_getElem? (fun _ l => l) ins nNumofDim idx0 _
      (SortFeaValue_eq (fun _ l => l) ins nNumofDim idx0)
    obtain ⟨hperm, hsorted⟩ := hsrt CmpValue (collected ins j) CmpValue_strictWeak
    refine ⟨_, _, hcol j hj, hraw j hj, hperm, ?_⟩
    refine hsorted.imp ?_
    intro a b hab
    simpa [CmpValue] using hab

theorem SortFeaValue_column_sorted_witness :
    StdSort (insertionStdSort :
        (key_value Int → key_value Int → Bool) → List (key_value Int) → List (key_value Int)) ∧
    ∃ idx raw, SortFeaValue insertionStdSort demoInstances 3 [] = some idx ∧
      SortFeaValue (fun _ l => l) demoInstances 3 [] = some raw ∧
      idx.length = ([] : List (List (key_value Int))).length + (3 : Int).toNat ∧
      ∀ j, j < (3 : Int).toNat →
        ∃ col featurePair, idx[([] : List (List (key_value Int))).length + j]? = some col ∧
          raw[([] : List (List (key_value Int))).length + j]? = some featurePair ∧
          col.Perm featurePair ∧
          col.Pairwise (fun a b => a.featureValue ≥ b.featureValue) :=
  ⟨insertionStdSort_stdSort,
    SortFeaValue_column_sorted insertionStdSort insertionStdSort_stdSort demoInstances 3 []⟩


/-- C10 as stated fails: with one instance carrying feature id 1 and `numFeatures = 1` the
index is built without error but has the single column 0; there is no column for id 1. -/
theorem SortFeaValue_no_column_beyond_dim :
    (∃ inst ∈ overflowInstances, ∃ e ∈ inst, e.id = 1 ∧ (1 : Int) ≤ e.id) ∧
    SortFeaValue insertionStdSort overflowInstances 1 [] = some [[]] ∧
    ¬ ∃ idx col, SortFeaValue insertionStdSort overflowInstances 1 [] = some idx ∧
        idx[1]? = some col ∧ col = [] := by
  have h : SortFeaValue insertionStdSort overflowInstances 1 [] = some [[]] := by decide
  refine ⟨by decide, h, ?_⟩
  rintro ⟨idx, col, hidx, hcol, _⟩
  rw [h] at hidx
  simp only [Option.some.injEq] at hidx
  subst hidx
  simp at hcol

/-- C10 amended: index construction by `SortFeaValue(numFeatures)` on an empty index
completes without error and returns exactly `numFeatures` columns (none when
`numFeatures ≤ 0`); a feature id `f ≥ numFeatures` has no column, and every entry `(i, v)` of
a column `j` stems from a pair `(j, v)` of instance `i`, so a pair with id `f` enters no
column. -/
theorem SortFeaValue_beyond_dim {V : Type} [LinearOrder V]
    (srt : (key_value V → key_value V → Bool) → List (key_value V) → List (key_value V))
    (hsrt : StdSort srt) (ins : List (List (key_value V))) (nNumofDim : Int) :
    ∃ idx, SortFeaValue srt ins nNumofDim [] = some idx ∧
      idx.length = nNumofDim.toNat ∧
      (∀ f : Nat, nNumofDim ≤ (f : Int) → idx[f]? = none) ∧
      ∀ (j : Nat) (col : List (key_value V)), idx[j]? = some col →
        (j : Int) < nNumofDim ∧
        ∀ x ∈ col, ∃ (i : Nat) (inst : List (key_value V)), ins[i]? = some inst ∧
          x.id = (i : Int) ∧ (⟨(j : Int), x.featureValue⟩ : key_value V) ∈ inst := by
  obtain ⟨hlen, _, hcol, hnone⟩ := SortFeaValue_getElem? srt ins nNumofDim [] _
    (SortFeaValue_eq srt ins nNumofDim [])
  refine ⟨_, SortFeaValue_eq srt ins nNumofDim [], by simp, ?_, ?_⟩
  · intro f hf
    have := hnone f (by omega)
    simp only [List.length_nil, zero_add] at this
    exact this
  · intro j col hj
    have hjn : j < nNumofDim.toNat := by
      by_contra hge
      have := hnone j (by omega)
      simp only [List.length_nil, zero_add] at this
      rw [this] at hj
      exact absurd hj (by simp)
    have hc := hcol j hjn
    simp only [List.length_nil, zero_add] at hc
    rw [hc] at hj
    simp only [Option.some.injEq] at hj
    subst hj
    refine ⟨by omega, ?_⟩
    intro x hx
    rw [((hsrt CmpValue (collected ins j) CmpValue_strictWeak).1).mem_iff, mem_collected] at hx
    obtain ⟨i, inst, h1, h2, h3⟩ := hx
    exact ⟨i, inst, h1, h2, mem_of_emitted _ _ _ _ h3⟩

theorem SortFeaValue_beyond_dim_witness :
    StdSort (insertionStdSort :
        (key_value Int → key_value Int → Bool) → List (key_value Int) → List (key_value Int)) ∧
    ∃ idx, SortFeaValue insertionStdSort demoInstances 2 [] = some idx ∧
      idx.length = (2 : Int).toNat ∧
      (∀ f : Nat, (2 : Int) ≤ (f : Int) → idx[f]? = none) ∧
      ∀ (j : Nat) (col : List (key_value Int)), idx[j]? = some col →
        (j : Int) < 2 ∧
        ∀ x ∈ col, ∃ (i : Nat) (inst : List (key_value Int)),
          demoInstances[i]? = some inst ∧
          x.id = (i : Int) ∧ (⟨(j : Int), x.featureValue⟩ : key_value Int) ∈ inst :=
  ⟨insertionStdSort_stdSort,
    SortFeaValue_beyond_dim insertionStdSort insertionStdSort_stdSort demoInstances 2⟩

theorem SortFeaValue_demo_two_features :
    SortFeaValue insertionStdSort demoInstances 2 [] = some [[⟨0, 5⟩], [⟨1, 3⟩]] := by decide

end Trainer

namespace Trainer

/-! ## Gradient recomputation -/

theorem computeGD_upto (m_vTrueValue : List ℚ) (m_vGDPair : List gdpair)
    (v_fPredValue : List ℚ) (hp : m_vTrueValue.length ≤ v_fPredValue.length)
    (hg : m_vTrueValue.length ≤ m_vGDPair.length) (k : Nat) (hk : k ≤ m_vTrueValue.length) :
    ∃ gd, (List.range k).foldlM (computeGDStep v_fPredValue m_vTrueValue) m_vGDPair = some gd ∧
      gd.length = m_vGDPair.length ∧
      (∀ (i : Nat) (p t : ℚ), i < k → v_fPredValue[i]? = some p → m_vTrueValue[i]? = some t →
        gd[i]? = some (⟨p - t, 1⟩ : gdpair)) ∧
      (∀ i, k ≤ i → gd[i]? = m_vGDPair[i]?) := by
  induction k with
  | zero => exact ⟨m_vGDPair, by simp, rfl, by simp, fun _ _ => rfl⟩
  | succ k ih =>
    obtain ⟨gd, hrun, hlen, hdone, hrest⟩ := ih (by omega)
    have hkp : k < v_fPredValue.length := by omega
    have hkt : k < m_vTrueValue.length := by omega
    have hkg : k < gd.length := by omega
    rw [List.range_succ, List.foldlM_append, hrun]
    simp only [Option.bind_eq_bind, Option.some_bind, List.foldlM_cons, List.foldlM_nil,
      computeGDStep, List.getElem?_eq_getElem hkp, List.getElem?_eq_getElem hkt,
      List.getElem?_eq_getElem hkg, Option.pure_def]
    refine ⟨_, rfl, by simp [hlen], ?_, ?_⟩
    · intro i p t hi hpi hti
      rw [List.getElem?_set]
      by_cases hik : k = i
      · subst hik
        rw [List.getElem?_eq_getElem hkp] at hpi
        rw [List.getElem?_eq_getElem hkt] at hti
        simp only [Option.some.injEq] at hpi hti
        simp [hkg, hpi, hti]
      · simp only [hik, if_false]
        exact hdone i p t (by omega) hpi hti
    · intro i hi
      rw [List.getElem?_set]
      have hik : ¬ k = i := by omega
      simp only [hik, if_false]
      exact hrest i (by omega)

/-- C5: `ComputeGD` sets, for every instance `i` that has a label, the gradient to
`prediction[i] − label[i]` and the hessian to 1, whatever the pair held before; it returns
(no out-of-range access) when there is a prediction and a gradient pair for every label, and
leaves the pairs beyond the labels as they were. -/
theorem ComputeGD_sets (m_vTrueValue : List ℚ) (m_vGDPair : List gdpair)
    (v_fPredValue : List ℚ) (hp : m_vTrueValue.length ≤ v_fPredValue.length)
    (hg : m_vTrueValue.length ≤ m_vGDPair.length) :
    ∃ gd, ComputeGD m_vTrueValue m_vGDPair v_fPredValue = some gd ∧
      gd.length = m_vGDPair.length ∧
      (∀ (i : Nat) (p t : ℚ), v_fPredValue[i]? = some p → m_vTrueValue[i]? = some t →
        gd[i]? = some (⟨p - t, 1⟩ : gdpair)) ∧
      (∀ i, m_vTrueValue.length ≤ i → gd[i]? = m_vGDPair[i]?) := by
  obtain ⟨gd, hrun, hlen, hdone, hrest⟩ :=
    computeGD_upto m_vTrueValue m_vGDPair v_fPredValue hp hg m_vTrueValue.length le_rfl
  refine ⟨gd, hrun, hlen, ?_, hrest⟩
  intro i p t hpi hti
  exact hdone i p t (List.getElem?_eq_some.1 hti).1 hpi hti

theorem ComputeGD_sets_witness :
    (([0, 1, 1] : List ℚ).length ≤ ([1 / 2, 1 / 4, 3] : List ℚ).length ∧
      ([0, 1, 1] : List ℚ).length ≤ ([⟨7, 9⟩, ⟨0, 0⟩, ⟨-1, 2⟩, ⟨5, 5⟩] : List gdpair).length) ∧
    ∃ gd, ComputeGD [0, 1, 1] [⟨7, 9⟩, ⟨0, 0⟩, ⟨-1, 2⟩, ⟨5, 5⟩] [1 / 2, 1 / 4, 3] = some gd ∧
      gd.length = ([⟨7, 9⟩, ⟨0, 0⟩, ⟨-1, 2⟩, ⟨5, 5⟩] : List gdpair).length ∧
      (∀ (i : Nat) (p t : ℚ), ([1 / 2, 1 / 4, 3] : List ℚ)[i]? = some p → ([0, 1, 1] : List ℚ)[i]? = some t →
        gd[i]? = some (⟨p - t, 1⟩ : gdpair)) ∧
      (∀ i, ([0, 1, 1] : List ℚ).length ≤ i →
        gd[i]? = ([⟨7, 9⟩, ⟨0, 0⟩, ⟨-1, 2⟩, ⟨5, 5⟩] : List gdpair)[i]?) :=
  ⟨⟨by decide, by decide⟩,
    ComputeGD_sets [0, 1, 1] [⟨7, 9⟩, ⟨0, 0⟩, ⟨-1, 2⟩, ⟨5, 5⟩] [1 / 2, 1 / 4, 3]
      (by decide) (by decide)⟩

theorem ComputeGD_demo :
    ComputeGD [0, 1, 1] [⟨7, 9⟩, ⟨0, 0⟩, ⟨-1, 2⟩, ⟨5, 5⟩] [1 / 2, 1 / 4, 3] =
      some [⟨1 / 2, 1⟩, ⟨-3 / 4, 1⟩, ⟨2, 1⟩, ⟨5, 5⟩] := by decide!

end Trainer

namespace Trainer

/-! ## The decision of the node resolver -/

theorem e2eRootLevel_reached :
    (InitTrainer insertionStdSort (newTrainer e2eInstances e2eLabels) 1 1 1 0 1).map
      (fun st =>
        let i := InitTree st { nodes := [] }
        let p := specCollaborators.PredictSparseIns i.1.heap i.1.m_vvInsSparse []
          i.1.m_vPredBuffer_fixedPos
        ({ i.1 with splitter :=
            specCollaborators.ComputeGDSparse i.1.splitter p.1 i.1.m_vTrueValue_fixedPos },
          i.2)) = some (e2eRootLevel.st, e2eRootLevel.tree) := by decide!

theorem e2eRootBest_found :
    (findSplits specCollaborators e2eRootLevel.st).2 = [e2eRootBest] := by decide!

theorem resolveNode_leaf_case {X : Type} (c : Collaborators X) (vBest : List SplitPoint)
    (nCurDepth : Int) (ls : LevelState X) (node : Nat) (nd : TreeNode) (bufferPos : Int)
    (best : SplitPoint) (hnd : ls.st.heap[node]? = some nd)
    (hpos : c.mapNodeIdToBufferPos_at ls.st.splitter nd.nodeId = some bufferPos)
    (hbest : vecAt vBest bufferPos = some best)
    (hleaf : best.m_fGain ≤ 0 ∨ ls.st.m_nMaxDepth = nCurDepth) :
    ∃ r, resolveNode c vBest nCurDepth ls node = some r ∧
      r.st.heap = ls.st.heap.set node
        { nd with predValue := (c.ComputeWeightSparseData ls.st.splitter bufferPos).1 } ∧
      r.st.calls = ls.st.calls ++
        [Call.ComputeWeightSparseData bufferPos, Call.MarkProcessed nd.nodeId] ∧
      r.tree = ls.tree ∧ r.newSplittableNode = ls.newSplittableNode ∧
      r.newNodeStat = ls.newNodeStat ∧ r.st.m_nNumofNode = ls.st.m_nNumofNode := by
  have hlt : node < ls.st.heap.length := (List.getElem?_eq_some.1 hnd).1
  simp only [resolveNode, hnd, hpos, hbest, hleaf, if_true]
  have hread : (resolveAsLeaf c ls node nd bufferPos).st.heap[node]? =
      some { nd with predValue := (c.ComputeWeightSparseData ls.st.splitter bufferPos).1 } := by
    simp [resolveAsLeaf, List.getElem?_set, hlt]
  simp only [markProcessed, hread]
  exact ⟨_, rfl, rfl, by simp [resolveAsLeaf], rfl, rfl, rfl, rfl⟩

theorem resolveNode_split_case {X : Type} (c : Collaborators X) (vBest : List SplitPoint)
    (nCurDepth : Int) (ls : LevelState X) (node : Nat) (nd nd1 : TreeNode) (bufferPos : Int)
    (best : SplitPoint) (hnd : ls.st.heap[node]? = some nd)
    (hpos : c.mapNodeIdToBufferPos_at ls.st.splitter nd.nodeId = some bufferPos)
    (hbest : vecAt vBest bufferPos = some best)
    (hsplit : ¬ (best.m_fGain ≤ 0 ∨ ls.st.m_nMaxDepth = nCurDepth))
    (hnd1 : (c.SplitNodeSparseData ls.st.splitter ls.st.heap node ls.newSplittableNode best
      ls.tree ls.newNodeStat ls.st.m_nNumofNode).heap[node]? = some nd1) :
    ∃ r, resolveNode c vBest nCurDepth ls node = some r ∧
      r.st.heap = (c.SplitNodeSparseData ls.st.splitter ls.st.heap node
        ls.newSplittableNode best ls.tree ls.newNodeStat ls.st.m_nNumofNode).heap ∧
      r.st.calls = ls.st.calls ++
        [Call.SplitNodeSparseData node best, Call.MarkProcessed nd1.nodeId] ∧
      r.tree = (c.SplitNodeSparseData ls.st.splitter ls.st.heap node
        ls.newSplittableNode best ls.tree ls.newNodeStat ls.st.m_nNumofNode).tree ∧
      r.newSplittableNode = (c.SplitNodeSparseData ls.st.splitter ls.st.heap node
        ls.newSplittableNode best ls.tree ls.newNodeStat
        ls.st.m_nNumofNode).newSplittableNode := by
  simp only [resolveNode, hnd, hpos, hbest, hsplit, if_false]
  have hread : (resolveBySplit c ls node best).st.heap[node]? = some nd1 := hnd1
  simp only [markProcessed, hread]
  exact ⟨_, rfl, rfl, by simp [resolveBySplit], rfl, rfl⟩

/-- C3: the body of the frontier loop of `GrowTree2`, run for a frontier node `node` in the
level whose counter is `nCurDepth`, with `best` the split point at the node's buffer
position. If `best.m_fGain ≤ 0` or `m_nMaxDepth = nCurDepth`, the node is resolved as a leaf:
its `predValue` becomes the weight computed for its buffer position, the split routine is
not called, and tree, next frontier, child statistics and node counter stay as they were.
Otherwise the split routine is called on the node with `best`, its results are taken over
as they are, and no weight is computed or written by the loop. Either way the node is then
marked processed. -/
theorem resolveNode_decision {X : Type} (c : Collaborators X) (vBest : List SplitPoint)
    (nCurDepth : Int) (ls : LevelState X) (node : Nat) (nd : TreeNode) (bufferPos : Int)
    (best : SplitPoint) (hnd : ls.st.heap[node]? = some nd)
    (hpos : c.mapNodeIdToBufferPos_at ls.st.splitter nd.nodeId = some bufferPos)
    (hbest : vecAt vBest bufferPos = some best) :
    (best.m_fGain ≤ 0 ∨ ls.st.m_nMaxDepth = nCurDepth →
      ∃ r, resolveNode c vBest nCurDepth ls node = some r ∧
        r.st.heap = ls.st.heap.set node
          { nd with predValue := (c.ComputeWeightSparseData ls.st.splitter bufferPos).1 } ∧
        r.st.calls = ls.st.calls ++
          [Call.ComputeWeightSparseData bufferPos, Call.MarkProcessed nd.nodeId] ∧
        r.tree = ls.tree ∧ r.newSplittableNode = ls.newSplittableNode ∧
        r.newNodeStat = ls.newNodeStat ∧ r.st.m_nNumofNode = ls.st.m_nNumofNode) ∧
    (¬ (best.m_fGain ≤ 0 ∨ ls.st.m_nMaxDepth = nCurDepth) →
      ∀ nd1, (c.SplitNodeSparseData ls.st.splitter ls.st.heap node ls.newSplittableNode best
          ls.tree ls.newNodeStat ls.st.m_nNumofNode).heap[node]? = some nd1 →
        ∃ r, resolveNode c vBest nCurDepth ls node = some r ∧
          r.st.heap = (c.SplitNodeSparseData ls.st.splitter ls.st.heap node
            ls.newSplittableNode best ls.tree ls.newNodeStat ls.st.m_nNumofNode).heap ∧
          r.st.calls = ls.st.calls ++
            [Call.SplitNodeSparseData node best, Call.MarkProcessed nd1.nodeId] ∧
          r.tree = (c.SplitNodeSparseData ls.st.splitter ls.st.heap node
            ls.newSplittableNode best ls.tree ls.newNodeStat ls.st.m_nNumofNode).tree ∧
          r.newSplittableNode = (c.SplitNodeSparseData ls.st.splitter ls.st.heap node
            ls.newSplittableNode best ls.tree ls.newNodeStat
            ls.st.m_nNumofNode).newSplittableNode) := by
  exact ⟨fun hleaf => resolveNode_leaf_case c vBest nCurDepth ls node nd bufferPos best hnd
      hpos hbest hleaf,
    fun hsplit nd1 hnd1 => resolveNode_split_case c vBest nCurDepth ls node nd nd1 bufferPos
      best hnd hpos hbest hsplit hnd1⟩

end Trainer

namespace Trainer

theorem resolveNode_decision_witness :
    (e2eRootLevel.st.heap[0]? = some { TreeNode.init with endId := 3 } ∧
      specCollaborators.mapNodeIdToBufferPos_at e2eRootLevel.st.splitter
        ({ TreeNode.init with endId := 3 } : TreeNode).nodeId = some 0 ∧
      vecAt [e2eRootBest] 0 = some e2eRootBest) ∧
    ((e2eRootBest.m_fGain ≤ 0 ∨ e2eRootLevel.st.m_nMaxDepth = 0 →
      ∃ r, resolveNode specCollaborators [e2eRootBest] 0 e2eRootLevel 0 = some r ∧
        r.st.heap = e2eRootLevel.st.heap.set 0
          { ({ TreeNode.init with endId := 3 } : TreeNode) with
            predValue :=
              (specCollaborators.ComputeWeightSparseData e2eRootLevel.st.splitter 0).1 } ∧
        r.st.calls = e2eRootLevel.st.calls ++
          [Call.ComputeWeightSparseData 0,
            Call.MarkProcessed ({ TreeNode.init with endId := 3 } : TreeNode).nodeId] ∧
        r.tree = e2eRootLevel.tree ∧ r.newSplittableNode = e2eRootLevel.newSplittableNode ∧
        r.newNodeStat = e2eRootLevel.newNodeStat ∧
        r.st.m_nNumofNode = e2eRootLevel.st.m_nNumofNode) ∧
    (¬ (e2eRootBest.m_fGain ≤ 0 ∨ e2eRootLevel.st.m_nMaxDepth = 0) →
      ∀ nd1, (specCollaborators.SplitNodeSparseData e2eRootLevel.st.splitter
          e2eRootLevel.st.heap 0 e2eRootLevel.newSplittableNode e2eRootBest
          e2eRootLevel.tree e2eRootLevel.newNodeStat
          e2eRootLevel.st.m_nNumofNode).heap[0]? = some nd1 →
        ∃ r, resolveNode specCollaborators [e2eRootBest] 0 e2eRootLevel 0 = some r ∧
          r.st.heap = (specCollaborators.SplitNodeSparseData e2eRootLevel.st.splitter
            e2eRootLevel.st.heap 0 e2eRootLevel.newSplittableNode e2eRootBest
            e2eRootLevel.tree e2eRootLevel.newNodeStat e2eRootLevel.st.m_nNumofNode).heap ∧
          r.st.calls = e2eRootLevel.st.calls ++
            [Call.SplitNodeSparseData 0 e2eRootBest, Call.MarkProcessed nd1.nodeId] ∧
          r.tree = (specCollaborators.SplitNodeSparseData e2eRootLevel.st.splitter
            e2eRootLevel.st.heap 0 e2eRootLevel.newSplittableNode e2eRootBest
            e2eRootLevel.tree e2eRootLevel.newNodeStat e2eRootLevel.st.m_nNumofNode).tree ∧
          r.newSplittableNode = (specCollaborators.SplitNodeSparseData
            e2eRootLevel.st.splitter e2eRootLevel.st.heap 0 e2eRootLevel.newSplittableNode
            e2eRootBest e2eRootLevel.tree e2eRootLevel.newNodeStat
            e2eRootLevel.st.m_nNumofNode).newSplittableNode)) :=
  ⟨⟨by decide!, by decide!, by decide!⟩,
    resolveNode_decision specCollaborators [e2eRootBest] 0 e2eRootLevel 0
      { TreeNode.init with endId := 3 } 0 e2eRootBest (by decide!) (by decide!) (by decide!)⟩

/-! ## The number of levels -/

theorem foldlM_invariant {α β : Type} (f : β → α → Option β) (P : β → Prop)
    (hstep : ∀ b a b1, P b → f b a = some b1 → P b1) :
    ∀ (l : List α) (b b1 : β), P b → l.foldlM f b = some b1 → P b1 := by
  intro l
  induction l with
  | nil =>
    intro b b1 hb h
    simp only [List.foldlM_nil, Option.pure_def, Option.some.injEq] at h
    exact h ▸ hb
  | cons a l ih =>
    intro b b1 hb h
    simp only [List.foldlM_cons, Option.bind_eq_bind] at h
    cases hfa : f b a with
    | none => rw [hfa] at h; exact absurd h (by simp)
    | some b2 =>
      rw [hfa] at h
      exact ih b2 b1 (hstep b a b2 hb hfa) h

theorem markProcessed_frame {X : Type} (c : Collaborators X) (ls r : LevelState X)
    (node : Nat) (h : markProcessed c ls node = some r) :
    r.st.m_nMaxDepth = ls.st.m_nMaxDepth ∧ r.newSplittableNode = ls.newSplittableNode ∧
      r.tree = ls.tree ∧ r.st.heap = ls.st.heap := by
  unfold markProcessed at h
  cases hn : ls.st.heap[node]? with
  | none => rw [hn] at h; exact absurd h (by simp)
  | some nd =>
    rw [hn] at h
    simp only [Option.some.injEq] at h
    subst h
    exact ⟨rfl, rfl, rfl, rfl⟩

theorem resolveNode_frame {X : Type} (c : Collaborators X) (vBest : List SplitPoint)
    (nCurDepth : Int) (ls r : LevelState X) (node : Nat)
    (h : resolveNode c vBest nCurDepth ls node = some r) :
    r.st.m_nMaxDepth = ls.st.m_nMaxDepth ∧
      (ls.st.m_nMaxDepth = nCurDepth → r.newSplittableNode = ls.newSplittableNode) := by
  unfold resolveNode at h
  cases hn : ls.st.heap[node]? with
  | none => rw [hn] at h; exact absurd h (by simp)
  | some nd =>
    rw [hn] at h
    simp only at h
    cases hp : c.mapNodeIdToBufferPos_at ls.st.splitter nd.nodeId with
    | none => rw [hp] at h; exact absurd h (by simp)
    | some bufferPos =>
      rw [hp] at h
      simp only at h
      cases hb : vecAt vBest bufferPos with
      | none => rw [hb] at h; exact absurd h (by simp)
      | some best =>
        rw [hb] at h
        simp only at h
        by_cases hc : best.m_fGain ≤ 0 ∨ ls.st.m_nMaxDepth = nCurDepth
        · rw [if_pos hc] at h
          obtain ⟨h1, h2, _, _⟩ := markProcessed_frame c _ r node h
          exact ⟨h1, fun _ => h2⟩
        · rw [if_neg hc] at h
          obtain ⟨h1, _, _, _⟩ := markProcessed_frame c _ r node h
          exact ⟨h1, fun hd => absurd (Or.inr hd) hc⟩

theorem growLevel_frame {X : Type} (c : Collaborators X) (nCurDepth : Int)
    (st : TrainerState X) (tree : RegTree) (splittableNode : List Nat) (ls : LevelState X)
    (h : growLevel c nCurDepth st tree splittableNode = some ls) :
    ls.st.m_nMaxDepth = st.m_nMaxDepth ∧
      (st.m_nMaxDepth = nCurDepth → ls.newSplittableNode = []) := by
  unfold growLevel at h
  simp only at h
  cases hf : splittableNode.foldlM (resolveNode c (findSplits c st).2 nCurDepth)
      { st := (findSplits c st).1, tree := tree, newSplittableNode := [],
        newNodeStat := [] } with
  | none => rw [hf] at h; exact absurd h (by simp)
  | some r =>
    rw [hf] at h
    simp only [Option.some.injEq] at h
    subst h
    have hinv := foldlM_invariant (resolveNode c (findSplits c st).2 nCurDepth)
      (fun ls => ls.st.m_nMaxDepth = st.m_nMaxDepth ∧
        (st.m_nMaxDepth = nCurDepth → ls.newSplittableNode = []))
      (by
        intro b a b1 hb hstep
        obtain ⟨h1, h2⟩ := resolveNode_frame c _ nCurDepth b b1 a hstep
        refine ⟨h1.trans hb.1, fun hd => ?_⟩
        rw [h2 (hb.1.trans hd), hb.2 hd])
      splittableNode _ r ⟨rfl, fun _ => rfl⟩ hf
    exact hinv

theorem growLoop_bounded {X : Type} (c : Collaborators X) (maxDepth : Int) :
    ∀ (fuel : Nat) (nCurDepth : Int) (st : TrainerState X) (tree : RegTree)
      (splittableNode : List Nat),
      st.m_nMaxDepth = maxDepth → nCurDepth ≤ maxDepth →
      (maxDepth - nCurDepth).toNat + 1 ≤ fuel →
      growLoop c fuel nCurDepth st tree splittableNode ≠ Outcome.outOfFuel ∧
      ∀ g, growLoop c fuel nCurDepth st tree splittableNode = Outcome.done g →
        g.nCurDepth ≤ maxDepth + 1 := by
  intro fuel
  induction fuel with
  | zero => intro d st tree fr _ _ hf; omega
  | succ k ih =>
    intro d st tree fr hmax hd hf
    cases fr with
    | nil =>
      simp only [growLoop]
      refine ⟨by simp, fun g hg => ?_⟩
      simp only [Outcome.done.injEq] at hg
      subst hg
      show d ≤ maxDepth + 1
      omega
    | cons n ns =>
      simp only [growLoop]
      cases hl : growLevel c d st tree (n :: ns) with
      | none => exact ⟨by simp, fun g hg => by simp at hg⟩
      | some ls =>
        simp only
        obtain ⟨hkeep, hempty⟩ := growLevel_frame c d st tree (n :: ns) ls hl
        by_cases hlast : d = maxDepth
        · have hnil := hempty (hmax.trans hlast.symm)
          rw [hnil]
          cases k with
          | zero =>
            simp only [growLoop]
            refine ⟨by simp, fun g hg => ?_⟩
            simp only [Outcome.done.injEq] at hg
            subst hg
            show d + 1 ≤ maxDepth + 1
            omega
          | succ k1 =>
            simp only [growLoop]
            refine ⟨by simp, fun g hg => ?_⟩
            simp only [Outcome.done.injEq] at hg
            subst hg
            show d + 1 ≤ maxDepth + 1
            omega
        · exact ih (d + 1) ls.st ls.tree ls.newSplittableNode (hkeep.trans hmax) (by omega)
            (by omega)

theorem growLoop_more_fuel {X : Type} (c : Collaborators X) :
    ∀ (fuel extra : Nat) (nCurDepth : Int) (st : TrainerState X) (tree : RegTree)
      (splittableNode : List Nat),
      growLoop c fuel nCurDepth st tree splittableNode ≠ Outcome.outOfFuel →
      growLoop c (fuel + extra) nCurDepth st tree splittableNode =
        growLoop c fuel nCurDepth st tree splittableNode := by
  intro fuel
  induction fuel with
  | zero =>
    intro extra d st tree fr h
    cases fr with
    | nil => cases extra <;> simp [growLoop]
    | cons n ns => simp [growLoop] at h
  | succ k ih =>
    intro extra d st tree fr h
    cases fr with
    | nil => simp [growLoop]
    | cons n ns =>
      have hk : k + 1 + extra = (k + extra) + 1 := by omega
      rw [hk]
      simp only [growLoop] at h ⊢
      cases hl : growLevel c d st tree (n :: ns) with
      | none => rfl
      | some ls =>
        rw [hl] at h
        exact ih extra (d + 1) ls.st ls.tree ls.newSplittableNode h

/-- C4: for `maxDepth ≥ 0`, whatever the collaborators return, `GrowTree2` needs at most
`maxDepth + 1` passes of its level loop: with that many passes allowed it never runs short,
more passes change nothing, the level counter ends at most at `maxDepth + 1`, and the pass
whose counter equals `maxDepth` leaves an empty frontier. -/
theorem GrowTree2_levels_bounded {X : Type} (c : Collaborators X) (st : TrainerState X)
    (tree : RegTree) (hdepth : 0 ≤ st.m_nMaxDepth) :
    GrowTree2 c (st.m_nMaxDepth.toNat + 1) st tree ≠ Outcome.outOfFuel ∧
    (∀ fuel, st.m_nMaxDepth.toNat + 1 ≤ fuel →
      GrowTree2 c fuel st tree = GrowTree2 c (st.m_nMaxDepth.toNat + 1) st tree) ∧
    (∀ fuel g, GrowTree2 c fuel st tree = Outcome.done g →
      g.nCurDepth ≤ st.m_nMaxDepth + 1) ∧
    (∀ (st1 : TrainerState X) (tree1 : RegTree) (splittableNode : List Nat)
      (ls : LevelState X), st1.m_nMaxDepth = st.m_nMaxDepth →
      growLevel c st.m_nMaxDepth st1 tree1 splittableNode = some ls →
      ls.newSplittableNode = []) := by
  have hb := growLoop_bounded c st.m_nMaxDepth (st.m_nMaxDepth.toNat + 1) 0 st tree
    tree.nodes rfl hdepth (by simp)
  have hmore : ∀ fuel, st.m_nMaxDepth.toNat + 1 ≤ fuel →
      GrowTree2 c fuel st tree = GrowTree2 c (st.m_nMaxDepth.toNat + 1) st tree := by
    intro fuel hf
    obtain ⟨extra, rfl⟩ := Nat.exists_eq_add_of_le hf
    exact growLoop_more_fuel c _ extra 0 st tree tree.nodes hb.1
  refine ⟨hb.1, hmore, ?_, ?_⟩
  · intro fuel g hg
    by_cases hf : st.m_nMaxDepth.toNat + 1 ≤ fuel
    · rw [hmore fuel hf] at hg
      exact hb.2 g hg
    · have hle : fuel ≤ st.m_nMaxDepth.toNat + 1 := by omega
      obtain ⟨extra, hextra⟩ := Nat.exists_eq_add_of_le hle
      have hne : growLoop c fuel 0 st tree tree.nodes ≠ Outcome.outOfFuel := by
        intro hcontra
        unfold GrowTree2 at hg
        rw [hcontra] at hg
        exact absurd hg (by simp)
      have := growLoop_more_fuel c fuel extra 0 st tree tree.nodes hne
      rw [← hextra] at this
      exact hb.2 g (by unfold GrowTree2 at hg; rw [this, hg])
  · intro st1 tree1 fr ls hmax hl
    exact (growLevel_frame c _ st1 tree1 fr ls hl).2 hmax

end Trainer

namespace Trainer

theorem GrowTree2_levels_bounded_witness :
    0 ≤ e2eRootLevel.st.m_nMaxDepth ∧
    (GrowTree2 specCollaborators (e2eRootLevel.st.m_nMaxDepth.toNat + 1) e2eRootLevel.st
        e2eRootLevel.tree ≠ Outcome.outOfFuel ∧
      (∀ fuel, e2eRootLevel.st.m_nMaxDepth.toNat + 1 ≤ fuel →
        GrowTree2 specCollaborators fuel e2eRootLevel.st e2eRootLevel.tree =
          GrowTree2 specCollaborators (e2eRootLevel.st.m_nMaxDepth.toNat + 1) e2eRootLevel.st
            e2eRootLevel.tree) ∧
      (∀ fuel g, GrowTree2 specCollaborators fuel e2eRootLevel.st e2eRootLevel.tree =
          Outcome.done g → g.nCurDepth ≤ e2eRootLevel.st.m_nMaxDepth + 1) ∧
      (∀ (st1 : TrainerState SpecRest) (tree1 : RegTree) (splittableNode : List Nat)
        (ls : LevelState SpecRest), st1.m_nMaxDepth = e2eRootLevel.st.m_nMaxDepth →
        growLevel specCollaborators e2eRootLevel.st.m_nMaxDepth st1 tree1 splittableNode =
          some ls →
        ls.newSplittableNode = [])) :=
  ⟨by decide,
    GrowTree2_levels_bounded specCollaborators e2eRootLevel.st e2eRootLevel.tree (by decide)⟩

theorem GrowTree2_e2e_levels :
    (match GrowTree2 specCollaborators 2 e2eRootLevel.st e2eRootLevel.tree with
      | Outcome.done g => some (g.nCurDepth, g.tree)
      | _ => none) = some (2, { nodes := [0, 1, 2] }) := by decide!

/-! ## The gain example -/

/-- C9: the gain of the example partition (`G = 10, H = 4` into `GL = 6, HL = 2` and
`GR = 4, HR = 2`, `λ = 1`, `γ = 0`) is `0.5·(36/3 + 16/3 − 100/5) = −4/3`, and a frontier node
whose best gain is this value is resolved as a leaf by the frontier loop of `GrowTree2`, in
the level of any counter `nCurDepth` and for any `m_nMaxDepth`: its weight is stored, the
split routine is not called, nothing joins the next frontier. -/
theorem gain_example_resolves_as_leaf {X : Type} (c : Collaborators X)
    (vBest : List SplitPoint) (nCurDepth : Int) (ls : LevelState X) (node : Nat)
    (nd : TreeNode) (bufferPos : Int) (best : SplitPoint)
    (hnd : ls.st.heap[node]? = some nd)
    (hpos : c.mapNodeIdToBufferPos_at ls.st.splitter nd.nodeId = some bufferPos)
    (hbest : vecAt vBest bufferPos = some best)
    (hgain : best.m_fGain = splitGain 1 0 ⟨6, 2⟩ ⟨4, 2⟩ ⟨10, 4⟩) :
    splitGain 1 0 ⟨6, 2⟩ ⟨4, 2⟩ ⟨10, 4⟩ = (1 / 2 : ℚ) * (36 / 3 + 16 / 3 - 100 / 5) ∧
    (1 / 2 : ℚ) * (36 / 3 + 16 / 3 - 100 / 5) = -4 / 3 ∧
    ∃ r, resolveNode c vBest nCurDepth ls node = some r ∧
      r.st.heap = ls.st.heap.set node
        { nd with predValue := (c.ComputeWeightSparseData ls.st.splitter bufferPos).1 } ∧
      r.st.calls = ls.st.calls ++
        [Call.ComputeWeightSparseData bufferPos, Call.MarkProcessed nd.nodeId] ∧
      r.tree = ls.tree ∧ r.newSplittableNode = ls.newSplittableNode ∧
      r.newNodeStat = ls.newNodeStat ∧ r.st.m_nNumofNode = ls.st.m_nNumofNode := by
  have hval : splitGain 1 0 ⟨6, 2⟩ ⟨4, 2⟩ ⟨10, 4⟩ = -4 / 3 := by
    simp only [splitGain]; norm_num
  refine ⟨by rw [hval]; norm_num, by norm_num, ?_⟩
  have hle : best.m_fGain ≤ 0 := by rw [hgain, hval]; norm_num
  exact resolveNode_leaf_case c vBest nCurDepth ls node nd bufferPos best hnd hpos hbest
    (Or.inl hle)

theorem gain_example_resolves_as_leaf_witness :
    (gainExampleLevel.st.heap[0]? = some TreeNode.init ∧
      specCollaborators.mapNodeIdToBufferPos_at gainExampleLevel.st.splitter
        TreeNode.init.nodeId = some 0 ∧
      vecAt [gainExampleBest] 0 = some gainExampleBest ∧
      gainExampleBest.m_fGain = splitGain 1 0 ⟨6, 2⟩ ⟨4, 2⟩ ⟨10, 4⟩) ∧
    (splitGain 1 0 ⟨6, 2⟩ ⟨4, 2⟩ ⟨10, 4⟩ = (1 / 2 : ℚ) * (36 / 3 + 16 / 3 - 100 / 5) ∧
    (1 / 2 : ℚ) * (36 / 3 + 16 / 3 - 100 / 5) = -4 / 3 ∧
    ∃ r, resolveNode specCollaborators [gainExampleBest] 0 gainExampleLevel 0 = some r ∧
      r.st.heap = gainExampleLevel.st.heap.set 0
        { TreeNode.init with
          predValue :=
            (specCollaborators.ComputeWeightSparseData gainExampleLevel.st.splitter 0).1 } ∧
      r.st.calls = gainExampleLevel.st.calls ++
        [Call.ComputeWeightSparseData 0, Call.MarkProcessed TreeNode.init.nodeId] ∧
      r.tree = gainExampleLevel.tree ∧
      r.newSplittableNode = gainExampleLevel.newSplittableNode ∧
      r.newNodeStat = gainExampleLevel.newNodeStat ∧
      r.st.m_nNumofNode = gainExampleLevel.st.m_nNumofNode) :=
  ⟨⟨by decide!, by decide!, by decide!, rfl⟩,
    gain_example_resolves_as_leaf specCollaborators [gainExampleBest] 0 gainExampleLevel 0
      TreeNode.init 0 gainExampleBest (by decide!) (by decide!) (by decide!) rfl⟩

theorem gain_example_leaf_weight :
    (resolveNode specCollaborators [gainExampleBest] 0 gainExampleLevel 0).map
      (fun r => (r.st.heap.map TreeNode.predValue, r.newSplittableNode)) =
      some ([-2], []) := by decide!

end Trainer

namespace Trainer

/-! ## Every frontier node of a level goes through the node resolver -/

theorem foldlM_split {α β : Type} (f : β → α → Option β) (pre : List α) (a : α)
    (post : List α) (b out : β) (h : (pre ++ a :: post).foldlM f b = some out) :
    ∃ b0 b1, pre.foldlM f b = some b0 ∧ f b0 a = some b1 ∧ post.foldlM f b1 = some out := by
  rw [List.foldlM_append] at h
  cases h0 : pre.foldlM f b with
  | none => rw [h0] at h; exact absurd h (by simp)
  | some b0 =>
    rw [h0] at h
    simp only [Option.bind_eq_bind, Option.some_bind, List.foldlM_cons] at h
    cases h1 : f b0 a with
    | none => rw [h1] at h; exact absurd h (by simp)
    | some b1 =>
      rw [h1] at h
      exact ⟨b0, b1, rfl, h1, h⟩

/-- In a pass of the level loop that does not fault, every node of the frontier is handed to
the body of the frontier loop, with the split points found at the head of the pass and the
level counter of the pass, in the state its predecessors in the frontier left behind. -/
theorem growLevel_resolves_each {X : Type} (c : Collaborators X) (nCurDepth : Int)
    (st : TrainerState X) (tree : RegTree) (pre : List Nat) (node : Nat) (post : List Nat)
    (out : LevelState X)
    (h : growLevel c nCurDepth st tree (pre ++ node :: post) = some out) :
    ∃ ls0 ls1,
      pre.foldlM (resolveNode c (findSplits c st).2 nCurDepth)
        { st := (findSplits c st).1, tree := tree, newSplittableNode := [],
          newNodeStat := [] } = some ls0 ∧
      resolveNode c (findSplits c st).2 nCurDepth ls0 node = some ls1 ∧
      ls0.st.m_nMaxDepth = st.m_nMaxDepth := by
  unfold growLevel at h
  simp only at h
  cases hf : (pre ++ node :: post).foldlM (resolveNode c (findSplits c st).2 nCurDepth)
      { st := (findSplits c st).1, tree := tree, newSplittableNode := [],
        newNodeStat := [] } with
  | none => rw [hf] at h; exact absurd h (by simp)
  | some r =>
    obtain ⟨b0, b1, h0, h1, _⟩ := foldlM_split _ pre node post _ r hf
    refine ⟨b0, b1, h0, h1, ?_⟩
    exact foldlM_invariant (resolveNode c (findSplits c st).2 nCurDepth)
      (fun ls => ls.st.m_nMaxDepth = st.m_nMaxDepth)
      (fun b a b2 hb hstep => (resolveNode_frame c _ nCurDepth b b2 a hstep).1.trans hb)
      pre _ b0 rfl h0

end Trainer

namespace Trainer

/-! ## What `GrowTree2` leaves untouched -/

theorem GrowsFrom.refl {X : Type} (s : TrainerState X) : GrowsFrom s s :=
  ⟨rfl, rfl, rfl, rfl, rfl, [], by simp, by simp⟩

theorem GrowsFrom.trans {X : Type} {s s1 s2 : TrainerState X} (h1 : GrowsFrom s s1)
    (h2 : GrowsFrom s1 s2) : GrowsFrom s s2 := by
  obtain ⟨a1, a2, a3, a4, a5, ev1, a6, a7⟩ := h1
  obtain ⟨b1, b2, b3, b4, b5, ev2, b6, b7⟩ := h2
  refine ⟨b1.trans a1, b2.trans a2, b3.trans a3, b4.trans a4, b5.trans a5, ev1 ++ ev2, ?_, ?_⟩
  · rw [b6, a6, List.append_assoc]
  · intro e he
    rcases List.mem_append.1 he with h | h
    · exact a7 e h
    · exact b7 e h

theorem markProcessed_growsFrom {X : Type} (c : Collaborators X) (ls r : LevelState X)
    (node : Nat) (h : markProcessed c ls node = some r) : GrowsFrom ls.st r.st := by
  unfold markProcessed at h
  cases hn : ls.st.heap[node]? with
  | none => rw [hn] at h; exact absurd h (by simp)
  | some nd =>
    rw [hn] at h
    simp only [Option.some.injEq] at h
    subst h
    exact ⟨rfl, rfl, rfl, rfl, rfl, [Call.MarkProcessed nd.nodeId], rfl, by simp [Call.isGrow]⟩

theorem resolveAsLeaf_growsFrom {X : Type} (c : Collaborators X) (ls : LevelState X)
    (node : Nat) (nd : TreeNode) (bufferPos : Int) :
    GrowsFrom ls.st (resolveAsLeaf c ls node nd bufferPos).st :=
  ⟨rfl, rfl, rfl, rfl, rfl, [Call.ComputeWeightSparseData bufferPos], rfl,
    by simp [Call.isGrow]⟩

theorem resolveBySplit_growsFrom {X : Type} (c : Collaborators X) (ls : LevelState X)
    (node : Nat) (best : SplitPoint) :
    GrowsFrom ls.st (resolveBySplit c ls node best).st :=
  ⟨rfl, rfl, rfl, rfl, rfl, [Call.SplitNodeSparseData node best], rfl,
    by simp [Call.isGrow]⟩

theorem resolveNode_growsFrom {X : Type} (c : Collaborators X) (vBest : List SplitPoint)
    (nCurDepth : Int) (ls r : LevelState X) (node : Nat)
    (h : resolveNode c vBest nCurDepth ls node = some r) : GrowsFrom ls.st r.st := by
  unfold resolveNode at h
  cases hn : ls.st.heap[node]? with
  | none => rw [hn] at h; exact absurd h (by simp)
  | some nd =>
    rw [hn] at h
    simp only at h
    cases hp : c.mapNodeIdToBufferPos_at ls.st.splitter nd.nodeId with
    | none => rw [hp] at h; exact absurd h (by simp)
    | some bufferPos =>
      rw [hp] at h
      simp only at h
      cases hb : vecAt vBest bufferPos with
      | none => rw [hb] at h; exact absurd h (by simp)
      | some best =>
        rw [hb] at h
        simp only at h
        by_cases hc : best.m_fGain ≤ 0 ∨ ls.st.m_nMaxDepth = nCurDepth
        · rw [if_pos hc] at h
          exact (resolveAsLeaf_growsFrom c ls node nd bufferPos).trans
            (markProcessed_growsFrom c _ r node h)
        · rw [if_neg hc] at h
          exact (resolveBySplit_growsFrom c ls node best).trans
            (markProcessed_growsFrom c _ r node h)

theorem growLevel_growsFrom {X : Type} (c : Collaborators X) (nCurDepth : Int)
    (st : TrainerState X) (tree : RegTree) (splittableNode : List Nat) (ls : LevelState X)
    (h : growLevel c nCurDepth st tree splittableNode = some ls) : GrowsFrom st ls.st := by
  unfold growLevel at h
  simp only at h
  cases hf : splittableNode.foldlM (resolveNode c (findSplits c st).2 nCurDepth)
      { st := (findSplits c st).1, tree := tree, newSplittableNode := [],
        newNodeStat := [] } with
  | none => rw [hf] at h; exact absurd h (by simp)
  | some r =>
    rw [hf] at h
    simp only [Option.some.injEq] at h
    subst h
    have h0 : GrowsFrom st (findSplits c st).1 :=
      ⟨rfl, rfl, rfl, rfl, rfl, [Call.FeaFinderAllNode], rfl, by simp [Call.isGrow]⟩
    have h1 : GrowsFrom st r.st :=
      foldlM_invariant (resolveNode c (findSplits c st).2 nCurDepth)
        (fun ls => GrowsFrom st ls.st)
        (fun b a b1 hb hstep => hb.trans (resolveNode_growsFrom c _ nCurDepth b b1 a hstep))
        splittableNode _ r h0 hf
    exact h1.trans ⟨rfl, rfl, rfl, rfl, rfl, [Call.UpdateNodeStat r.newSplittableNode], rfl,
      by simp [Call.isGrow]⟩

theorem growLoop_growsFrom {X : Type} (c : Collaborators X) :
    ∀ (fuel : Nat) (nCurDepth : Int) (st : TrainerState X) (tree : RegTree)
      (splittableNode : List Nat) (g : Grown X),
      growLoop c fuel nCurDepth st tree splittableNode = Outcome.done g →
      GrowsFrom st g.st := by
  intro fuel
  induction fuel with
  | zero =>
    intro d st tree fr g h
    cases fr with
    | nil =>
      simp only [growLoop, Outcome.done.injEq] at h
      subst h
      exact GrowsFrom.refl st
    | cons n ns => simp [growLoop] at h
  | succ k ih =>
    intro d st tree fr g h
    cases fr with
    | nil =>
      simp only [growLoop, Outcome.done.injEq] at h
      subst h
      exact GrowsFrom.refl st
    | cons n ns =>
      simp only [growLoop] at h
      cases hl : growLevel c d st tree (n :: ns) with
      | none => rw [hl] at h; exact absurd h (by simp)
      | some ls =>
        rw [hl] at h
        exact (growLevel_growsFrom c d st tree (n :: ns) ls hl).trans
          (ih (d + 1) ls.st ls.tree ls.newSplittableNode g h)

/-! ## One round of `TrainGBDT` -/

theorem trainRound_eq {X : Type} (c : Collaborators X) (fuel : Nat) (t : Training X) :
    trainRound c fuel t =
      match GrowTree2 c fuel (roundGrowStart c t) (InitTree t.st { nodes := [] }).2 with
      | Outcome.done g =>
        Outcome.done
          { st := { g.st with calls := g.st.calls ++ [Call.push_back g.tree] }
            vTree := t.vTree ++ [g.tree] }
      | Outcome.fault => Outcome.fault
      | Outcome.outOfFuel => Outcome.outOfFuel := by
  simp [trainRound, roundGrowStart]

/-- What a round that returns has done. -/
theorem trainRound_done {X : Type} (c : Collaborators X) (fuel : Nat) (t t1 : Training X)
    (h : trainRound c fuel t = Outcome.done t1) :
    ∃ g ev, GrowTree2 c fuel (roundGrowStart c t) (InitTree t.st { nodes := [] }).2 =
        Outcome.done g ∧
      t1.vTree = t.vTree ++ [g.tree] ∧
      t1.st.calls = t.st.calls ++
        [Call.PredictSparseIns t.vTree (roundHeap t) (roundPredictions c t),
          Call.ComputeGDSparse (roundPredictions c t)] ++ ev ++ [Call.push_back g.tree] ∧
      (∀ e ∈ ev, Call.isGrow e = true) ∧
      t1.st.m_nMaxDepth = t.st.m_nMaxDepth ∧
      t1.st.m_nMaxNumofTree = t.st.m_nMaxNumofTree ∧
      t1.st.m_vvInsSparse = t.st.m_vvInsSparse := by
  rw [trainRound_eq] at h
  cases hg : GrowTree2 c fuel (roundGrowStart c t) (InitTree t.st { nodes := [] }).2 with
  | fault => rw [hg] at h; exact absurd h (by simp)
  | outOfFuel => rw [hg] at h; exact absurd h (by simp)
  | done g =>
    rw [hg] at h
    simp only [Outcome.done.injEq] at h
    subst h
    obtain ⟨a1, a2, a3, _, _, ev, a6, a7⟩ := growLoop_growsFrom c fuel 0 _ _ _ g hg
    refine ⟨g, ev, rfl, rfl, ?_, a7, a1, a2, a3⟩
    show g.st.calls ++ [Call.push_back g.tree] = _
    rw [a6]
    simp [roundGrowStart, roundHeap, roundPredictions, InitTree]

/-- The state a round that returns leaves behind is the state `GrowTree2` returned, with the
`push_back` recorded; the labels are those the round started with. -/
theorem trainRound_done_state {X : Type} (c : Collaborators X) (fuel : Nat)
    (t t1 : Training X) (h : trainRound c fuel t = Outcome.done t1) :
    ∃ g, GrowTree2 c fuel (roundGrowStart c t) (InitTree t.st { nodes := [] }).2 =
        Outcome.done g ∧
      t1.st = { g.st with calls := g.st.calls ++ [Call.push_back g.tree] } ∧
      t1.vTree = t.vTree ++ [g.tree] ∧
      t1.st.m_vTrueValue_fixedPos = t.st.m_vTrueValue_fixedPos := by
  rw [trainRound_eq] at h
  cases hg : GrowTree2 c fuel (roundGrowStart c t) (InitTree t.st { nodes := [] }).2 with
  | fault => rw [hg] at h; exact absurd h (by simp)
  | outOfFuel => rw [hg] at h; exact absurd h (by simp)
  | done g =>
    rw [hg] at h
    simp only [Outcome.done.injEq] at h
    subst h
    obtain ⟨_, _, _, a4, _, _, _, _⟩ := growLoop_growsFrom c fuel 0 _ _ _ g hg
    exact ⟨g, rfl, rfl, rfl, a4⟩

end Trainer

namespace Trainer

/-! ## The nodes of earlier trees are not written -/

theorem foldlM_invariant_mem {α β : Type} (f : β → α → Option β) (P : β → Prop) :
    ∀ (l : List α), (∀ b a b1, a ∈ l → P b → f b a = some b1 → P b1) →
      ∀ (b b1 : β), P b → l.foldlM f b = some b1 → P b1 := by
  intro l
  induction l with
  | nil =>
    intro _ b b1 hb h
    simp only [List.foldlM_nil, Option.pure_def, Option.some.injEq] at h
    exact h ▸ hb
  | cons a l ih =>
    intro hstep b b1 hb h
    simp only [List.foldlM_cons, Option.bind_eq_bind] at h
    cases hfa : f b a with
    | none => rw [hfa] at h; exact absurd h (by simp)
    | some b2 =>
      rw [hfa] at h
      exact ih (fun b a1 b3 ha => hstep b a1 b3 (List.mem_cons_of_mem a ha)) b2 b1
        (hstep b a b2 (List.mem_cons_self a l) hb hfa) h

theorem resolveNode_keepsBase {X : Type} (c : Collaborators X) (hframe : SplitKeepsOldNodes c)
    (base : List TreeNode) (vBest : List SplitPoint) (nCurDepth : Int) (ls r : LevelState X)
    (node : Nat) (hnode : base.length ≤ node) (hls : KeepsBase base ls)
    (h : resolveNode c vBest nCurDepth ls node = some r) : KeepsBase base r := by
  obtain ⟨hcells, hlen, hnew, htree⟩ := hls
  unfold resolveNode at h
  cases hn : ls.st.heap[node]? with
  | none => rw [hn] at h; exact absurd h (by simp)
  | some nd =>
    rw [hn] at h
    simp only at h
    cases hp : c.mapNodeIdToBufferPos_at ls.st.splitter nd.nodeId with
    | none => rw [hp] at h; exact absurd h (by simp)
    | some bufferPos =>
      rw [hp] at h
      simp only at h
      cases hb : vecAt vBest bufferPos with
      | none => rw [hb] at h; exact absurd h (by simp)
      | some best =>
        rw [hb] at h
        simp only at h
        by_cases hc : best.m_fGain ≤ 0 ∨ ls.st.m_nMaxDepth = nCurDepth
        · rw [if_pos hc] at h
          obtain ⟨_, h2, h3, h4⟩ := markProcessed_frame c _ r node h
          have hheap : r.st.heap = ls.st.heap.set node
              { nd with predValue := (c.ComputeWeightSparseData ls.st.splitter bufferPos).1 } :=
            h4
          refine ⟨?_, ?_, ?_, ?_⟩
          · intro p hpb
            rw [hheap, List.getElem?_set]
            have hne : ¬ node = p := by omega
            simp only [hne, if_false]
            exact hcells p hpb
          · rw [hheap, List.length_set]; exact hlen
          · rw [h2]; exact hnew
          · rw [h3, hheap, List.length_set]; exact htree
        · rw [if_neg hc] at h
          obtain ⟨_, h2, h3, h4⟩ := markProcessed_frame c _ r node h
          obtain ⟨f1, f2, ⟨children, f3, f4⟩, f5⟩ := hframe ls.st.splitter ls.st.heap node
            ls.newSplittableNode best ls.tree ls.newNodeStat ls.st.m_nNumofNode
          have hheap : r.st.heap = (c.SplitNodeSparseData ls.st.splitter ls.st.heap node
              ls.newSplittableNode best ls.tree ls.newNodeStat ls.st.m_nNumofNode).heap := h4
          have hfront : r.newSplittableNode = (c.SplitNodeSparseData ls.st.splitter
              ls.st.heap node ls.newSplittableNode best ls.tree ls.newNodeStat
              ls.st.m_nNumofNode).newSplittableNode := h2
          have htr : r.tree = (c.SplitNodeSparseData ls.st.splitter ls.st.heap node
              ls.newSplittableNode best ls.tree ls.newNodeStat ls.st.m_nNumofNode).tree := h3
          refine ⟨?_, ?_, ?_, ?_⟩
          · intro p hpb
            rw [hheap, f1 p (by omega) (by omega)]
            exact hcells p hpb
          · rw [hheap]; omega
          · intro q hq
            rw [hfront, f3] at hq
            rcases List.mem_append.1 hq with hq | hq
            · exact hnew q hq
            · have := f4 q hq; omega
          · rw [htr, hheap]
            exact f5 htree

theorem growLevel_keepsBase {X : Type} (c : Collaborators X) (hframe : SplitKeepsOldNodes c)
    (base : List TreeNode) (nCurDepth : Int) (st : TrainerState X) (tree : RegTree)
    (splittableNode : List Nat) (ls : LevelState X)
    (hfront : ∀ node ∈ splittableNode, base.length ≤ node)
    (hcells : ∀ p, p < base.length → st.heap[p]? = base[p]?)
    (hlen : base.length ≤ st.heap.length) (htree : ∀ q ∈ tree.nodes, q < st.heap.length)
    (h : growLevel c nCurDepth st tree splittableNode = some ls) : KeepsBase base ls := by
  unfold growLevel at h
  simp only at h
  cases hf : splittableNode.foldlM (resolveNode c (findSplits c st).2 nCurDepth)
      { st := (findSplits c st).1, tree := tree, newSplittableNode := [],
        newNodeStat := [] } with
  | none => rw [hf] at h; exact absurd h (by simp)
  | some r =>
    rw [hf] at h
    simp only [Option.some.injEq] at h
    subst h
    have h0 : KeepsBase base
        ({ st := (findSplits c st).1, tree := tree, newSplittableNode := [],
           newNodeStat := [] } : LevelState X) :=
      ⟨hcells, hlen, by simp, htree⟩
    have hr : KeepsBase base r :=
      foldlM_invariant_mem (resolveNode c (findSplits c st).2 nCurDepth) (KeepsBase base)
        splittableNode
        (fun b a b1 ha hb hstep =>
          resolveNode_keepsBase c hframe base _ nCurDepth b b1 a (hfront a ha) hb hstep)
        _ r h0 hf
    exact hr

theorem growLoop_keepsBase {X : Type} (c : Collaborators X) (hframe : SplitKeepsOldNodes c)
    (base : List TreeNode) :
    ∀ (fuel : Nat) (nCurDepth : Int) (st : TrainerState X) (tree : RegTree)
      (splittableNode : List Nat) (g : Grown X),
      (∀ node ∈ splittableNode, base.length ≤ node) →
      (∀ p, p < base.length → st.heap[p]? = base[p]?) →
      base.length ≤ st.heap.length → (∀ q ∈ tree.nodes, q < st.heap.length) →
      growLoop c fuel nCurDepth st tree splittableNode = Outcome.done g →
      (∀ p, p < base.length → g.st.heap[p]? = base[p]?) ∧ base.length ≤ g.st.heap.length ∧
        ∀ q ∈ g.tree.nodes, q < g.st.heap.length := by
  intro fuel
  induction fuel with
  | zero =>
    intro d st tree fr g _ hcells hlen htree h
    cases fr with
    | nil =>
      simp only [growLoop, Outcome.done.injEq] at h
      subst h
      exact ⟨hcells, hlen, htree⟩
    | cons n ns => simp [growLoop] at h
  | succ k ih =>
    intro d st tree fr g hfront hcells hlen htree h
    cases fr with
    | nil =>
      simp only [growLoop, Outcome.done.injEq] at h
      subst h
      exact ⟨hcells, hlen, htree⟩
    | cons n ns =>
      simp only [growLoop] at h
      cases hl : growLevel c d st tree (n :: ns) with
      | none => rw [hl] at h; exact absurd h (by simp)
      | some ls =>
        rw [hl] at h
        obtain ⟨k1, k2, k3, k4⟩ :=
          growLevel_keepsBase c hframe base d st tree (n :: ns) ls hfront hcells hlen htree hl
        exact ih (d + 1) ls.st ls.tree ls.newSplittableNode g k3 k1 k2 k4 h

/-- A round that returns leaves every node allocated before it as it was, and the tree it
appends points to allocated nodes. -/
theorem trainRound_keeps {X : Type} (c : Collaborators X) (hframe : SplitKeepsOldNodes c)
    (fuel : Nat) (t t1 : Training X) (h : trainRound c fuel t = Outcome.done t1) :
    (∀ p, p < t.st.heap.length → t1.st.heap[p]? = t.st.heap[p]?) ∧
    t.st.heap.length ≤ t1.st.heap.length ∧
    ∃ tree, t1.vTree = t.vTree ++ [tree] ∧ ∀ q ∈ tree.nodes, q < t1.st.heap.length := by
  obtain ⟨g, hgrow, hstate, hv, _⟩ := trainRound_done_state c fuel t t1 h
  have hheap : (roundGrowStart c t).heap = t.st.heap ++
      [{ TreeNode.init with
          nodeId := 0, level := 0, startId := 0
          endId := (t.st.m_vvInsSparse.length : Int) - 1 }] := rfl
  have hnodes : (InitTree t.st { nodes := [] }).2.nodes = [t.st.heap.length] := rfl
  obtain ⟨k1, k2, k3⟩ := growLoop_keepsBase c hframe t.st.heap fuel 0 (roundGrowStart c t)
    (InitTree t.st { nodes := [] }).2 (InitTree t.st { nodes := [] }).2.nodes g
    (by rw [hnodes]; intro node hn; simp only [List.mem_singleton] at hn; omega)
    (by intro p hp; rw [hheap, List.getElem?_append_left hp])
    (by rw [hheap]; simp)
    (by rw [hnodes, hheap]; intro q hq; simp only [List.mem_singleton] at hq; simp [hq])
    hgrow
  have hh : t1.st.heap = g.st.heap := by rw [hstate]
  refine ⟨?_, by rw [hh]; exact k2, g.tree, hv, ?_⟩
  · intro p hp; rw [hh]; exact k1 p hp
  · rw [hh]; exact k3

end Trainer

namespace Trainer

/-! ## The rounds of `TrainGBDT` -/

/-- What `k` rounds that return have done to the ensemble. -/
theorem trainRounds_done {X : Type} (c : Collaborators X) (fuel : Nat) (t0 : Training X) :
    ∀ (k : Nat) (tk : Training X), trainRounds c fuel k t0 = Outcome.done tk →
      ∃ new : List RegTree, tk.vTree = t0.vTree ++ new ∧ new.length = k ∧
        tk.st.m_nMaxDepth = t0.st.m_nMaxDepth ∧
        tk.st.m_nMaxNumofTree = t0.st.m_nMaxNumofTree ∧
        tk.st.m_vvInsSparse = t0.st.m_vvInsSparse ∧
        ∀ j, j ≤ k → ∃ tj, trainRounds c fuel j t0 = Outcome.done tj ∧
          tj.vTree = t0.vTree ++ new.take j ∧ ∃ later, tk.st.calls = tj.st.calls ++ later := by
  intro k
  induction k with
  | zero =>
    intro tk h
    simp only [trainRounds, Outcome.done.injEq] at h
    subst h
    refine ⟨[], by simp, rfl, rfl, rfl, rfl, ?_⟩
    intro j hj
    have : j = 0 := by omega
    subst this
    exact ⟨t0, rfl, by simp, [], by simp⟩
  | succ k ih =>
    intro tk h
    simp only [trainRounds] at h
    cases hm : trainRounds c fuel k t0 with
    | fault => rw [hm] at h; exact absurd h (by simp)
    | outOfFuel => rw [hm] at h; exact absurd h (by simp)
    | done tm =>
      rw [hm] at h
      simp only at h
      obtain ⟨new, hv, hlen, a1, a2, a3, hpre⟩ := ih tm hm
      obtain ⟨g, ev, _, hv1, hcalls, _, b1, b2, b3⟩ := trainRound_done c fuel tm tk h
      refine ⟨new ++ [g.tree], ?_, by simp [hlen], b1.trans a1, b2.trans a2, b3.trans a3, ?_⟩
      · rw [hv1, hv, List.append_assoc]
      · intro j hj
        by_cases hjk : j ≤ k
        · obtain ⟨tj, hj1, hj2, later, hj3⟩ := hpre j hjk
          refine ⟨tj, hj1, ?_, ?_⟩
          · rw [hj2, List.take_append_of_le_length (by omega)]
          · refine ⟨later ++ ([Call.PredictSparseIns tm.vTree (roundHeap tm)
                (roundPredictions c tm), Call.ComputeGDSparse (roundPredictions c tm)] ++ ev ++
                [Call.push_back g.tree]), ?_⟩
            rw [hcalls, hj3]
            simp [List.append_assoc]
        · have hj1 : j = k + 1 := by omega
          subst hj1
          refine ⟨tk, ?_, ?_, [], by simp⟩
          · simp only [trainRounds, hm]; exact h
          · rw [hv1, hv, List.append_assoc, List.take_of_length_le (by simp [hlen])]

theorem trainRounds_enough_fuel {X : Type} (c : Collaborators X) (fuel : Nat)
    (t0 : Training X) (hdepth : 0 ≤ t0.st.m_nMaxDepth)
    (hfuel : t0.st.m_nMaxDepth.toNat + 1 ≤ fuel) :
    ∀ k, trainRounds c fuel k t0 ≠ Outcome.outOfFuel := by
  intro k
  induction k with
  | zero => simp [trainRounds]
  | succ k ih =>
    simp only [trainRounds]
    cases hm : trainRounds c fuel k t0 with
    | fault => simp
    | outOfFuel => exact absurd hm ih
    | done tm =>
      simp only
      obtain ⟨_, _, _, a1, _, _, _⟩ := trainRounds_done c fuel t0 k tm hm
      rw [trainRound_eq]
      have hb := growLoop_bounded c t0.st.m_nMaxDepth fuel 0 (roundGrowStart c tm)
        (InitTree tm.st { nodes := [] }).2 (InitTree tm.st { nodes := [] }).2.nodes
        (by simp [roundGrowStart, InitTree, a1]) hdepth (by simpa using hfuel)
      cases hg : GrowTree2 c fuel (roundGrowStart c tm) (InitTree tm.st { nodes := [] }).2 with
      | fault => simp
      | outOfFuel => exact absurd hg hb.1
      | done g => simp

/-- Over the rounds, the nodes allocated when a round ended stay as they were, and the trees
of the ensemble point to allocated nodes. -/
theorem trainRounds_keeps {X : Type} (c : Collaborators X) (hframe : SplitKeepsOldNodes c)
    (fuel : Nat) (t0 : Training X) (hE : EnsembleAllocated t0) :
    ∀ (k : Nat) (tk : Training X), trainRounds c fuel k t0 = Outcome.done tk →
      EnsembleAllocated tk ∧
      ∀ j, j ≤ k → ∀ tj, trainRounds c fuel j t0 = Outcome.done tj →
        tj.st.heap.length ≤ tk.st.heap.length ∧
        ∀ p, p < tj.st.heap.length → tk.st.heap[p]? = tj.st.heap[p]? := by
  intro k
  induction k with
  | zero =>
    intro tk h
    simp only [trainRounds, Outcome.done.injEq] at h
    subst h
    refine ⟨hE, ?_⟩
    intro j hj tj htj
    have hj0 : j = 0 := by omega
    subst hj0
    simp only [trainRounds, Outcome.done.injEq] at htj
    subst htj
    exact ⟨le_rfl, fun _ _ => rfl⟩
  | succ k ih =>
    intro tk h
    have h1 := h
    simp only [trainRounds] at h
    cases hm : trainRounds c fuel k t0 with
    | fault => rw [hm] at h; exact absurd h (by simp)
    | outOfFuel => rw [hm] at h; exact absurd h (by simp)
    | done tm =>
      rw [hm] at h
      simp only at h
      obtain ⟨hEm, hprev⟩ := ih tm hm
      obtain ⟨hcells, hlen, tree, hv, htree⟩ := trainRound_keeps c hframe fuel tm tk h
      constructor
      · intro tr htr q hq
        rw [hv] at htr
        rcases List.mem_append.1 htr with hin | hin
        · have := hEm tr hin q hq
          omega
        · simp only [List.mem_singleton] at hin
          subst hin
          exact htree q hq
      · intro j hj tj htj
        by_cases hjk : j ≤ k
        · obtain ⟨hl, hc⟩ := hprev j hjk tj htj
          refine ⟨by omega, ?_⟩
          intro p hp
          rw [hcells p (by omega)]
          exact hc p hp
        · have hj1 : j = k + 1 := by omega
          subst hj1
          rw [h1] at htj
          simp only [Outcome.done.injEq] at htj
          subst htj
          exact ⟨le_rfl, fun _ _ => rfl⟩

/-- C8: whatever ensemble `E` is passed in, a call of `TrainGBDT` that returns hands back
`E` followed by exactly `numTrees` new trees (`numTrees = m_nMaxNumofTree`, none when it is
not positive), one per round: after `k` rounds the ensemble is `E` followed by the first
`k` of them, so no round changes or moves an entry that is already there. For
`maxDepth ≥ 0` the call never runs short of level passes once `maxDepth + 1` passes per tree
are allowed. The nodes of the entries stay unchanged as well: when the split routine keeps to
the frame of the specification (`SplitKeepsOldNodes`) and the trees of `E` point to allocated
nodes, every node of every tree that is in the ensemble after `k` rounds holds at the end of
the call exactly what it held after round `k`. -/
theorem TrainGBDT_appends {X : Type} (c : Collaborators X) (st : TrainerState X)
    (E : List RegTree) :
    (∀ fuel t, TrainGBDT c fuel st E = Outcome.done t →
      ∃ new : List RegTree, t.vTree = E ++ new ∧ new.length = st.m_nMaxNumofTree.toNat ∧
        ∀ k, k ≤ st.m_nMaxNumofTree.toNat →
          ∃ tk, trainRounds c fuel k { st := st, vTree := E } = Outcome.done tk ∧
            tk.vTree = E ++ new.take k) ∧
    (0 ≤ st.m_nMaxDepth → ∀ fuel, st.m_nMaxDepth.toNat + 1 ≤ fuel →
      TrainGBDT c fuel st E ≠ Outcome.outOfFuel) ∧
    (SplitKeepsOldNodes c → EnsembleAllocated { st := st, vTree := E } →
      ∀ fuel t, TrainGBDT c fuel st E = Outcome.done t →
        ∀ k, k ≤ st.m_nMaxNumofTree.toNat →
          ∃ tk, trainRounds c fuel k { st := st, vTree := E } = Outcome.done tk ∧
            tk.st.heap.length ≤ t.st.heap.length ∧
            (∀ p, p < tk.st.heap.length → t.st.heap[p]? = tk.st.heap[p]?) ∧
            ∀ tree ∈ tk.vTree, ∀ q ∈ tree.nodes,
              q < tk.st.heap.length ∧ t.st.heap[q]? = tk.st.heap[q]?) := by
  refine ⟨?_, ?_, ?_⟩
  · intro fuel t h
    obtain ⟨new, hv, hlen, _, _, _, hpre⟩ :=
      trainRounds_done c fuel { st := st, vTree := E } _ t h
    refine ⟨new, hv, hlen, ?_⟩
    intro k hk
    obtain ⟨tk, h1, h2, _⟩ := hpre k hk
    exact ⟨tk, h1, h2⟩
  · intro hdepth fuel hfuel
    exact trainRounds_enough_fuel c fuel { st := st, vTree := E } hdepth hfuel _
  · intro hframe hE fuel t h k hk
    obtain ⟨_, _, _, _, _, _, hpre⟩ := trainRounds_done c fuel { st := st, vTree := E } _ t h
    obtain ⟨tk, htk, _, _⟩ := hpre k hk
    obtain ⟨_, hkeep⟩ := trainRounds_keeps c hframe fuel { st := st, vTree := E } hE _ t h
    obtain ⟨hEk, _⟩ := trainRounds_keeps c hframe fuel { st := st, vTree := E } hE k tk htk
    obtain ⟨hl, hc⟩ := hkeep k hk tk htk
    refine ⟨tk, htk, hl, hc, ?_⟩
    intro tree htree q hq
    exact ⟨hEk tree htree q hq, hc q (hEk tree htree q hq)⟩

theorem specCollaborators_keepsOldNodes : SplitKeepsOldNodes specCollaborators := by
  intro sp heap node nsn best tree nns cnt
  show (∀ p, p < heap.length → p ≠ node →
      (specSplitNode sp heap node nsn best tree nns cnt).heap[p]? = heap[p]?) ∧
    heap.length ≤ (specSplitNode sp heap node nsn best tree nns cnt).heap.length ∧
    (∃ children, (specSplitNode sp heap node nsn best tree nns cnt).newSplittableNode =
        nsn ++ children ∧ ∀ q ∈ children, heap.length ≤ q) ∧
    ((∀ q ∈ tree.nodes, q < heap.length) →
      ∀ q ∈ (specSplitNode sp heap node nsn best tree nns cnt).tree.nodes,
        q < (specSplitNode sp heap node nsn best tree nns cnt).heap.length)
  unfold specSplitNode
  cases heap[node]? with
  | none =>
    refine ⟨fun _ _ _ => rfl, le_rfl, ⟨[], by simp, by simp⟩, fun h => h⟩
  | some nd =>
    refine ⟨?_, ?_, ⟨[heap.length, heap.length + 1], rfl, ?_⟩, ?_⟩
    · intro p hp hne
      simp only
      rw [List.getElem?_append_left (by simpa using hp), List.getElem?_set]
      have hne1 : ¬ node = p := fun h => hne h.symm
      simp only [hne1, if_false]
    · simp
    · intro q hq
      simp only [List.mem_cons, List.mem_singleton, List.not_mem_nil, or_false] at hq
      omega
    · intro h q hq
      simp only [List.mem_append, List.mem_cons, List.mem_singleton, List.not_mem_nil,
        or_false] at hq
      simp only [List.length_append, List.length_set, List.length_cons, List.length_nil]
      rcases hq with hq | hq | hq
      · have := h q hq; omega
      · omega
      · omega

theorem e2eResult_onto : TrainGBDT specCollaborators 4 (e2eTrainer 2) [{ nodes := [] }] =
    Outcome.done (e2eResult 2 [{ nodes := [] }]) := by decide!

theorem e2eStart_allocated :
    EnsembleAllocated { st := e2eTrainer 2, vTree := [{ nodes := [] }] } := by
  intro tree htree q hq
  simp only [List.mem_singleton] at htree
  subst htree
  simp at hq

theorem TrainGBDT_appends_witness :
    (TrainGBDT specCollaborators 4 (e2eTrainer 2) [{ nodes := [] }] =
        Outcome.done (e2eResult 2 [{ nodes := [] }]) ∧
      0 ≤ (e2eTrainer 2).m_nMaxDepth ∧ (e2eTrainer 2).m_nMaxDepth.toNat + 1 ≤ 4 ∧
      SplitKeepsOldNodes specCollaborators ∧
      EnsembleAllocated { st := e2eTrainer 2, vTree := [{ nodes := [] }] }) ∧
    (∃ new : List RegTree, (e2eResult 2 [{ nodes := [] }]).vTree = [{ nodes := [] }] ++ new ∧
        new.length = (e2eTrainer 2).m_nMaxNumofTree.toNat ∧
        ∀ k, k ≤ (e2eTrainer 2).m_nMaxNumofTree.toNat →
          ∃ tk, trainRounds specCollaborators 4 k
              { st := e2eTrainer 2, vTree := [{ nodes := [] }] } = Outcome.done tk ∧
            tk.vTree = [{ nodes := [] }] ++ new.take k) ∧
    TrainGBDT specCollaborators 4 (e2eTrainer 2) [{ nodes := [] }] ≠ Outcome.outOfFuel ∧
    (∀ k, k ≤ (e2eTrainer 2).m_nMaxNumofTree.toNat →
      ∃ tk, trainRounds specCollaborators 4 k
          { st := e2eTrainer 2, vTree := [{ nodes := [] }] } = Outcome.done tk ∧
        tk.st.heap.length ≤ (e2eResult 2 [{ nodes := [] }]).st.heap.length ∧
        (∀ p, p < tk.st.heap.length →
          (e2eResult 2 [{ nodes := [] }]).st.heap[p]? = tk.st.heap[p]?) ∧
        ∀ tree ∈ tk.vTree, ∀ q ∈ tree.nodes,
          q < tk.st.heap.length ∧
            (e2eResult 2 [{ nodes := [] }]).st.heap[q]? = tk.st.heap[q]?) :=
  ⟨⟨e2eResult_onto, by decide, by decide, specCollaborators_keepsOldNodes,
      e2eStart_allocated⟩,
    (TrainGBDT_appends specCollaborators (e2eTrainer 2) [{ nodes := [] }]).1 4
      (e2eResult 2 [{ nodes := [] }]) e2eResult_onto,
    (TrainGBDT_appends specCollaborators (e2eTrainer 2) [{ nodes := [] }]).2.1 (by decide) 4
      (by decide),
    (TrainGBDT_appends specCollaborators (e2eTrainer 2) [{ nodes := [] }]).2.2
      specCollaborators_keepsOldNodes e2eStart_allocated 4 (e2eResult 2 [{ nodes := [] }])
      e2eResult_onto⟩

/-- The nodes of the first tree of the end-to-end example after the second round are what
they were after the first: weights 0, 2/3 and 0. -/
theorem e2e_first_tree_kept :
    ((e2eResult 2 []).st.heap.take 3).map TreeNode.predValue = [0, 2 / 3, 0] ∧
    (e2eResult 2 []).st.heap.take 3 = (e2eResult 1 []).st.heap.take 3 ∧
    (e2eResult 1 []).st.heap.length = 3 := by
  exact ⟨by decide!, by decide!, by decide!⟩

theorem e2eResult_onto_trees :
    (e2eResult 2 [{ nodes := [] }]).vTree =
      [{ nodes := [] }, { nodes := [0, 1, 2] }, { nodes := [3, 4, 5] }] := by decide!

end Trainer

namespace Trainer

/-! ## Round sequencing -/

theorem trainRounds_labels {X : Type} (c : Collaborators X) (fuel : Nat) (t0 : Training X) :
    ∀ (k : Nat) (tk : Training X), trainRounds c fuel k t0 = Outcome.done tk →
      tk.st.m_vTrueValue_fixedPos = t0.st.m_vTrueValue_fixedPos := by
  intro k
  induction k with
  | zero =>
    intro tk h
    simp only [trainRounds, Outcome.done.injEq] at h
    subst h
    rfl
  | succ k ih =>
    intro tk h
    simp only [trainRounds] at h
    cases hm : trainRounds c fuel k t0 with
    | fault => rw [hm] at h; exact absurd h (by simp)
    | outOfFuel => rw [hm] at h; exact absurd h (by simp)
    | done tm =>
      rw [hm] at h
      simp only at h
      obtain ⟨_, _, _, _, hlab⟩ := trainRound_done_state c fuel tm tk h
      exact hlab.trans (ih tm hm)

/-- C7: in a call of `TrainGBDT` that starts from an empty ensemble and returns `t`, the
round that produces the tree at position `k` of the result (round `k + 1`) starts with the
ensemble holding exactly the trees of rounds `1..k` in order. The predictor is called on that
ensemble; `ComputeGDSparse` is applied to the splitter with its output and the labels, and
the state so obtained is the one `GrowTree2` is started in; with the additive predictor of
the specification each prediction is the sum of the instance's leaf weight contributions
from those `k` trees, all zero in round 1. The tree of the round is the tree `GrowTree2`
returns, the state after the round is the state `GrowTree2` returns with the append
recorded, and in the history the append comes after the prediction, the gradient
computation and the calls of the growth. -/
theorem TrainGBDT_round_sequencing {X : Type} (c : Collaborators X) (fuel : Nat)
    (st : TrainerState X) (t : Training X)
    (contrib : List TreeNode → RegTree → List (key_value ℚ) → ℚ)
    (hpred : c.PredictSparseIns = additivePredict contrib)
    (h : TrainGBDT c fuel st [] = Outcome.done t) :
    t.vTree.length = st.m_nMaxNumofTree.toNat ∧
    ∀ (k : Nat) (tree : RegTree), t.vTree[k]? = some tree →
      ∃ tk tk1 ev g,
        trainRounds c fuel k { st := st, vTree := [] } = Outcome.done tk ∧
        tk.vTree = t.vTree.take k ∧
        trainRounds c fuel (k + 1) { st := st, vTree := [] } = Outcome.done tk1 ∧
        tk1.vTree = t.vTree.take k ++ [tree] ∧
        (roundGrowStart c tk).splitter =
          c.ComputeGDSparse (InitTree tk.st { nodes := [] }).1.splitter
            (roundPredictions c tk) st.m_vTrueValue_fixedPos ∧
        (roundGrowStart c tk).heap = roundHeap tk ∧
        GrowTree2 c fuel (roundGrowStart c tk) (InitTree tk.st { nodes := [] }).2 =
          Outcome.done g ∧
        tree = g.tree ∧
        tk1.st = { g.st with calls := g.st.calls ++ [Call.push_back tree] } ∧
        tk1.st.calls = tk.st.calls ++
          [Call.PredictSparseIns (t.vTree.take k) (roundHeap tk) (roundPredictions c tk),
            Call.ComputeGDSparse (roundPredictions c tk)] ++ ev ++ [Call.push_back tree] ∧
        (∀ e ∈ ev, Call.isGrow e = true) ∧
        roundPredictions c tk = st.m_vvInsSparse.map
          (fun x => ((t.vTree.take k).map (fun tr => contrib (roundHeap tk) tr x)).sum) ∧
        (k = 0 → roundPredictions c tk = List.replicate st.m_vvInsSparse.length 0) ∧
        ∃ later, t.st.calls = tk1.st.calls ++ later := by
  obtain ⟨new, hv, hlen, _, _, _, hpre⟩ :=
    trainRounds_done c fuel { st := st, vTree := [] } _ t h
  simp only [List.nil_append] at hv hpre
  refine ⟨by rw [hv, hlen], ?_⟩
  intro k tree hk
  have hklt : k < new.length := by
    rw [hv] at hk; exact (List.getElem?_eq_some.1 hk).1
  obtain ⟨tk, hk1, hk2, _⟩ := hpre k (by omega)
  obtain ⟨tk1, hk3, hk4, later, hk5⟩ := hpre (k + 1) (by omega)
  have hround : trainRound c fuel tk = Outcome.done tk1 := by
    have := hk3
    simp only [trainRounds, hk1] at this
    exact this
  obtain ⟨g, ev, hgrow, hv1, hcalls, hev, _, _, _⟩ := trainRound_done c fuel tk tk1 hround
  obtain ⟨g1, hgrow1, hstate, _, _⟩ := trainRound_done_state c fuel tk tk1 hround
  have hgg : g1 = g := by
    rw [hgrow] at hgrow1
    simp only [Outcome.done.injEq] at hgrow1
    exact hgrow1.symm
  subst hgg
  obtain ⟨_, _, _, _, _, hins, _⟩ := trainRounds_done c fuel { st := st, vTree := [] } k tk hk1
  simp only at hins
  have hlab : tk.st.m_vTrueValue_fixedPos = st.m_vTrueValue_fixedPos :=
    trainRounds_labels c fuel { st := st, vTree := [] } k tk hk1
  have htree : g1.tree = tree := by
    have h1 : (new.take (k + 1))[k]? = some g1.tree := by
      rw [← hk4, hv1, hk2]
      rw [List.getElem?_append_right (by simp)]
      simp [Nat.min_eq_left (Nat.le_of_lt hklt)]
    rw [List.getElem?_take_of_lt (by omega)] at h1
    rw [hv] at hk
    rw [h1] at hk
    simpa using hk
  have hpreds : roundPredictions c tk = st.m_vvInsSparse.map
      (fun x => ((t.vTree.take k).map (fun tr => contrib (roundHeap tk) tr x)).sum) := by
    simp only [roundPredictions, hpred, additivePredict, hins, hk2, hv]
  refine ⟨tk, tk1, ev, g1, hk1, by rw [hk2, hv], hk3, ?_, ?_, rfl, hgrow, htree.symm, ?_, ?_,
    hev, hpreds, ?_, later, hk5⟩
  · rw [hv1, hk2, hv, htree]
  · rw [← hlab]
    rfl
  · rw [hstate, htree]
  · rw [hcalls, hk2, hv, htree]
  · intro hk0
    subst hk0
    rw [hpreds]
    simp [List.map_const']

theorem e2eResult_two : TrainGBDT specCollaborators 4 (e2eTrainer 2) [] =
    Outcome.done (e2eResult 2 []) := by decide!

theorem TrainGBDT_round_sequencing_witness :
    (specCollaborators.PredictSparseIns =
        additivePredict (fun heap t x => leafWeightOf heap t x t.nodes.length 0) ∧
      TrainGBDT specCollaborators 4 (e2eTrainer 2) [] = Outcome.done (e2eResult 2 [])) ∧
    ((e2eResult 2 []).vTree.length = (e2eTrainer 2).m_nMaxNumofTree.toNat ∧
    ∀ (k : Nat) (tree : RegTree), (e2eResult 2 []).vTree[k]? = some tree →
      ∃ tk tk1 ev g,
        trainRounds specCollaborators 4 k { st := e2eTrainer 2, vTree := [] } =
          Outcome.done tk ∧
        tk.vTree = (e2eResult 2 []).vTree.take k ∧
        trainRounds specCollaborators 4 (k + 1) { st := e2eTrainer 2, vTree := [] } =
          Outcome.done tk1 ∧
        tk1.vTree = (e2eResult 2 []).vTree.take k ++ [tree] ∧
        (roundGrowStart specCollaborators tk).splitter =
          specCollaborators.ComputeGDSparse (InitTree tk.st { nodes := [] }).1.splitter
            (roundPredictions specCollaborators tk) (e2eTrainer 2).m_vTrueValue_fixedPos ∧
        (roundGrowStart specCollaborators tk).heap = roundHeap tk ∧
        GrowTree2 specCollaborators 4 (roundGrowStart specCollaborators tk)
          (InitTree tk.st { nodes := [] }).2 = Outcome.done g ∧
        tree = g.tree ∧
        tk1.st = { g.st with calls := g.st.calls ++ [Call.push_back tree] } ∧
        tk1.st.calls = tk.st.calls ++
          [Call.PredictSparseIns ((e2eResult 2 []).vTree.take k) (roundHeap tk)
              (roundPredictions specCollaborators tk),
            Call.ComputeGDSparse (roundPredictions specCollaborators tk)] ++ ev ++
            [Call.push_back tree] ∧
        (∀ e ∈ ev, Call.isGrow e = true) ∧
        roundPredictions specCollaborators tk = (e2eTrainer 2).m_vvInsSparse.map
          (fun x => (((e2eResult 2 []).vTree.take k).map
            (fun tr => (fun heap t x => leafWeightOf heap t x t.nodes.length 0)
              (roundHeap tk) tr x)).sum) ∧
        (k = 0 → roundPredictions specCollaborators tk =
          List.replicate (e2eTrainer 2).m_vvInsSparse.length 0) ∧
        ∃ later, (e2eResult 2 []).st.calls = tk1.st.calls ++ later) :=
  ⟨⟨rfl, e2eResult_two⟩,
    TrainGBDT_round_sequencing specCollaborators 4 (e2eTrainer 2) (e2eResult 2 [])
      (fun heap t x => leafWeightOf heap t x t.nodes.length 0) rfl e2eResult_two⟩

/-- The second round of the end-to-end example is handed the predictions of the first
tree: 0 for the instances valued 1 and 2, 2/3 for those valued 3 and 4. -/
theorem e2e_second_round_predictions :
    (match trainRounds specCollaborators 4 1 { st := e2eTrainer 2, vTree := [] } with
      | Outcome.done t1 => some (roundPredictions specCollaborators t1)
      | _ => none) = some [0, 0, 2 / 3, 2 / 3] := by decide!

end Trainer

namespace Trainer

/-! ## The end-to-end example -/

theorem e2eTrainer_init (numTrees : Int) :
    InitTrainer insertionStdSort (newTrainer e2eInstances e2eLabels) numTrees 1 1 0 1 =
      some (e2eTrainer numTrees) := by
  have h : SortFeaValue insertionStdSort e2eInstances 1 [] =
      some [[⟨3, 4⟩, ⟨2, 3⟩, ⟨1, 2⟩, ⟨0, 1⟩]] := by decide!
  simp only [InitTrainer, newTrainer, h, e2eTrainer]
  rfl

theorem e2eResult_one : TrainGBDT specCollaborators 2 (e2eTrainer 1) [] =
    Outcome.done (e2eResult 1 []) := by decide!

theorem e2e_fuel (fuel : Nat) (hfuel : 2 ≤ fuel) :
    e2eRun 1 fuel = Outcome.done (e2eResult 1 []) := by
  obtain ⟨extra, rfl⟩ := Nat.exists_eq_add_of_le hfuel
  have hgrow : growLoop specCollaborators 2 0
      (roundGrowStart specCollaborators { st := e2eTrainer 1, vTree := [] })
      (InitTree (e2eTrainer 1) { nodes := [] }).2
      (InitTree (e2eTrainer 1) { nodes := [] }).2.nodes ≠ Outcome.outOfFuel := by decide!
  have hmore := growLoop_more_fuel specCollaborators 2 extra 0 _ _ _ hgrow
  have h2 := e2eResult_one
  simp only [e2eRun, e2eTrainer_init]
  have hn : (e2eTrainer 1).m_nMaxNumofTree.toNat = 1 := rfl
  simp only [TrainGBDT, hn, trainRounds, trainRound_eq, GrowTree2] at h2 ⊢
  rw [hmore]
  exact h2

/-- C6 as stated fails: in the end-to-end example the run returns one tree whose root is
split between the instances valued 1, 2 and those valued 3, 4, but the leaf weight on the
side of the instances valued 1 and 2 (instances 0 and 1) is 0, since their gradients
`prediction − label` are `0 − 0`; it is not negative. -/
theorem e2e_low_side_weight_not_negative :
    e2eRun 1 4 = Outcome.done (e2eResult 1 []) ∧
    assignedLeafWeight (e2eResult 1 []) 0 = some 0 ∧
    assignedLeafWeight (e2eResult 1 []) 1 = some 0 ∧
    ¬ ∃ w, assignedLeafWeight (e2eResult 1 []) 0 = some w ∧ w < 0 := by
  have h0 : assignedLeafWeight (e2eResult 1 []) 0 = some 0 := by decide!
  refine ⟨e2e_fuel 4 (by decide), h0, by decide!, ?_⟩
  rintro ⟨w, hw, hneg⟩
  rw [h0] at hw
  simp only [Option.some.injEq] at hw
  subst hw
  exact absurd hneg (lt_irrefl 0)

/-- C6 amended: training on 4 instances with one feature valued 1, 2, 3, 4 and labels
0, 0, 1, 1 with `numTrees = 1`, `maxDepth = 1`, `λ = 1`, `γ = 0` returns, whenever at least two
level passes are allowed, one tree of three nodes; the split routine is called exactly once,
on the root, whose children are the leaves 1 and 2; the instances valued 3 and 4 are assigned
to node 1 and those valued 1 and 2 to node 2; the leaf weight on the side of 1 and 2 is 0 and
the leaf weight on the side of 3 and 4 is 2/3, which is positive. -/
theorem e2e_one_split (fuel : Nat) (hfuel : 2 ≤ fuel) :
    ∃ t, e2eRun 1 fuel = Outcome.done t ∧
      t.vTree = [{ nodes := [0, 1, 2] }] ∧
      (t.st.calls.filter Call.isSplit).length = 1 ∧
      t.st.heap.map (fun nd => (nd.nodeId, nd.leftChildId, nd.rightChildId)) =
        [(0, 1, 2), (1, -1, -1), (2, -1, -1)] ∧
      t.st.splitter.m_nodeIds = [2, 2, 1, 1] ∧
      assignedLeafWeight t 0 = some 0 ∧ assignedLeafWeight t 1 = some 0 ∧
      assignedLeafWeight t 2 = some (2 / 3) ∧ assignedLeafWeight t 3 = some (2 / 3) ∧
      (0 : ℚ) < 2 / 3 := by
  refine ⟨e2eResult 1 [], e2e_fuel fuel hfuel, by decide!, by decide!, by decide!, by decide!,
    by decide!, by decide!, by decide!, by decide!, by norm_num⟩

theorem e2e_one_split_witness :
    2 ≤ 4 ∧
    ∃ t, e2eRun 1 4 = Outcome.done t ∧
      t.vTree = [{ nodes := [0, 1, 2] }] ∧
      (t.st.calls.filter Call.isSplit).length = 1 ∧
      t.st.heap.map (fun nd => (nd.nodeId, nd.leftChildId, nd.rightChildId)) =
        [(0, 1, 2), (1, -1, -1), (2, -1, -1)] ∧
      t.st.splitter.m_nodeIds = [2, 2, 1, 1] ∧
      assignedLeafWeight t 0 = some 0 ∧ assignedLeafWeight t 1 = some 0 ∧
      assignedLeafWeight t 2 = some (2 / 3) ∧ assignedLeafWeight t 3 = some (2 / 3) ∧
      (0 : ℚ) < 2 / 3 :=
  ⟨by decide, e2e_one_split 4 (by decide)⟩

end Trainer

namespace Trainer

/-! ## Features nobody has, repeated ids, and a second construction -/

theorem collected_eq_nil_of_absent {V : Type} (ins : List (List (key_value V))) (j : Nat)
    (habs : ∀ inst ∈ ins, ∀ e ∈ inst, e.id ≠ (j : Int)) : collected ins j = [] := by
  cases hc : collected ins j with
  | nil => rfl
  | cons x xs =>
    have hx : x ∈ collected ins j := by rw [hc]; exact List.mem_cons_self x xs
    obtain ⟨i, inst, h1, _, h3⟩ := (mem_collected ins j x).1 hx
    have hmem : inst ∈ ins := by
      obtain ⟨hlt, he⟩ := List.getElem?_eq_some.1 h1
      rw [← he]; exact List.getElem_mem hlt
    exact absurd rfl (habs inst hmem _ (mem_of_emitted _ _ _ _ h3))

/-- C11: with no assumption on the order of the entries, if no instance has an entry with
feature id `j`, `0 ≤ j < numFeatures`, then `SortFeaValue(numFeatures)` run on an empty index
returns (no out-of-range read) an index with exactly `numFeatures` columns whose column `j`
exists and is empty. -/
theorem SortFeaValue_absent_feature {V : Type} [LinearOrder V]
    (srt : (key_value V → key_value V → Bool) → List (key_value V) → List (key_value V))
    (hsrt : StdSort srt) (ins : List (List (key_value V))) (nNumofDim : Int) (j : Nat)
    (hj : (j : Int) < nNumofDim) (habs : ∀ inst ∈ ins, ∀ e ∈ inst, e.id ≠ (j : Int)) :
    ∃ idx, SortFeaValue srt ins nNumofDim [] = some idx ∧
      (idx.length : Int) = nNumofDim ∧ idx[j]? = some [] := by
  obtain ⟨hlen, _, hcol, _⟩ := SortFeaValue_getElem? srt ins nNumofDim [] _
    (SortFeaValue_eq srt ins nNumofDim [])
  refine ⟨_, SortFeaValue_eq srt ins nNumofDim [], ?_, ?_⟩
  · rw [hlen]; simp only [List.length_nil, zero_add]; omega
  · have h := hcol j (by omega)
    simp only [List.length_nil, zero_add] at h
    rw [h, collected_eq_nil_of_absent ins j habs]
    exact congrArg some ((hsrt CmpValue [] CmpValue_strictWeak).1.eq_nil)

theorem SortFeaValue_absent_feature_witness :
    (StdSort (insertionStdSort :
        (key_value Int → key_value Int → Bool) → List (key_value Int) → List (key_value Int)) ∧
      ((1 : Nat) : Int) < 3 ∧
      ∀ inst ∈ gapInstances, ∀ e ∈ inst, e.id ≠ ((1 : Nat) : Int)) ∧
    ∃ idx, SortFeaValue insertionStdSort gapInstances 3 [] = some idx ∧
      (idx.length : Int) = 3 ∧ idx[1]? = some [] :=
  ⟨⟨insertionStdSort_stdSort, by decide, by decide⟩,
    SortFeaValue_absent_feature insertionStdSort insertionStdSort_stdSort gapInstances 3 1
      (by decide) (by decide)⟩

theorem SortFeaValue_gap :
    SortFeaValue insertionStdSort gapInstances 3 [] = some [[], [], [⟨1, 9⟩, ⟨0, 7⟩]] := by decide

end Trainer

namespace Trainer

/-- C15: the cursor merge of `SortFeaValue` loses entries when ids are not strictly
ascending, and reports no error. With ids 0, 0, 1 (ascending, not strictly) and
`numFeatures = 2` the instance has the pair `(1, 7)` but column 1 has no entry for it; with
ids 1, 0 (out of order) the instance has the pair `(0, 5)` but column 0 has no entry for
it. -/
theorem SortFeaValue_incomplete_without_strict_order :
    (∃ (i : Nat) (inst : List (key_value Int)) (j : Nat) (v : Int)
        (idx : List (List (key_value Int))) (col : List (key_value Int)),
      SortFeaValue insertionStdSort repeatedIdInstances 2 [] = some idx ∧
      repeatedIdInstances[i]? = some inst ∧
      inst.Pairwise (fun a b => a.id ≤ b.id) ∧ ¬ inst.Pairwise (fun a b => a.id < b.id) ∧
      (⟨(j : Int), v⟩ : key_value Int) ∈ inst ∧ (j : Int) < 2 ∧
      idx[j]? = some col ∧ ∀ x ∈ col, x.id ≠ (i : Int)) ∧
    (∃ (i : Nat) (inst : List (key_value Int)) (j : Nat) (v : Int)
        (idx : List (List (key_value Int))) (col : List (key_value Int)),
      SortFeaValue insertionStdSort descendingIdInstances 2 [] = some idx ∧
      descendingIdInstances[i]? = some inst ∧
      ¬ inst.Pairwise (fun a b => a.id ≤ b.id) ∧
      (⟨(j : Int), v⟩ : key_value Int) ∈ inst ∧ (j : Int) < 2 ∧
      idx[j]? = some col ∧ ∀ x ∈ col, x.id ≠ (i : Int)) := by
  constructor
  · exact ⟨0, [⟨0, 5⟩, ⟨0, 6⟩, ⟨1, 7⟩], 1, 7, [[⟨0, 5⟩], []], [], by decide, by decide,
      by decide, by decide, by decide, by decide, by decide, by decide⟩
  · exact ⟨0, [⟨1, 7⟩, ⟨0, 5⟩], 0, 5, [[], [⟨0, 7⟩]], [], by decide, by decide, by decide,
      by decide, by decide, by decide, by decide⟩

/-- Closed form of `InitTrainer`: it always returns. -/
theorem InitTrainer_eq {X : Type}
    (srt : (key_value ℚ → key_value ℚ → Bool) → List (key_value ℚ) → List (key_value ℚ))
    (st : TrainerState X) (nNumofTree nMaxDepth : Int) (fLabda fGamma : ℚ) (nNumofFea : Int) :
    InitTrainer srt st nNumofTree nMaxDepth fLabda fGamma nNumofFea =
      some { st with
        m_nMaxNumofTree := nNumofTree
        m_nMaxDepth := nMaxDepth
        m_vPredBuffer_fixedPos :=
          st.m_vPredBuffer_fixedPos ++ List.replicate st.m_vvInsSparse.length 0
        splitter :=
          { st.splitter with
            m_labda := fLabda
            m_gamma := fGamma
            m_vGDPair_fixedPos :=
              st.splitter.m_vGDPair_fixedPos ++
                List.replicate st.m_vvInsSparse.length gdpair.init
            m_vvFeaInxPair :=
              st.splitter.m_vvFeaInxPair ++ (List.range nNumofFea.toNat).map
                (fun j => srt CmpValue (collected st.m_vvInsSparse j)) } } := by
  simp only [InitTrainer, SortFeaValue_eq]

/-- C18: index construction appends. A second run of `SortFeaValue` with the same dataset
and `numFeatures` on the index the first run built from an empty one keeps the `numFeatures`
columns that are there and appends `numFeatures` further ones, column `numFeatures + j` equal
to column `j`, so the index has `2 * numFeatures` columns. A second run of `InitTrainer`
likewise leaves the prediction buffer and the gradient-pair vector with
`2 * numInstances` entries more than before the first run, and the index with twice the
same `numFeatures` columns appended. -/
theorem SortFeaValue_twice {V X : Type} [LinearOrder V]
    (srt : (key_value V → key_value V → Bool) → List (key_value V) → List (key_value V))
    (ins : List (List (key_value V))) (nNumofDim : Int)
    (srtQ : (key_value ℚ → key_value ℚ → Bool) → List (key_value ℚ) → List (key_value ℚ))
    (st : TrainerState X) (nNumofTree nMaxDepth : Int) (fLabda fGamma : ℚ) :
    (∃ idx1 idx2, SortFeaValue srt ins nNumofDim [] = some idx1 ∧
      SortFeaValue srt ins nNumofDim idx1 = some idx2 ∧
      idx1.length = nNumofDim.toNat ∧ idx2.length = 2 * nNumofDim.toNat ∧
      idx2 = idx1 ++ idx1 ∧
      ∀ j, j < nNumofDim.toNat →
        idx2[j]? = idx1[j]? ∧ idx2[nNumofDim.toNat + j]? = idx1[j]?) ∧
    (∃ st1 st2 cols, InitTrainer srtQ st nNumofTree nMaxDepth fLabda fGamma nNumofDim = some st1 ∧
      InitTrainer srtQ st1 nNumofTree nMaxDepth fLabda fGamma nNumofDim = some st2 ∧
      cols.length = nNumofDim.toNat ∧
      st1.splitter.m_vvFeaInxPair = st.splitter.m_vvFeaInxPair ++ cols ∧
      st2.splitter.m_vvFeaInxPair = st.splitter.m_vvFeaInxPair ++ cols ++ cols ∧
      st2.m_vPredBuffer_fixedPos.length =
        st.m_vPredBuffer_fixedPos.length + 2 * st.m_vvInsSparse.length ∧
      st2.splitter.m_vGDPair_fixedPos.length =
        st.splitter.m_vGDPair_fixedPos.length + 2 * st.m_vvInsSparse.length) := by
  constructor
  · refine ⟨_, _, SortFeaValue_eq srt ins nNumofDim [], SortFeaValue_eq srt ins nNumofDim _,
      by simp, by simp; omega, by simp, ?_⟩
    intro j hj
    simp only [List.nil_append]
    constructor
    · rw [List.getElem?_append_left (by simpa using hj)]
    · rw [List.getElem?_append_right (by simp)]
      simp
  · refine ⟨_, _, (List.range nNumofDim.toNat).map
        (fun j => srtQ CmpValue (collected st.m_vvInsSparse j)),
      InitTrainer_eq srtQ st nNumofTree nMaxDepth fLabda fGamma nNumofDim,
      InitTrainer_eq srtQ _ nNumofTree nMaxDepth fLabda fGamma nNumofDim,
      by simp, rfl, rfl, ?_, ?_⟩
    · simp; omega
    · simp; omega

/-- A second `SortFeaValue` on the small dataset: three columns become six. -/
theorem SortFeaValue_twice_demo :
    SortFeaValue insertionStdSort demoInstances 3 [[⟨0, 5⟩], [⟨1, 3⟩], [⟨1, 9⟩, ⟨0, 7⟩]] =
      some [[⟨0, 5⟩], [⟨1, 3⟩], [⟨1, 9⟩, ⟨0, 7⟩], [⟨0, 5⟩], [⟨1, 3⟩], [⟨1, 9⟩, ⟨0, 7⟩]] := by
  decide

end Trainer

namespace Trainer

/-! ## No entry is fabricated or used twice -/

theorem getElem?_of_emitted {V : Type} (inst : List (key_value V)) (j : Int) (c : Nat) (v : V)
    (h : emitted inst j c = some v) : inst[c]? = some ⟨j, v⟩ := by
  unfold emitted at h
  cases hc : inst[c]? with
  | none => rw [hc] at h; exact absurd h (by simp)
  | some e =>
    rw [hc] at h
    by_cases hid : e.id = j
    · simp only [hid, if_true, Option.some.injEq] at h
      cases e
      simp_all
    · simp [hid] at h

theorem advance_of_emitted {V : Type} (inst : List (key_value V)) (j : Int) (c : Nat) :
    advance inst j c = c + (if (emitted inst j c).isSome then 1 else 0) := by
  unfold advance emitted
  cases hc : inst[c]? with
  | none => simp
  | some e => by_cases hid : e.id = j <;> simp [hid]

theorem cursorAt_mono {V : Type} (inst : List (key_value V)) (j k : Nat) (h : j ≤ k) :
    cursorAt inst j ≤ cursorAt inst k := by
  induction k with
  | zero =>
    have : j = 0 := by omega
    subst this; exact le_rfl
  | succ k ih =>
    by_cases hjk : j = k + 1
    · subst hjk; exact le_rfl
    · have := ih (by omega)
      have hstep : cursorAt inst (k + 1) = advance inst (k : Int) (cursorAt inst k) := rfl
      rw [hstep, advance_of_emitted]
      omega

theorem contribution_isSome {V : Type} (ins : List (List (key_value V))) (j i : Nat)
    (hi : i < ins.length) :
    (contribution ins j i).isSome =
      (emitted (ins.getD i []) (j : Int) (cursorAt (ins.getD i []) j)).isSome := by
  unfold contribution
  have hget : ins.getD i [] = ins[i] := by
    simp [List.getD_eq_getElem?_getD, List.getElem?_eq_getElem hi]
  rw [List.getElem?_eq_getElem hi, hget]
  cases he : emitted ins[i] (j : Int) (cursorAt ins[i] j) <;> simp [he]

theorem length_filterMap_range {β : Type} (f : Nat → Option β) (n : Nat) :
    ((List.range n).filterMap f).length =
      ((List.range n).map (fun i => if (f i).isSome then 1 else 0)).sum := by
  induction n with
  | zero => simp
  | succ n ih =>
    rw [List.range_succ, List.filterMap_append, List.map_append, List.sum_append,
      List.length_append, ih]
    cases hf : f n <;> simp [List.filterMap_cons, hf]

/-- The cursors after feature `j` are the cursors before it plus the entries collected. -/
theorem cursors_sum_succ {V : Type} (ins : List (List (key_value V))) (j : Nat) :
    ((List.range ins.length).map (fun i => cursorAt (ins.getD i []) (j + 1))).sum =
      ((List.range ins.length).map (fun i => cursorAt (ins.getD i []) j)).sum +
        (collected ins j).length := by
  unfold collected
  rw [length_filterMap_range, ← List.sum_map_add]
  apply congrArg
  apply List.map_congr_left
  intro i hi
  have hlt : i < ins.length := List.mem_range.1 hi
  rw [contribution_isSome ins j i hlt]
  exact advance_of_emitted _ _ _

theorem collected_total {V : Type} (ins : List (List (key_value V))) (m : Nat) :
    ((List.range m).map (fun j => (collected ins j).length)).sum =
      ((List.range ins.length).map (fun i => cursorAt (ins.getD i []) m)).sum := by
  induction m with
  | zero => simp [cursorAt]
  | succ m ih => rw [List.sum_range_succ, ih, cursors_sum_succ]

theorem map_range_getD {α β : Type} (l : List α) (d : α) (f : α → β) :
    (List.range l.length).map (fun i => f (l.getD i d)) = l.map f := by
  apply List.ext_getElem?
  intro i
  by_cases hi : i < l.length
  · simp [List.getElem?_map, List.getElem?_range hi, List.getElem?_eq_getElem hi]
  · rw [List.getElem?_eq_none (by simp; omega), List.getElem?_eq_none (by simp; omega)]

theorem collected_total_le {V : Type} (ins : List (List (key_value V))) (m : Nat) :
    ((List.range m).map (fun j => (collected ins j).length)).sum ≤
      (ins.map List.length).sum := by
  rw [collected_total, ← map_range_getD ins [] List.length]
  exact List.sum_le_sum (fun i _ => cursorAt_le _ m)

theorem sourcePosition_injective {V : Type} (ins : List (List (key_value V))) (j k : Nat)
    (x y : key_value V) (hx : x ∈ collected ins j) (hy : y ∈ collected ins k)
    (h : sourcePosition ins j x = sourcePosition ins k y) : j = k ∧ x = y := by
  obtain ⟨i1, inst1, a1, a2, a3⟩ := (mem_collected ins j x).1 hx
  obtain ⟨i2, inst2, b1, b2, b3⟩ := (mem_collected ins k y).1 hy
  simp only [sourcePosition, Prod.mk.injEq] at h
  rw [a2, b2] at h
  simp only [Int.toNat_ofNat] at h
  obtain ⟨hi, hc⟩ := h
  subst hi
  rw [a1] at b1
  simp only [Option.some.injEq] at b1
  subst b1
  have hget : ins.getD i1 [] = inst1 := by simp [List.getD_eq_getElem?_getD, a1]
  rw [hget] at hc
  have hstep : ∀ (p : Nat) (v : V), emitted inst1 (p : Int) (cursorAt inst1 p) = some v →
      cursorAt inst1 (p + 1) = cursorAt inst1 p + 1 := by
    intro p v hv
    have hdef : cursorAt inst1 (p + 1) = advance inst1 (p : Int) (cursorAt inst1 p) := rfl
    rw [hdef, advance_of_emitted, hv]
    simp
  have hjk : j = k := by
    rcases Nat.lt_trichotomy j k with hlt | heq | hgt
    · have h1 := hstep j _ a3
      have h2 := cursorAt_mono inst1 (j + 1) k (by omega)
      omega
    · exact heq
    · have h1 := hstep k _ b3
      have h2 := cursorAt_mono inst1 (k + 1) j (by omega)
      omega
  subst hjk
  refine ⟨rfl, ?_⟩
  rw [a3] at b3
  simp only [Option.some.injEq] at b3
  cases x
  cases y
  simp_all

/-- C16: with no assumption on the order of the entries, `SortFeaValue` run on an empty
index neither fabricates nor duplicates entries. Every entry `(i, v)` of column `j` is the
pair `(j, v)` found at a position `p` of instance `i` (its `sourcePosition`); two entries,
of the same column or of different ones, never have the same source; no column repeats an
entry; and the columns hold together at most as many entries as the dataset. -/
theorem SortFeaValue_no_fabrication {V : Type} [LinearOrder V]
    (srt : (key_value V → key_value V → Bool) → List (key_value V) → List (key_value V))
    (hsrt : StdSort srt) (ins : List (List (key_value V))) (nNumofDim : Int) :
    ∃ idx, SortFeaValue srt ins nNumofDim [] = some idx ∧
      (∀ (j : Nat) (col : List (key_value V)) (x : key_value V), idx[j]? = some col → x ∈ col →
        col.Nodup ∧
        ∃ inst, x.id = ((sourcePosition ins j x).1 : Int) ∧
          ins[(sourcePosition ins j x).1]? = some inst ∧
          inst[(sourcePosition ins j x).2]? = some ⟨(j : Int), x.featureValue⟩) ∧
      (∀ (j k : Nat) (col1 col2 : List (key_value V)) (x y : key_value V),
        idx[j]? = some col1 → idx[k]? = some col2 → x ∈ col1 → y ∈ col2 →
        sourcePosition ins j x = sourcePosition ins k y → j = k ∧ x = y) ∧
      (idx.map List.length).sum ≤ (ins.map List.length).sum := by
  obtain ⟨_, _, hcol, hnone⟩ := SortFeaValue_getElem? srt ins nNumofDim [] _
    (SortFeaValue_eq srt ins nNumofDim [])
  have hcolumn : ∀ (j : Nat) (col : List (key_value V)),
      ([] ++ (List.range nNumofDim.toNat).map
        (fun j => srt CmpValue (collected ins j)))[j]? = some col →
      col.Perm (collected ins j) := by
    intro j col hj
    have hjn : j < nNumofDim.toNat := by
      by_contra hge
      have := hnone j (by omega)
      simp only [List.length_nil, zero_add] at this
      rw [this] at hj
      exact absurd hj (by simp)
    have hc := hcol j hjn
    simp only [List.length_nil, zero_add] at hc
    rw [hc] at hj
    simp only [Option.some.injEq] at hj
    subst hj
    exact (hsrt CmpValue (collected ins j) CmpValue_strictWeak).1
  refine ⟨_, SortFeaValue_eq srt ins nNumofDim [], ?_, ?_, ?_⟩
  · intro j col x hj hx
    have hperm := hcolumn j col hj
    refine ⟨hperm.nodup_iff.2 (collected_nodup ins j), ?_⟩
    obtain ⟨i, inst, h1, h2, h3⟩ := (mem_collected ins j x).1 (hperm.mem_iff.1 hx)
    have hget : ins.getD i [] = inst := by simp [List.getD_eq_getElem?_getD, h1]
    refine ⟨inst, ?_, ?_, ?_⟩
    · simp [sourcePosition, h2]
    · simp [sourcePosition, h2, h1]
    · simp only [sourcePosition, h2, Int.toNat_ofNat, hget]
      exact getElem?_of_emitted _ _ _ _ h3
  · intro j k col1 col2 x y hj hk hx hy hsame
    exact sourcePosition_injective ins j k x y ((hcolumn j col1 hj).mem_iff.1 hx)
      ((hcolumn k col2 hk).mem_iff.1 hy) hsame
  · simp only [List.nil_append, List.map_map]
    have hlen : (List.length ∘ fun j => srt CmpValue (collected ins j)) =
        fun j => (collected ins j).length := by
      funext j
      exact (hsrt CmpValue (collected ins j) CmpValue_strictWeak).1.length_eq
    rw [hlen]
    exact collected_total_le ins _

theorem SortFeaValue_no_fabrication_witness :
    StdSort (insertionStdSort :
        (key_value Int → key_value Int → Bool) → List (key_value Int) → List (key_value Int)) ∧
    ∃ idx, SortFeaValue insertionStdSort repeatedIdInstances 2 [] = some idx ∧
      (∀ (j : Nat) (col : List (key_value Int)) (x : key_value Int), idx[j]? = some col →
        x ∈ col →
        col.Nodup ∧
        ∃ inst, x.id = ((sourcePosition repeatedIdInstances j x).1 : Int) ∧
          repeatedIdInstances[(sourcePosition repeatedIdInstances j x).1]? = some inst ∧
          inst[(sourcePosition repeatedIdInstances j x).2]? =
            some ⟨(j : Int), x.featureValue⟩) ∧
      (∀ (j k : Nat) (col1 col2 : List (key_value Int)) (x y : key_value Int),
        idx[j]? = some col1 → idx[k]? = some col2 → x ∈ col1 → y ∈ col2 →
        sourcePosition repeatedIdInstances j x = sourcePosition repeatedIdInstances k y →
        j = k ∧ x = y) ∧
      (idx.map List.length).sum ≤ (repeatedIdInstances.map List.length).sum :=
  ⟨insertionStdSort_stdSort,
    SortFeaValue_no_fabrication insertionStdSort insertionStdSort_stdSort
      repeatedIdInstances 2⟩

end Trainer

namespace Trainer

/-! ## The initial growth state -/

/-- C12: for a dataset of `n` instances and whatever node assignment the trainer holds,
`InitTree` on a fresh tree yields the initial growth state: the tree holds exactly one node,
the newly allocated root, at position 0, with `nodeId = 0`, `level = 0` and the instance
range `[0, n - 1]`; the nodes allocated before are untouched; the node counter is 1; the node
assignment has length `n` and assigns every instance to node 0; and `GrowTree2` starts its
level loop with the frontier that holds exactly the root. -/
theorem InitTree_initial_state {X : Type} (c : Collaborators X) (st : TrainerState X)
    (fuel : Nat) :
    (InitTree st { nodes := [] }).2.nodes = [st.heap.length] ∧
    (∃ root, (InitTree st { nodes := [] }).1.heap = st.heap ++ [root] ∧
      (InitTree st { nodes := [] }).1.heap[st.heap.length]? = some root ∧
      root.nodeId = 0 ∧ root.level = 0 ∧ root.startId = 0 ∧
      root.endId = (st.m_vvInsSparse.length : Int) - 1) ∧
    (InitTree st { nodes := [] }).1.m_nNumofNode = 1 ∧
    (InitTree st { nodes := [] }).1.splitter.m_nodeIds.length = st.m_vvInsSparse.length ∧
    (∀ i, i < st.m_vvInsSparse.length →
      (InitTree st { nodes := [] }).1.splitter.m_nodeIds[i]? = some 0) ∧
    (InitTree st { nodes := [] }).1.m_vvInsSparse = st.m_vvInsSparse ∧
    GrowTree2 c fuel (InitTree st { nodes := [] }).1 (InitTree st { nodes := [] }).2 =
      growLoop c fuel 0 (InitTree st { nodes := [] }).1 (InitTree st { nodes := [] }).2
        [st.heap.length] := by
  refine ⟨rfl, ⟨_, rfl, ?_, rfl, rfl, rfl, rfl⟩, rfl, ?_, ?_, rfl, rfl⟩
  · simp [InitTree]
  · simp [InitTree]
  · intro i hi
    simp [InitTree, List.getElem?_replicate, hi]

/-- The second round of the end-to-end example starts from a node assignment left by the
first tree and resets it. -/
theorem InitTree_e2e_second_round :
    (e2eResult 1 []).st.splitter.m_nodeIds = [2, 2, 1, 1] ∧
    (InitTree (e2eResult 1 []).st { nodes := [] }).1.splitter.m_nodeIds = [0, 0, 0, 0] ∧
    (InitTree (e2eResult 1 []).st { nodes := [] }).2.nodes = [3] ∧
    (InitTree (e2eResult 1 []).st { nodes := [] }).1.heap[3]? =
      some { TreeNode.init with endId := 3 } := by
  refine ⟨by decide!, by decide!, by decide!, by decide!⟩

end Trainer

namespace Trainer

/-! ## The text of `SaveModel` -/

theorem foldl_append_eq (l : List String) (s : String) :
    l.foldl (fun r x => r ++ x) s = s ++ l.foldl (fun r x => r ++ x) "" := by
  induction l generalizing s with
  | nil => simp
  | cons a l ih =>
    simp only [List.foldl_cons]
    rw [ih (s ++ a), ih ("" ++ a), String.empty_append, String.append_assoc]

theorem join_append_eq (l1 l2 : List String) :
    String.join (l1 ++ l2) = String.join l1 ++ String.join l2 := by
  simp only [String.join, List.foldl_append]
  exact foldl_append_eq l2 _

theorem join_singleton_eq (s : String) : String.join [s] = s := by
  simp [String.join]

/-- The text written for the first `k` trees. -/
theorem SaveModel_upto (PrintTree : List TreeNode → RegTree → String) (heap : List TreeNode)
    (v_Tree : List RegTree) (k : Nat) (hk : k ≤ v_Tree.length) :
    (List.range k).foldlM
      (fun m_writeOut i =>
        match v_Tree[i]? with
        | some tree =>
          some (m_writeOut ++ ("booster[" ++ toString i ++ "]:\n") ++ PrintTree heap tree)
        | none => none) "" =
      some (String.join ((v_Tree.take k).enum.map
        (fun p => ("booster[" ++ toString p.1 ++ "]:\n") ++ PrintTree heap p.2))) := by
  induction k with
  | zero => simp [String.join]
  | succ k ih =>
    have hlt : k < v_Tree.length := by omega
    rw [List.range_succ, List.foldlM_append, ih (by omega)]
    simp only [Option.bind_eq_bind, Option.some_bind, List.foldlM_cons, List.foldlM_nil,
      List.getElem?_eq_getElem hlt, Option.pure_def]
    rw [List.take_succ, List.getElem?_eq_getElem hlt]
    simp only [Option.toList_some, List.enum_append, List.map_append, join_append_eq,
      List.length_take, Nat.min_eq_left (Nat.le_of_lt hlt), List.enumFrom_singleton,
      List.map_cons, List.map_nil, join_singleton_eq, String.append_assoc]

/-- C13: for an ensemble of `n` trees `SaveModel` writes, for `i = 0 .. n - 1` in ensemble
order, the line `booster[i]:` (`i` in decimal, then a newline) immediately followed by what
the printer writes for tree `i`, and nothing else; for the empty ensemble it writes
nothing. -/
theorem SaveModel_text (PrintTree : List TreeNode → RegTree → String) (heap : List TreeNode)
    (v_Tree : List RegTree) :
    SaveModel PrintTree heap v_Tree =
      some (String.join (v_Tree.enum.map
        (fun p => ("booster[" ++ toString p.1 ++ "]:\n") ++ PrintTree heap p.2))) ∧
    SaveModel PrintTree heap [] = some "" := by
  refine ⟨?_, rfl⟩
  have h := SaveModel_upto PrintTree heap v_Tree v_Tree.length le_rfl
  rw [List.take_length] at h
  exact h

/-- The text for the two trees of the end-to-end run under the demonstration printer. -/
theorem SaveModel_demo :
    SaveModel demoPrintTree [] [{ nodes := [0, 1, 2] }, { nodes := [3, 4, 5] }] =
      some "booster[0]:\nnode 0\nnode 1\nnode 2\nbooster[1]:\nnode 3\nnode 4\nnode 5\n" := by
  decide

/-- The label of the eleventh tree: the index is written in decimal. -/
theorem SaveModel_label_demo :
    ("booster[" ++ toString (10 : Nat) ++ "]:\n") = "booster[10]:\n" := by decide

end Trainer

namespace Trainer

/-! ## One level of `GrowTree2`, node by node -/

end Trainer

namespace Trainer

theorem specCollaborators_splitAppends : SplitAppends specCollaborators := by
  intro sp heap node nsn best tree nns cnt
  show ∃ children, (specSplitNode sp heap node nsn best tree nns cnt).newSplittableNode =
    nsn ++ children
  unfold specSplitNode
  cases heap[node]? with
  | none => exact ⟨[], by simp⟩
  | some nd => exact ⟨[heap.length, heap.length + 1], rfl⟩

/-- The first level of the end-to-end example: the next frontier is the two children of the
root, and the calls are the finder, the split of the root, its mark and the update. -/
theorem e2eLevelOne_frontier :
    e2eLevelOne.newSplittableNode = [1, 2] ∧
    e2eLevelOne.st.calls =
      [Call.FeaFinderAllNode, Call.SplitNodeSparseData 0 e2eRootBest, Call.MarkProcessed 0,
        Call.UpdateNodeStat [1, 2]] := by
  exact ⟨by decide!, by decide!⟩

end Trainer

namespace Trainer

/-! ## A negative `maxDepth` bounds nothing -/

theorem resolveNode_negative_maxDepth {X : Type} (c : Collaborators X)
    (vBest : List SplitPoint) (nCurDepth : Int) (ls : LevelState X) (node : Nat)
    (nd : TreeNode) (bufferPos : Int) (best : SplitPoint)
    (hnd : ls.st.heap[node]? = some nd)
    (hpos : c.mapNodeIdToBufferPos_at ls.st.splitter nd.nodeId = some bufferPos)
    (hbest : vecAt vBest bufferPos = some best)
    (hneg : ls.st.m_nMaxDepth < 0) (hlevel : 0 ≤ nCurDepth) :
    resolveNode c vBest nCurDepth ls node =
      if best.m_fGain ≤ 0 then markProcessed c (resolveAsLeaf c ls node nd bufferPos) node
      else markProcessed c (resolveBySplit c ls node best) node := by
  have hne : ¬ ls.st.m_nMaxDepth = nCurDepth := by omega
  simp only [resolveNode, hnd, hpos, hbest, hne, or_false]

/-- One pass of the level loop under the ever-splitting collaborators on a frontier of one
allocated node: the next frontier is the one newly allocated child. -/
theorem everSplitting_level (st : TrainerState Unit) (tree : RegTree) (p : Nat)
    (nCurDepth : Int) (hp : p < st.heap.length) (hneg : st.m_nMaxDepth < 0)
    (hlevel : 0 ≤ nCurDepth) :
    ∃ ls, growLevel everSplitting nCurDepth st tree [p] = some ls ∧
      ls.newSplittableNode = [st.heap.length] ∧
      ls.st.heap.length = st.heap.length + 1 ∧ ls.st.m_nMaxDepth = st.m_nMaxDepth := by
  have hget : (findSplits everSplitting st).1.heap[p]? = some st.heap[p] :=
    List.getElem?_eq_getElem hp
  have hbest : vecAt (findSplits everSplitting st).2 0 =
      some { SplitPoint.init with m_fGain := 1 } := rfl
  have hsplit : ¬ (({ SplitPoint.init with m_fGain := 1 } : SplitPoint).m_fGain ≤ 0 ∨
      (findSplits everSplitting st).1.m_nMaxDepth = nCurDepth) := by
    intro hc
    rcases hc with hc | hc
    · exact absurd hc (by norm_num)
    · have : st.m_nMaxDepth = nCurDepth := hc
      omega
  have hget1 : (everSplitting.SplitNodeSparseData (findSplits everSplitting st).1.splitter
      (findSplits everSplitting st).1.heap p [] { SplitPoint.init with m_fGain := 1 } tree []
      (findSplits everSplitting st).1.m_nNumofNode).heap[p]? = some st.heap[p] := by
    show (st.heap ++ [{ TreeNode.init with nodeId := st.m_nNumofNode }])[p]? = some st.heap[p]
    rw [List.getElem?_append_left hp, List.getElem?_eq_getElem hp]
  obtain ⟨r, hr, hheap, _, _, hnew⟩ := resolveNode_split_case everSplitting
    (findSplits everSplitting st).2 nCurDepth
    { st := (findSplits everSplitting st).1, tree := tree, newSplittableNode := [],
      newNodeStat := [] } p st.heap[p] st.heap[p] 0 { SplitPoint.init with m_fGain := 1 }
    hget rfl hbest hsplit hget1
  have hframe := (resolveNode_frame everSplitting _ nCurDepth _ r p hr).1
  have hfold : [p].foldlM (resolveNode everSplitting (findSplits everSplitting st).2 nCurDepth)
      { st := (findSplits everSplitting st).1, tree := tree, newSplittableNode := [],
        newNodeStat := [] } = some r := by
    simp only [List.foldlM_cons, List.foldlM_nil, hr, Option.bind_eq_bind, Option.some_bind,
      Option.pure_def]
  have hgl : growLevel everSplitting nCurDepth st tree [p] =
      some { r with
        st := { r.st with
          splitter := everSplitting.UpdateNodeStat r.st.splitter r.st.heap r.newSplittableNode
            r.newNodeStat
          calls := r.st.calls ++ [Call.UpdateNodeStat r.newSplittableNode] } } := by
    simp only [growLevel, hfold]
  refine ⟨_, hgl, ?_, ?_, ?_⟩
  · show r.newSplittableNode = [st.heap.length]
    rw [hnew]
    rfl
  · show r.st.heap.length = st.heap.length + 1
    rw [hheap]
    show (st.heap ++ [{ TreeNode.init with nodeId := st.m_nNumofNode }]).length = _
    simp
  · show r.st.m_nMaxDepth = st.m_nMaxDepth
    rw [hframe]
    rfl

/-- Under the ever-splitting collaborators and a negative `maxDepth` no number of passes of
the level loop empties the frontier. -/
theorem everSplitting_never_done :
    ∀ (fuel : Nat) (st : TrainerState Unit) (tree : RegTree) (p : Nat) (nCurDepth : Int),
      p < st.heap.length → st.m_nMaxDepth < 0 → 0 ≤ nCurDepth →
      growLoop everSplitting fuel nCurDepth st tree [p] = Outcome.outOfFuel := by
  intro fuel
  induction fuel with
  | zero => intro st tree p d _ _ _; rfl
  | succ k ih =>
    intro st tree p d hp hneg hd
    obtain ⟨ls, hl, hnew, hlen, hmax⟩ := everSplitting_level st tree p d hp hneg hd
    simp only [growLoop, hl]
    rw [hnew]
    exact ih ls.st ls.tree st.heap.length (d + 1) (by omega) (by omega) (by omega)

/-- C17: for `maxDepth < 0` the depth test `m_nMaxDepth == nCurDepth` never holds in a level
(the counter starts at 0 and only grows), so the frontier loop resolves a node as a leaf
exactly when its best gain is `≤ 0`. Consequently no depth bound limits growth: under
collaborators that give every node a positive gain and make every split create a child,
`GrowTree2` started on any allocated root still has a non-empty frontier after `n` passes of
the level loop, for every `n` (the run with `n` passes allowed always runs short). -/
theorem negative_maxDepth_unbounded {X : Type} (c : Collaborators X)
    (vBest : List SplitPoint) (nCurDepth : Int) (ls : LevelState X) (node : Nat)
    (nd : TreeNode) (bufferPos : Int) (best : SplitPoint)
    (hnd : ls.st.heap[node]? = some nd)
    (hpos : c.mapNodeIdToBufferPos_at ls.st.splitter nd.nodeId = some bufferPos)
    (hbest : vecAt vBest bufferPos = some best)
    (hneg : ls.st.m_nMaxDepth < 0) (hlevel : 0 ≤ nCurDepth) :
    ¬ ls.st.m_nMaxDepth = nCurDepth ∧
    (resolveNode c vBest nCurDepth ls node =
      if best.m_fGain ≤ 0 then markProcessed c (resolveAsLeaf c ls node nd bufferPos) node
      else markProcessed c (resolveBySplit c ls node best) node) ∧
    (∀ (n : Nat) (st : TrainerState Unit) (root : Nat), root < st.heap.length →
      st.m_nMaxDepth < 0 →
      GrowTree2 everSplitting n st { nodes := [root] } = Outcome.outOfFuel) := by
  refine ⟨by omega,
    resolveNode_negative_maxDepth c vBest nCurDepth ls node nd bufferPos best hnd hpos hbest
      hneg hlevel, ?_⟩
  intro n st root hroot hmax
  exact everSplitting_never_done n st { nodes := [root] } root 0 hroot hmax le_rfl

theorem negative_maxDepth_unbounded_witness :
    (unboundedStart.heap[0]? = some TreeNode.init ∧
      everSplitting.mapNodeIdToBufferPos_at unboundedStart.splitter TreeNode.init.nodeId =
        some 0 ∧
      vecAt [{ SplitPoint.init with m_fGain := 1 }] 0 =
        some { SplitPoint.init with m_fGain := 1 } ∧
      unboundedStart.m_nMaxDepth < 0 ∧ (0 : Int) ≤ 7) ∧
    (¬ unboundedStart.m_nMaxDepth = 7 ∧
    (resolveNode everSplitting [{ SplitPoint.init with m_fGain := 1 }] 7
        { st := unboundedStart, tree := { nodes := [0] }, newSplittableNode := [],
          newNodeStat := [] } 0 =
      if ({ SplitPoint.init with m_fGain := 1 } : SplitPoint).m_fGain ≤ 0 then
        markProcessed everSplitting
          (resolveAsLeaf everSplitting
            { st := unboundedStart, tree := { nodes := [0] }, newSplittableNode := [],
              newNodeStat := [] } 0 TreeNode.init 0) 0
      else
        markProcessed everSplitting
          (resolveBySplit everSplitting
            { st := unboundedStart, tree := { nodes := [0] }, newSplittableNode := [],
              newNodeStat := [] } 0 { SplitPoint.init with m_fGain := 1 }) 0) ∧
    (∀ (n : Nat) (st : TrainerState Unit) (root : Nat), root < st.heap.length →
      st.m_nMaxDepth < 0 →
      GrowTree2 everSplitting n st { nodes := [root] } = Outcome.outOfFuel)) :=
  ⟨⟨by decide!, by decide!, by decide!, by decide, by decide⟩,
    negative_maxDepth_unbounded everSplitting [{ SplitPoint.init with m_fGain := 1 }] 7
      { st := unboundedStart, tree := { nodes := [0] }, newSplittableNode := [],
        newNodeStat := [] } 0 TreeNode.init 0 { SplitPoint.init with m_fGain := 1 }
      (by decide!) (by decide!) (by decide!) (by decide) (by decide)⟩

/-- Three passes from the unbounded start: the run is out of passes, and with the same
collaborators and `maxDepth = 2` the run is done after three passes. -/
theorem unbounded_demo :
    GrowTree2 everSplitting 3 unboundedStart { nodes := [0] } = Outcome.outOfFuel ∧
    (match GrowTree2 everSplitting 3 { unboundedStart with m_nMaxDepth := 2 }
        { nodes := [0] } with
      | Outcome.done g => some (g.nCurDepth, g.tree)
      | _ => none) = some (3, { nodes := [0, 1, 2] }) := by
  exact ⟨by decide!, by decide!⟩

end Trainer
